import Mathlib

/-!
# SamehadaDB storage core: disk pager, buffer pool, tuple layer

A shallow embedding of `storage/disk/virtual_disk_manager_impl.go`,
`storage/buffer/buffer_pool_manager.go` and `storage/tuple/tuple.go`.

Conventions.
* `types.PageID` is a signed 32-bit integer (the constructor of the disk manager
  converts through `int32`); it is an `Int`, and arithmetic on it is wrapped by `wrap32`.
* `FrameID` is a `Nat`.
* `common.PageSize` and `common.EnableDebug` are constants of a package that is not
  among the sources; they are the fields of `Common` and every operation takes them
  as a parameter.
* A Go `panic` ends the call; the state reached at that point is kept in `Res.panic`.
* The mutex and the page latches have no effect on a sequential run and are left out.
-/

namespace SamehadaDB

/-! ## Package common -/

/-- Constants of package `common`: the page size and the debug switch. -/
structure Common where
  PageSize : Nat
  EnableDebug : Bool
  deriving DecidableEq, Repr

/-- Why a call stopped with a Go panic. -/
inductive Fault where
  /-- `panic("bytes written not equals page size")` in `WritePage`. -/
  | shortWrite
  /-- `panic("ReadPage returned error!")` in `FetchPage`. -/
  | readPageError
  /-- `panic("could not find page")` in `UnpinPage` when debugging is enabled. -/
  | couldNotFindPage
  /-- `panic("Pin count greater than 0")` in `DeletePage`. -/
  | pinCountGreaterThanZero
  /-- A run-time panic: method call on a nil `*page.Page`. -/
  | nilPage
  /-- A run-time panic: slice index out of range. -/
  | indexOutOfRange
  deriving DecidableEq, Repr

/-- Outcome of a call: it returns `a` in state `s`, or panics in state `s`. -/
inductive Res (σ : Type) (α : Type) where
  | ok (s : σ) (a : α)
  | panic (s : σ) (f : Fault)
  deriving DecidableEq, Repr

/-- The state in which a call ended, whether it returned or panicked. -/
def Res.state {σ α : Type} : Res σ α → σ
  | .ok s _ => s
  | .panic s _ => s

/-- The value a call returned, if it returned. -/
def Res.value {σ α : Type} : Res σ α → Option α
  | .ok _ a => some a
  | .panic _ _ => none

/-- The Go panic with which a call stopped, if it did. -/
def Res.fault {σ α : Type} : Res σ α → Option Fault
  | .ok _ _ => none
  | .panic _ f => some f

/-- Two's-complement wrap of an integer to 32 bits (Go `int32` arithmetic). -/
def wrap32 (x : Int) : Int := (x + 2147483648) % 4294967296 - 2147483648

/-- A slice of `n` zero bytes: `make([]byte, n)`. -/
def zeroBytes (n : Nat) : List UInt8 := List.replicate n 0

/-! ## The data file (`os.File`) -/

/-- The data file as the disk manager sees it: its bytes and the offset of the open handle. -/
structure File where
  bytes : List UInt8
  pos : Nat
  deriving DecidableEq, Repr

/-- `f.Seek(offset, io.SeekStart)`: a negative offset is an error (which the callers
ignore) and leaves the position where it was. -/
def File.Seek (f : File) (offset : Int) : File :=
  if offset < 0 then f else { f with pos := offset.toNat }

/-- `f.Write(data)`: writes all of `data` at the current position, filling a gap between
the end of the file and the position with zeros; the position moves past the data. -/
def File.Write (f : File) (data : List UInt8) : File :=
  { bytes := (f.bytes ++ zeroBytes (f.pos - f.bytes.length)).take f.pos
               ++ data ++ f.bytes.drop (f.pos + data.length)
    pos := f.pos + data.length }

/-- `f.Read(buf)` for a buffer of length `n`: the bytes read, or `none` for `io.EOF`
(nothing left at the position and `n > 0`). -/
def File.Read (f : File) (n : Nat) : Option (List UInt8) × File :=
  if n = 0 then (some [], f)
  else
    let got := (f.bytes.drop f.pos).take n
    if got = [] then (none, f) else (some got, { f with pos := f.pos + got.length })

/-! ## Disk manager -/

/-- `VirtualDiskManagerImpl`: the data file, the next page id and the cached file size.
The log file and the counters play no part in page I/O. -/
structure VirtualDiskManagerImpl where
  db : File
  nextPageID : Int
  size : Int
  deriving DecidableEq, Repr

/-- The data-file part of `NewVirtualDiskManagerImpl` for a file holding `content`. -/
def NewVirtualDiskManagerImpl (c : Common) (content : List UInt8) : VirtualDiskManagerImpl :=
  let fileSize : Int := content.length
  let nPages : Int := fileSize / c.PageSize
  { db := { bytes := content, pos := 0 }
    nextPageID := if nPages > 0 then wrap32 (nPages + 1) else 0
    size := fileSize }

/-- The offset `int64(pageId * common.PageSize)`: the product is taken in 32 bits. -/
def pageOffset (c : Common) (pageId : Int) : Int := wrap32 (pageId * c.PageSize)

/-- `WritePage`: seek, write, panic when the count written is not the page size,
extend the cached size. Returns `nil` (unit) on success. -/
def VirtualDiskManagerImpl.WritePage (c : Common) (d : VirtualDiskManagerImpl)
    (pageId : Int) (pageData : List UInt8) : Res VirtualDiskManagerImpl Unit :=
  let offset := pageOffset c pageId
  let db := (d.db.Seek offset).Write pageData
  let bytesWritten := pageData.length
  if bytesWritten ≠ c.PageSize then .panic { d with db := db } .shortWrite
  else
    let size := if offset ≥ d.size then offset + (bytesWritten : Int) else d.size
    .ok { d with db := db, size := size } ()

/-- Errors `ReadPage` returns. -/
inductive ReadError where
  /-- `I/O error past end of file`. -/
  | pastEndOfFile
  /-- `I/O error while reading`. -/
  | whileReading
  deriving DecidableEq, Repr

/-- `ReadPage` into the buffer `pageData`: the returned triple is the error (if any),
the buffer afterwards and the disk manager afterwards. A short read zero-fills the first
`PageSize` bytes of the buffer, which panics when the buffer is shorter than that. -/
def VirtualDiskManagerImpl.ReadPage (c : Common) (d : VirtualDiskManagerImpl)
    (pageID : Int) (pageData : List UInt8) :
    Res VirtualDiskManagerImpl (Option ReadError × List UInt8) :=
  let offset := pageOffset c pageID
  if offset > (d.db.bytes.length : Int) then .ok d (some .pastEndOfFile, pageData)
  else
    let db := d.db.Seek offset
    match db.Read pageData.length with
    | (none, db1) => .ok { d with db := db1 } (some .whileReading, pageData)
    | (some got, db1) =>
      let buf := got ++ pageData.drop got.length
      if got.length < c.PageSize then
        if buf.length < c.PageSize then .panic { d with db := db1 } .indexOutOfRange
        else .ok { d with db := db1 } (none, zeroBytes c.PageSize ++ buf.drop c.PageSize)
      else .ok { d with db := db1 } (none, buf)

/-- `AllocatePage`: returns `nextPageID`, writes a zero page there and increments it. -/
def VirtualDiskManagerImpl.AllocatePage (c : Common) (d : VirtualDiskManagerImpl) :
    Res VirtualDiskManagerImpl Int :=
  let ret := d.nextPageID
  match d.WritePage c ret (zeroBytes c.PageSize) with
  | .panic d1 f => .panic d1 f
  | .ok d1 _ => .ok { d1 with nextPageID := wrap32 (d1.nextPageID + 1) } ret

/-- `DeallocatePage` does nothing. -/
def VirtualDiskManagerImpl.DeallocatePage (d : VirtualDiskManagerImpl) (_pageID : Int) :
    VirtualDiskManagerImpl := d

/-! ## Pages -/

/-- Modelled from the spec: `page.Page` is not among the sources. A frame's page has a
page id, a pin count, a dirty flag and its bytes (a `[PageSize]byte` array, so the list
has length `PageSize` in every page the pool creates). -/
structure Page where
  id : Int
  pinCount : Int
  isDirty : Bool
  data : List UInt8
  deriving DecidableEq, Repr

/-- Modelled from the spec: `page.New(id, isDirty, data)` is not among the sources; a page
enters the pool with `pin_count = 1`. -/
def Page.New (id : Int) (isDirty : Bool) (data : List UInt8) : Page :=
  { id := id, pinCount := 1, isDirty := isDirty, data := data }

/-- Modelled from the spec: `page.NewEmpty(id)` is not among the sources; the frame's bytes
are zeroed, `pin_count = 1`, `is_dirty = false`. -/
def Page.NewEmpty (c : Common) (id : Int) : Page :=
  Page.New id false (zeroBytes c.PageSize)

/-- Modelled from the spec: `IncPinCount` is not among the sources; it adds one. -/
def Page.IncPinCount (p : Page) : Page := { p with pinCount := p.pinCount + 1 }

/-- Modelled from the spec: `DecPinCount` is not among the sources; it subtracts one. -/
def Page.DecPinCount (p : Page) : Page := { p with pinCount := p.pinCount - 1 }

/-- Setter of the dirty flag. -/
def Page.SetIsDirty (p : Page) (d : Bool) : Page := { p with isDirty := d }

/-- The copy `copy(pageData[:], data)` into a fresh `[PageSize]byte` array. -/
def toPageArray (c : Common) (data : List UInt8) : List UInt8 :=
  (data ++ zeroBytes c.PageSize).take c.PageSize

/-! ## Clock replacer -/

/-- Modelled from the spec: `ClockReplacer` is not among the sources. A ring sized to the
pool with a per-frame in-pool (eligible) flag and reference bit, and the clock hand. -/
structure ClockReplacer where
  inPool : List Bool
  refBit : List Bool
  hand : Nat
  deriving DecidableEq, Repr

/-- Modelled from the spec: `NewClockReplacer(poolSize)`; no frame is eligible. -/
def NewClockReplacer (poolSize : Nat) : ClockReplacer :=
  { inPool := List.replicate poolSize false
    refBit := List.replicate poolSize false
    hand := 0 }

/-- Modelled from the spec: `Pin` marks the frame as not eligible for eviction. -/
def ClockReplacer.Pin (r : ClockReplacer) (f : Nat) : ClockReplacer :=
  { r with inPool := r.inPool.set f false }

/-- Modelled from the spec: `Unpin` marks the frame eligible and sets its reference bit. -/
def ClockReplacer.Unpin (r : ClockReplacer) (f : Nat) : ClockReplacer :=
  { r with inPool := r.inPool.set f true, refBit := r.refBit.set f true }

/-- Whether the frame is eligible for eviction. -/
def ClockReplacer.eligible (r : ClockReplacer) (f : Nat) : Bool := r.inPool.getD f false

/-- Modelled from the spec: the clock sweep from the hand. An eligible frame whose
reference bit is set has it cleared and is passed over; otherwise it is returned (and is
no longer eligible) and the hand advances. -/
def ClockReplacer.sweep : Nat → ClockReplacer → Option Nat × ClockReplacer
  | 0, r => (none, r)
  | k + 1, r =>
    let h := r.hand
    let next := (h + 1) % r.inPool.length
    if r.eligible h then
      if r.refBit.getD h false then
        ClockReplacer.sweep k { r with refBit := r.refBit.set h false, hand := next }
      else (some h, { r with inPool := r.inPool.set h false, hand := next })
    else ClockReplacer.sweep k { r with hand := next }

/-- Modelled from the spec: `Victim` returns `none` only if no eligible frame exists;
otherwise it sweeps (two turns of the ring always reach a frame). -/
def ClockReplacer.Victim (r : ClockReplacer) : Option Nat × ClockReplacer :=
  if r.inPool.all (fun e => !e) then (none, r)
  else ClockReplacer.sweep (2 * r.inPool.length) r

/-! ## Page table (Go map from page id to frame id) -/

/-- Lookup `m[k]`. -/
def tableGet : List (Int × Nat) → Int → Option Nat
  | [], _ => none
  | (k, v) :: m, x => if k = x then some v else tableGet m x

/-- Removal `delete(m, k)`. -/
def tableDelete (m : List (Int × Nat)) (k : Int) : List (Int × Nat) :=
  m.filter (fun e => decide (e.1 ≠ k))

/-- Assignment `m[k] = v`. -/
def tableSet (m : List (Int × Nat)) (k : Int) (v : Nat) : List (Int × Nat) :=
  (k, v) :: tableDelete m k

/-! ## Buffer pool manager -/

/-- Calls the buffer pool makes on its collaborators, in order. -/
inductive Event where
  /-- The call `log_manager.Flush()`. -/
  | logFlush
  /-- The call `diskManager.WritePage(pid, data)`. -/
  | writePage (pid : Int) (data : List UInt8)
  /-- The call `diskManager.ReadPage(pid, _)`. -/
  | readPage (pid : Int)
  /-- The call `diskManager.AllocatePage()`. -/
  | allocatePage
  /-- The call `diskManager.DeallocatePage(pid)`. -/
  | deallocatePage (pid : Int)
  deriving DecidableEq, Repr

/-- `BufferPoolManager`. The map `pageTable` is an association list without repeated
keys; `events` records the calls made on the log manager and the disk manager. -/
structure BufferPoolManager where
  diskManager : VirtualDiskManagerImpl
  pages : List (Option Page)
  replacer : ClockReplacer
  freeList : List Nat
  pageTable : List (Int × Nat)
  events : List Event
  deriving DecidableEq, Repr

/-- `NewBufferPoolManager`: every frame is free, the page table is empty. -/
def NewBufferPoolManager (poolSize : Nat) (DiskManager : VirtualDiskManagerImpl) :
    BufferPoolManager :=
  { diskManager := DiskManager
    pages := List.replicate poolSize none
    replacer := NewClockReplacer poolSize
    freeList := List.range poolSize
    pageTable := []
    events := [] }

/-- `getFrameID`: the head of the free list, else the victim of the replacer. The result
is the frame (if any), whether it came from the free list, and the pool afterwards. -/
def BufferPoolManager.getFrameID (b : BufferPoolManager) :
    Option Nat × Bool × BufferPoolManager :=
  match b.freeList with
  | frameID :: newFreeList => (some frameID, true, { b with freeList := newFreeList })
  | [] =>
    let (ret, r) := b.replacer.Victim
    (ret, false, { b with replacer := r })

/-- The block "remove page from current frame" of `FetchPage` and `NewPage` for a frame
that came from the replacer: a dirty page is written back after a log flush, and the
page leaves the page table. -/
def BufferPoolManager.removeCurrent (c : Common) (b : BufferPoolManager) (frameID : Nat) :
    Res BufferPoolManager Unit :=
  match b.pages[frameID]? with
  | none => .panic b .indexOutOfRange
  | some none => .ok b ()
  | some (some currentPage) =>
    if currentPage.isDirty then
      let ev := b.events ++ [Event.logFlush, Event.writePage currentPage.id currentPage.data]
      match b.diskManager.WritePage c currentPage.id currentPage.data with
      | .panic d f => .panic { b with diskManager := d, events := ev } f
      | .ok d _ =>
        .ok { b with diskManager := d, events := ev,
                     pageTable := tableDelete b.pageTable currentPage.id } ()
    else .ok { b with pageTable := tableDelete b.pageTable currentPage.id } ()

/-- `FetchPage`: the page (or `nil`) and the pool afterwards. -/
def BufferPoolManager.FetchPage (c : Common) (b : BufferPoolManager) (pageID : Int) :
    Res BufferPoolManager (Option Page) :=
  match tableGet b.pageTable pageID with
  | some frameID =>
    match b.pages[frameID]? with
    | none => .panic b .indexOutOfRange
    | some none => .panic b .nilPage
    | some (some pg) =>
      let pg1 := pg.IncPinCount
      .ok { b with pages := b.pages.set frameID (some pg1),
                   replacer := b.replacer.Pin frameID } (some pg1)
  | none =>
    match b.getFrameID with
    | (none, _, b1) => .ok b1 none
    | (some frameID, isFromFreeList, b1) =>
      match (if isFromFreeList then Res.ok b1 () else b1.removeCurrent c frameID) with
      | .panic b2 f => .panic b2 f
      | .ok b2 _ =>
        let ev := b2.events ++ [Event.readPage pageID]
        match b2.diskManager.ReadPage c pageID (zeroBytes c.PageSize) with
        | .panic d f => .panic { b2 with diskManager := d, events := ev } f
        | .ok d (some _, _) => .panic { b2 with diskManager := d, events := ev } .readPageError
        | .ok d (none, data) =>
          let pg := Page.New pageID false (toPageArray c data)
          let b3 := { b2 with diskManager := d, events := ev,
                              pageTable := tableSet b2.pageTable pageID frameID }
          if frameID < b3.pages.length then
            .ok { b3 with pages := b3.pages.set frameID (some pg) } (some pg)
          else .panic b3 .indexOutOfRange

/-- `UnpinPage`: the error returned (`true` for "could not find page") and the pool. -/
def BufferPoolManager.UnpinPage (c : Common) (b : BufferPoolManager) (pageID : Int)
    (isDirty : Bool) : Res BufferPoolManager Bool :=
  match tableGet b.pageTable pageID with
  | some frameID =>
    match b.pages[frameID]? with
    | none => .panic b .indexOutOfRange
    | some none => .panic b .nilPage
    | some (some pg) =>
      let pg1 := pg.DecPinCount
      let r := if pg1.pinCount ≤ 0 then b.replacer.Unpin frameID else b.replacer
      let pg2 := if pg1.isDirty || isDirty then pg1.SetIsDirty true else pg1.SetIsDirty false
      .ok { b with pages := b.pages.set frameID (some pg2), replacer := r } false
  | none => if c.EnableDebug then .panic b .couldNotFindPage else .ok b true

/-- `FlushPage`: whether the page was found, and the pool. -/
def BufferPoolManager.FlushPage (c : Common) (b : BufferPoolManager) (pageID : Int) :
    Res BufferPoolManager Bool :=
  match tableGet b.pageTable pageID with
  | some frameID =>
    match b.pages[frameID]? with
    | none => .panic b .indexOutOfRange
    | some none => .panic b .nilPage
    | some (some pg) =>
      let pg1 := (pg.DecPinCount).SetIsDirty false
      let b1 := { b with pages := b.pages.set frameID (some pg1),
                         events := b.events ++ [Event.writePage pageID pg1.data] }
      match b1.diskManager.WritePage c pageID pg1.data with
      | .panic d f => .panic { b1 with diskManager := d } f
      | .ok d _ => .ok { b1 with diskManager := d } true
  | none => .ok b false

/-- `NewPage`: the new page (or `nil`) and the pool afterwards. -/
def BufferPoolManager.NewPage (c : Common) (b : BufferPoolManager) :
    Res BufferPoolManager (Option Page) :=
  match b.getFrameID with
  | (none, _, b1) => .ok b1 none
  | (some frameID, isFromFreeList, b1) =>
    match (if isFromFreeList then Res.ok b1 () else b1.removeCurrent c frameID) with
    | .panic b2 f => .panic b2 f
    | .ok b2 _ =>
      let ev := b2.events ++ [Event.allocatePage]
      match b2.diskManager.AllocatePage c with
      | .panic d f => .panic { b2 with diskManager := d, events := ev } f
      | .ok d pageID =>
        let pg := Page.NewEmpty c pageID
        let b3 := { b2 with diskManager := d, events := ev,
                            pageTable := tableSet b2.pageTable pageID frameID }
        if frameID < b3.pages.length then
          .ok { b3 with pages := b3.pages.set frameID (some pg) } (some pg)
        else .panic b3 .indexOutOfRange

/-- `DeletePage`: returns `nil` (unit) or panics on a pinned page. -/
def BufferPoolManager.DeletePage (b : BufferPoolManager) (pageID : Int) :
    Res BufferPoolManager Unit :=
  match tableGet b.pageTable pageID with
  | none => .ok b ()
  | some frameID =>
    let b1 := { b with diskManager := b.diskManager.DeallocatePage pageID,
                       events := b.events ++ [Event.deallocatePage pageID],
                       pageTable := tableDelete b.pageTable pageID }
    match b1.pages[frameID]? with
    | none => .panic b1 .indexOutOfRange
    | some none => .panic b1 .nilPage
    | some (some page) =>
      if page.id = pageID then
        if page.pinCount > 0 then .panic b1 .pinCountGreaterThanZero
        else .ok { b1 with pages := b1.pages.set frameID none,
                           freeList := b1.freeList ++ [frameID] } ()
      else .ok b1 ()

/-- The loop `for _, pageID := range pageIDs { b.FlushPage(pageID) }`. -/
def BufferPoolManager.flushEach (c : Common) :
    BufferPoolManager → List Int → Res BufferPoolManager Unit
  | b, [] => .ok b ()
  | b, pageID :: rest =>
    match b.FlushPage c pageID with
    | .panic b1 f => .panic b1 f
    | .ok b1 _ => BufferPoolManager.flushEach c b1 rest

/-- `FlushAllPages`. Go leaves the order of a map range open; the keys are taken in the
order of the association list. -/
def BufferPoolManager.FlushAllPages (c : Common) (b : BufferPoolManager) :
    Res BufferPoolManager Unit :=
  b.flushEach c (b.pageTable.map (fun e => e.1))

/-- The page ids `FlushAllDirtyPages` collects: `none` when a frame of the table holds
no page (the latch call on a nil page panics). -/
def BufferPoolManager.dirtyPageIDs (b : BufferPoolManager) :
    List (Int × Nat) → Option (List Int)
  | [] => some []
  | (pageID, frameID) :: rest =>
    match b.pages[frameID]? with
    | some (some pg) =>
      match b.dirtyPageIDs rest with
      | none => none
      | some ids => some (if pg.isDirty then pageID :: ids else ids)
    | _ => none

/-- `FlushAllDirtyPages`. -/
def BufferPoolManager.FlushAllDirtyPages (c : Common) (b : BufferPoolManager) :
    Res BufferPoolManager Unit :=
  match b.dirtyPageIDs b.pageTable with
  | none => .panic b .nilPage
  | some pageIDs => b.flushEach c pageIDs

/-! ## Sequences of buffer-pool calls -/

/-- A call on the buffer pool. -/
inductive Op where
  | fetchPage (pageID : Int)
  | newPage
  | unpinPage (pageID : Int) (isDirty : Bool)
  | flushPage (pageID : Int)
  | deletePage (pageID : Int)
  | flushAllPages
  | flushAllDirtyPages
  deriving DecidableEq, Repr

/-- One call, its return value dropped. -/
def BufferPoolManager.step (c : Common) (b : BufferPoolManager) :
    Op → Res BufferPoolManager Unit
  | .fetchPage pageID =>
    match b.FetchPage c pageID with
    | .ok b1 _ => .ok b1 ()
    | .panic b1 f => .panic b1 f
  | .newPage =>
    match b.NewPage c with
    | .ok b1 _ => .ok b1 ()
    | .panic b1 f => .panic b1 f
  | .unpinPage pageID isDirty =>
    match b.UnpinPage c pageID isDirty with
    | .ok b1 _ => .ok b1 ()
    | .panic b1 f => .panic b1 f
  | .flushPage pageID =>
    match b.FlushPage c pageID with
    | .ok b1 _ => .ok b1 ()
    | .panic b1 f => .panic b1 f
  | .deletePage pageID => b.DeletePage pageID
  | .flushAllPages => b.FlushAllPages c
  | .flushAllDirtyPages => b.FlushAllDirtyPages c

/-- A sequence of calls, from left to right; a panic ends the run in the state reached. -/
def BufferPoolManager.run (c : Common) :
    BufferPoolManager → List Op → Res BufferPoolManager Unit
  | b, [] => .ok b ()
  | b, op :: rest =>
    match b.step c op with
    | .panic b1 f => .panic b1 f
    | .ok b1 _ => BufferPoolManager.run c b1 rest

/-! ## Values, columns and schemas (collaborators of the tuple layer) -/

/-- Modelled from the spec: the type tags of `types.TypeID`, which is not among the
sources. -/
inductive TypeID where
  | Integer
  | Float
  | Boolean
  | Varchar
  deriving DecidableEq, Repr

/-- Modelled from the spec: `types.Value`, which is not among the sources. An integer is
a signed 32-bit number, a float is given by its 32 IEEE-754 bits, a varchar by its bytes. -/
inductive Value where
  | Integer (v : Int)
  | Float (bits : Nat)
  | Boolean (b : Bool)
  | Varchar (s : List UInt8)
  deriving DecidableEq, Repr

/-- The type tag of a value. -/
def Value.ValueType : Value → TypeID
  | .Integer _ => .Integer
  | .Float _ => .Float
  | .Boolean _ => .Boolean
  | .Varchar _ => .Varchar

/-- A value fits its representation: 32 bits for numbers and for the varchar length. -/
def Value.Valid : Value → Prop
  | .Integer v => -2147483648 ≤ v ∧ v < 2147483648
  | .Float bits => bits < 4294967296
  | .Boolean _ => True
  | .Varchar s => s.length < 4294967296

/-- Modelled from the spec: the four little-endian bytes of a 32-bit unsigned number
(`types.UInt32(n).Serialize()`). -/
def le32 (n : Nat) : List UInt8 :=
  [UInt8.ofNat (n % 256), UInt8.ofNat (n / 256 % 256),
   UInt8.ofNat (n / 65536 % 256), UInt8.ofNat (n / 16777216 % 256)]

/-- Modelled from the spec: the number four little-endian bytes stand for
(`types.NewUInt32FromBytes`); `none` when fewer than four bytes are given. -/
def NewUInt32FromBytes : List UInt8 → Option Nat
  | b0 :: b1 :: b2 :: b3 :: _ =>
    some (b0.toNat + 256 * b1.toNat + 65536 * b2.toNat + 16777216 * b3.toNat)
  | _ => none

/-- Modelled from the spec: `Value.Serialize`. Integer: 4 bytes, two's complement,
little-endian; Float: 4 bytes little-endian; Boolean: 1 byte; Varchar: 4-byte
little-endian length followed by the bytes. -/
def Value.Serialize : Value → List UInt8
  | .Integer v => le32 (v % 4294967296).toNat
  | .Float bits => le32 bits
  | .Boolean b => [if b then 1 else 0]
  | .Varchar s => le32 s.length ++ s

/-- Modelled from the spec: `Value.Size`, the inline size for fixed types and the payload
length for varchar. -/
def Value.Size : Value → Nat
  | .Integer _ => 4
  | .Float _ => 4
  | .Boolean _ => 1
  | .Varchar s => s.length

/-- Modelled from the spec: `types.NewValueFromBytes(data, type)`; `nil` (`none`) when
the bytes are too few for the type. -/
def NewValueFromBytes (data : List UInt8) : TypeID → Option Value
  | .Integer => (NewUInt32FromBytes data).map (fun (n : Nat) => Value.Integer (wrap32 (n : Int)))
  | .Float => (NewUInt32FromBytes data).map Value.Float
  | .Boolean =>
    match data with
    | b :: _ => some (Value.Boolean (b != 0))
    | [] => none
  | .Varchar =>
    match NewUInt32FromBytes data with
    | none => none
    | some n =>
      if (data.drop 4).length < n then none else some (Value.Varchar ((data.drop 4).take n))

/-- Modelled from the spec: `column.Column`, which is not among the sources: the type,
whether the value is stored inline, the offset of the fixed slot and its length. -/
structure Column where
  columnType : TypeID
  isInlined : Bool
  offset : Nat
  fixedLength : Nat
  deriving DecidableEq, Repr

/-- Modelled from the spec: `schema.Schema`, which is not among the sources: the columns,
the length of the fixed part and the indexes of the unlined columns. -/
structure Schema where
  columns : List Column
  length : Nat
  unlinedColumns : List Nat
  deriving DecidableEq, Repr

/-- The fixed slot length of a type: the inline size, or 4 for the offset of a varchar. -/
def TypeID.slotLength : TypeID → Nat
  | .Integer => 4
  | .Float => 4
  | .Boolean => 1
  | .Varchar => 4

/-- The indexes, counted from `i`, of the columns that are not inlined. -/
def unlinedFrom : List Column → Nat → List Nat
  | [], _ => []
  | col :: rest, i => if col.isInlined then unlinedFrom rest (i + 1) else i :: unlinedFrom rest (i + 1)

/-- The fixed slots of two columns do not overlap. -/
def Column.Apart (a b : Column) : Prop :=
  a.offset + a.fixedLength ≤ b.offset ∨ b.offset + b.fixedLength ≤ a.offset

instance (a b : Column) : Decidable (a.Apart b) := by
  unfold Column.Apart
  infer_instance

/-- A schema as the spec describes it: varchar columns are exactly the unlined ones, the
fixed slot of a column has the length of its type and lies inside the fixed part, slots of
different columns do not overlap, the unlined columns are listed in order, and the length
of the fixed part fits 32 bits. -/
def Schema.WF (s : Schema) : Prop :=
  (∀ col ∈ s.columns,
    col.isInlined = decide (col.columnType ≠ TypeID.Varchar) ∧
    col.fixedLength = col.columnType.slotLength ∧
    col.offset + col.fixedLength ≤ s.length) ∧
  s.columns.Pairwise Column.Apart ∧
  s.unlinedColumns = unlinedFrom s.columns 0 ∧
  s.length < 4294967296

instance (s : Schema) : Decidable s.WF := by
  unfold Schema.WF
  infer_instance

instance (v : Value) : Decidable v.Valid := by
  cases v <;> unfold Value.Valid <;> infer_instance

/-- The values fit the schema: one valid value of the column's type per column. -/
def Matches (values : List Value) (s : Schema) : Prop :=
  values.length = s.columns.length ∧
  ∀ p ∈ s.columns.zip values, p.2.Valid ∧ p.2.ValueType = p.1.columnType

instance (values : List Value) (s : Schema) : Decidable (Matches values s) := by
  unfold Matches
  infer_instance

/-- The summed `Size()` of the values of the unlined columns. -/
def payloadSize : List (Column × Value) → Nat
  | [] => 0
  | (col, v) :: rest => (if col.isInlined then 0 else v.Size) + payloadSize rest

/-- The `k` bytes of `data` from offset `a` on. -/
def slice (data : List UInt8) (a k : Nat) : List UInt8 := (data.drop a).take k

/-! ## Tuples -/

/-- `Tuple`: the record id (page id and slot), the size and the bytes. -/
structure Tuple where
  rid : Option (Int × Nat)
  size : Nat
  data : List UInt8
  deriving DecidableEq, Repr

/-- The body of `Tuple.Copy`, `copy(t.data[offset:], data)`: `none` when the slice
expression panics (offset beyond the end); the copy stops at the end of the destination. -/
def copyAt (dst : List UInt8) (offset : Nat) (data : List UInt8) : Option (List UInt8) :=
  if offset > dst.length then none
  else some (dst.take offset ++ data.take (dst.length - offset) ++ dst.drop (offset + data.length))

/-- The sum `tupleSize += values[colIndex].Size()` over the unlined columns, in 32 bits;
`none` when an index is out of range. -/
def addSizes (values : List Value) : List Nat → Nat → Option Nat
  | [], acc => some acc
  | colIndex :: rest, acc =>
    match values[colIndex]? with
    | none => none
    | some v => addSizes values rest ((acc + v.Size) % 4294967296)

/-- The serialization loop of `NewTupleFromSchema` over the columns from index `i` on,
with the running `tupleEndOffset` and the bytes so far. -/
def serializeColumns (values : List Value) :
    List Column → Nat → Nat → List UInt8 → Option (List UInt8)
  | [], _, _, data => some data
  | col :: rest, i, tupleEndOffset, data =>
    match values[i]? with
    | none => none
    | some v =>
      if col.isInlined then
        match copyAt data col.offset v.Serialize with
        | none => none
        | some data1 => serializeColumns values rest (i + 1) tupleEndOffset data1
      else
        match copyAt data col.offset (le32 tupleEndOffset) with
        | none => none
        | some data1 =>
          match copyAt data1 tupleEndOffset v.Serialize with
          | none => none
          | some data2 =>
            serializeColumns values rest (i + 1) ((tupleEndOffset + v.Size) % 4294967296) data2

/-- `NewTupleFromSchema`; `none` when the Go code panics (an index or a slice bound out
of range). -/
def NewTupleFromSchema (values : List Value) (schema : Schema) : Option Tuple :=
  match addSizes values schema.unlinedColumns schema.length with
  | none => none
  | some tupleSize =>
    match serializeColumns values schema.columns 0 schema.length (zeroBytes tupleSize) with
    | none => none
    | some data => some { rid := none, size := tupleSize, data := data }

/-- `Tuple.GetValue`; `none` when the Go code panics (index or slice bound out of range,
or a `nil` value). -/
def Tuple.GetValue (t : Tuple) (schema : Schema) (colIndex : Nat) : Option Value :=
  match schema.columns[colIndex]? with
  | none => none
  | some column =>
    let offset? : Option Nat :=
      if !column.isInlined then
        if column.offset + column.fixedLength > t.data.length then none
        else NewUInt32FromBytes ((t.data.drop column.offset).take column.fixedLength)
      else some column.offset
    match offset? with
    | none => none
    | some offset =>
      if offset > t.data.length then none
      else NewValueFromBytes (t.data.drop offset) column.columnType

/-- The loop of `serializeColumns` over the list of column/value pairs; it is the same
computation, stated on the pairs (see `serializeColumns_eq_pairs`). -/
def serializePairs : List (Column × Value) → Nat → List UInt8 → Option (List UInt8)
  | [], _, data => some data
  | (col, v) :: rest, tupleEndOffset, data =>
    if col.isInlined then
      match copyAt data col.offset v.Serialize with
      | none => none
      | some data1 => serializePairs rest tupleEndOffset data1
    else
      match copyAt data col.offset (le32 tupleEndOffset) with
      | none => none
      | some data1 =>
        match copyAt data1 tupleEndOffset v.Serialize with
        | none => none
        | some data2 => serializePairs rest ((tupleEndOffset + v.Size) % 4294967296) data2

/-- What the serialization loop needs of the column/value pairs: every fixed slot lies in
the fixed part of length `L`, and the bytes written to the slot (the serialized value of an
inlined column, the 4-byte offset of an unlined one) have the length of the slot. -/
def PairsOK (L : Nat) (ps : List (Column × Value)) : Prop :=
  ∀ p ∈ ps, p.1.offset + p.1.fixedLength ≤ L ∧
    (if p.1.isInlined then p.2.Serialize.length = p.1.fixedLength else p.1.fixedLength = 4)

/-- `Tuple.Size`. -/
def Tuple.Size (t : Tuple) : Nat := t.size

/-- `Tuple.Data`. -/
def Tuple.Data (t : Tuple) : List UInt8 := t.data

/-! ## Examples used below -/

/-- A page size of two bytes, debugging off. -/
def tinyCommon : Common := { PageSize := 2, EnableDebug := false }

/-- The schema `[id:Integer, name:Varchar, score:Float]`. -/
def exampleSchema : Schema :=
  { columns := [{ columnType := .Integer, isInlined := true, offset := 0, fixedLength := 4 },
                { columnType := .Varchar, isInlined := false, offset := 4, fixedLength := 4 },
                { columnType := .Float, isInlined := true, offset := 8, fixedLength := 4 }]
    length := 12
    unlinedColumns := [1] }

/-- The values `[42, "hello", 3.5]`; `0x40600000` are the bits of `3.5`. -/
def exampleValues : List Value :=
  [.Integer 42, .Varchar [104, 101, 108, 108, 111], .Float 1080033280]

/-- The pool of one frame after `NewPage`, `UnpinPage(0, false)`, `DeletePage(0)`,
`NewPage`: page 1 sits pinned in frame 0. -/
def evictionExample : BufferPoolManager :=
  (BufferPoolManager.run tinyCommon
    (NewBufferPoolManager 1 (NewVirtualDiskManagerImpl tinyCommon []))
    [.newPage, .unpinPage 0 false, .deletePage 0, .newPage]).state

/-- The pool of two frames over a data file of one byte (less than a page) after
`FetchPage(0)`, `NewPage()`. -/
def collisionExample : BufferPoolManager :=
  (BufferPoolManager.run tinyCommon
    (NewBufferPoolManager 2 (NewVirtualDiskManagerImpl tinyCommon [7]))
    [.fetchPage 0, .newPage]).state

/-! ## Invariants of the pool -/

/-- What the frames, the free list and the page table keep between calls: an entry of the
table points to a frame that holds the page of that id; a frame on the free list is empty;
the free list and the keys of the table have no repetition. -/
structure PoolInv (pages : List (Option Page)) (freeList : List Nat)
    (pageTable : List (Int × Nat)) : Prop where
  table : ∀ k f, (k, f) ∈ pageTable → ∃ pg, pages[f]? = some (some pg) ∧ pg.id = k
  free : ∀ f ∈ freeList, pages[f]? = some none
  nodup : freeList.Nodup
  keys : (pageTable.map Prod.fst).Nodup

/-- The invariant of a buffer pool. -/
def BufferPoolManager.Inv (b : BufferPoolManager) : Prop :=
  PoolInv b.pages b.freeList b.pageTable

/-- The frame is one of the pool, is not on the free list and no table entry points to it. -/
def BufferPoolManager.Detached (b : BufferPoolManager) (f : Nat) : Prop :=
  f < b.pages.length ∧ f ∉ b.freeList ∧ ∀ k, (k, f) ∉ b.pageTable

/-! ## Pin accounting -/

/-- The pin count of the page the directory holds for `pid`, if it holds one. -/
def BufferPoolManager.pinCountOf (b : BufferPoolManager) (pid : Int) : Option Int :=
  match tableGet b.pageTable pid with
  | none => none
  | some f =>
    match b.pages[f]? with
    | some (some pg) => some pg.pinCount
    | _ => none

/-- The page ids on which a call runs `DecPinCount`: the page of `UnpinPage` and of
`FlushPage`, every resident page for `FlushAllPages`, every dirty resident page for
`FlushAllDirtyPages`. -/
def BufferPoolManager.decrements (b : BufferPoolManager) : Op → List Int
  | .unpinPage pageID _ => [pageID]
  | .flushPage pageID => [pageID]
  | .flushAllPages => b.pageTable.map (fun e => e.1)
  | .flushAllDirtyPages => (b.dirtyPageIDs b.pageTable).getD []
  | _ => []

/-- The pin count a resident page `pid` has after a call that returned: 1 for a page the
call brought in (it was not resident before); otherwise the old count, plus one for a
`FetchPage` of it, minus one if the call decrements it. -/
def BufferPoolManager.expectedPin (b : BufferPoolManager) (op : Op) (pid : Int) : Int :=
  match b.pinCountOf pid with
  | none => 1
  | some n => n + (if op = Op.fetchPage pid then 1 else 0) - ((b.decrements op).count pid : Int)

/-- The call decrements only pages whose pin count is positive. -/
def BufferPoolManager.guard (b : BufferPoolManager) (op : Op) : Bool :=
  (b.decrements op).all (fun pid =>
    match b.pinCountOf pid with
    | some n => decide (0 < n)
    | none => true)

/-- Every call of the run is guarded in the state in which it is made. -/
def BufferPoolManager.balanced (c : Common) : BufferPoolManager → List Op → Bool
  | _, [] => true
  | b, op :: rest =>
    b.guard op &&
      match b.step c op with
      | .ok b1 _ => BufferPoolManager.balanced c b1 rest
      | .panic _ _ => true

/-- No page in a frame has a negative pin count. -/
def BufferPoolManager.NonNeg (b : BufferPoolManager) : Prop :=
  ∀ (f : Nat) (pg : Page), b.pages[f]? = some (some pg) → 0 ≤ pg.pinCount

/-! ## Further notions and examples -/

/-- The bytes of page `pid` in the data file, by the layout of the data file: page `i`
occupies the bytes from `i * PageSize` up to `(i + 1) * PageSize`. -/
def VirtualDiskManagerImpl.storedPage (c : Common) (d : VirtualDiskManagerImpl) (pid : Int) :
    List UInt8 :=
  slice d.db.bytes (pid * c.PageSize).toNat c.PageSize

/-- A fresh pool of one frame over an empty data file in which `NewPage` has put page 0,
pinned once. -/
def pinnedExample : BufferPoolManager :=
  (BufferPoolManager.NewPage tinyCommon
    (NewBufferPoolManager 1 (NewVirtualDiskManagerImpl tinyCommon []))).state

/-- A disk manager over an empty file whose next page id is the largest 32-bit value. -/
def lastIdDisk : VirtualDiskManagerImpl :=
  { db := { bytes := [], pos := 0 }, nextPageID := 2147483647, size := 0 }

/-- A pool of one frame in which page 0 is resident with pin count 0 (after `NewPage`,
`UnpinPage(0, false)`). -/
def unpinnedExample : BufferPoolManager :=
  (BufferPoolManager.run tinyCommon
    (NewBufferPoolManager 1 (NewVirtualDiskManagerImpl tinyCommon []))
    [.newPage, .unpinPage 0 false]).state

/-- A fresh pool of one frame over `lastIdDisk`. -/
def lastIdPool : BufferPoolManager := NewBufferPoolManager 1 lastIdDisk

/-- The page the directory holds for `pid`, if it holds one. -/
def BufferPoolManager.pageOf (b : BufferPoolManager) (pid : Int) : Option Page :=
  match tableGet b.pageTable pid with
  | none => none
  | some f =>
    match b.pages[f]? with
    | some (some pg) => some pg
    | _ => none

/-- The bytes of the resident page `pid` (no bytes when it is not resident). -/
def BufferPoolManager.dataOf (b : BufferPoolManager) (pid : Int) : List UInt8 :=
  ((b.pageOf pid).map (fun pg => pg.data)).getD []

/-- The disk manager after the calls `WritePage(pid, data)` of a list, in order. -/
def VirtualDiskManagerImpl.writeAll (c : Common) :
    VirtualDiskManagerImpl → List (Int × List UInt8) → VirtualDiskManagerImpl
  | d, [] => d
  | d, (pid, data) :: rest =>
    VirtualDiskManagerImpl.writeAll c (d.WritePage c pid data).state rest

/-- A page as `FlushPage` leaves it: pin count one less, dirty flag cleared. -/
def Page.flushed (pg : Page) : Page :=
  { pg with pinCount := pg.pinCount - 1, isDirty := false }

/-- A pool of two frames with page 0 resident and dirty, page 1 resident and clean
(after `NewPage`, `NewPage`, `UnpinPage(0, true)`). -/
def dirtyExample : BufferPoolManager :=
  (BufferPoolManager.run tinyCommon
    (NewBufferPoolManager 2 (NewVirtualDiskManagerImpl tinyCommon []))
    [.newPage, .newPage, .unpinPage 0 true]).state

/-- The sum of `values[i].Size()` over the schema's unlined columns, as a mathematical
integer (an index without a value counts 0). -/
def unlinedSizes (values : List Value) (idxs : List Nat) : Nat :=
  (idxs.map (fun i => match values[i]? with
    | some v => v.Size
    | none => 0)).sum

/-- A page size of 4096 bytes, debugging off. -/
def pageCommon : Common := { PageSize := 4096, EnableDebug := false }

/-! ## The pool as a cache of one page -/

/-- The data file holds the bytes `B` as page `p`, all `PageSize` of them. -/
def OnDisk (c : Common) (d : VirtualDiskManagerImpl) (p : Int) (B : List UInt8) : Prop :=
  d.storedPage c p = B ∧ (p * c.PageSize).toNat + c.PageSize ≤ d.db.bytes.length

/-- A page id from 0 whose offset `pid * PageSize` is below 2^31. -/
def ValidID (c : Common) (pid : Int) : Prop :=
  0 ≤ pid ∧ pid * c.PageSize < 2147483648

instance (c : Common) (pid : Int) : Decidable (ValidID c pid) := by
  unfold ValidID
  infer_instance

/-- The bytes `B` of page `p` are safe: the data file holds them, or (not `strict`) a frame
holds page `p` with its dirty flag set. -/
def Backed (c : Common) (p : Int) (B : List UInt8) (strict : Bool)
    (b : BufferPoolManager) : Prop :=
  OnDisk c b.diskManager p B ∨
    (strict = false ∧
      ∃ (f : Nat) (pg : Page), b.pages[f]? = some (some pg) ∧ pg.id = p ∧ pg.isDirty = true)

/-- What the pool keeps about page `p` with bytes `B` while it runs: the pool invariant;
every frame's page has `PageSize` bytes and a valid id; a frame that holds page `p` holds
the bytes `B` and is the frame of the directory entry of `p`; the pager's next page id is
above `p`, and `k` more allocations keep the offsets below 2^31. -/
structure Framed (c : Common) (p : Int) (B : List UInt8) (k : Nat)
    (b : BufferPoolManager) : Prop where
  inv : b.Inv
  frames : ∀ (f : Nat) (pg : Page), b.pages[f]? = some (some pg) →
    pg.data.length = c.PageSize ∧ ValidID c pg.id
  copy : ∀ (f : Nat) (pg : Page), b.pages[f]? = some (some pg) → pg.id = p →
    pg.data = B ∧ tableGet b.pageTable p = some f
  pvalid : ValidID c p
  psize : 0 < c.PageSize
  next : p < b.diskManager.nextPageID
  budget : (b.diskManager.nextPageID + k) * c.PageSize < 2147483648

/-- The calls of a run that the statement about page `p` admits: a `FetchPage` is of a
valid page id. -/
def Op.Admitted (c : Common) : Op → Prop
  | .fetchPage q => ValidID c q
  | _ => True

instance (c : Common) (op : Op) : Decidable (op.Admitted c) := by
  cases op <;> unfold Op.Admitted <;> infer_instance

/-- A pool of one frame over a data file of two pages, `[0, 0]` and `[3, 4]`: page 0 is
resident and pinned once, and its frame holds the bytes `[5, 6]`, which the data file does
not have. -/
def cachedExample : BufferPoolManager :=
  { diskManager := { db := { bytes := [0, 0, 3, 4], pos := 0 }, nextPageID := 2, size := 4 }
    pages := [some { id := 0, pinCount := 1, isDirty := false, data := [5, 6] }]
    replacer := NewClockReplacer 1
    freeList := []
    pageTable := [(0, 0)]
    events := [] }

/-! ## Counting pins and decrements -/

/-- The page a call pins: the id of the page a `FetchPage` or a `NewPage` returns. -/
def BufferPoolManager.pinned (c : Common) (b : BufferPoolManager) : Op → Option Int
  | .fetchPage pageID =>
    match (b.FetchPage c pageID).value with
    | some (some pg) => some pg.id
    | _ => none
  | .newPage =>
    match (b.NewPage c).value with
    | some (some pg) => some pg.id
    | _ => none
  | _ => none

/-- The page ids on which a call runs `DecPinCount`: those of `decrements` that are
resident when the call is made (`UnpinPage` and `FlushPage` of a page that is not resident
touch no pin count). -/
def BufferPoolManager.drops (b : BufferPoolManager) (op : Op) : List Int :=
  (b.decrements op).filter (fun pid => (b.pinCountOf pid).isSome)

/-- The count, per page id, of pins minus decrements after a call, from the count `bal`
before it. -/
def BufferPoolManager.balanceAfter (c : Common) (b : BufferPoolManager) (op : Op)
    (bal : Int → Int) : Int → Int :=
  fun pid =>
    bal pid + (if b.pinned c op = some pid then 1 else 0) - ((b.drops op).count pid : Int)

/-- The count, per page id, of pins minus decrements over a run, from the count `bal`
before it. -/
def BufferPoolManager.balances (c : Common) :
    BufferPoolManager → List Op → (Int → Int) → Int → Int
  | _, [], bal => bal
  | b, op :: rest, bal =>
    match b.step c op with
    | .ok b1 _ => BufferPoolManager.balances c b1 rest (b.balanceAfter c op bal)
    | .panic _ _ => b.balanceAfter c op bal

/-- The run never decrements a page more often than it pins it: after every call, the
decrements of each page the call decrements do not exceed its pins so far. -/
def BufferPoolManager.neverOverUnpins (c : Common) :
    BufferPoolManager → List Op → (Int → Int) → Bool
  | _, [], _ => true
  | b, op :: rest, bal =>
    (b.drops op).all (fun pid => decide (0 ≤ b.balanceAfter c op bal pid)) &&
      match b.step c op with
      | .ok b1 _ => BufferPoolManager.neverOverUnpins c b1 rest (b.balanceAfter c op bal)
      | .panic _ _ => true

/-- When the frame of the next `FetchPage` miss or `NewPage` comes from the replacer, the
page it holds is not pinned: the directory's pin count for its id is not positive. -/
def BufferPoolManager.sparesVictim (b : BufferPoolManager) : Bool :=
  match b.getFrameID with
  | (some f, false, _) =>
    match b.pages[f]? with
    | some (some cur) =>
      match b.pinCountOf cur.id with
      | some n => decide (n ≤ 0)
      | none => true
    | _ => true
  | _ => true

/-- The call takes no pinned page out of the directory, and a `NewPage` is handed no id
that is resident already. -/
def BufferPoolManager.spares (b : BufferPoolManager) : Op → Bool
  | .fetchPage pageID =>
    match tableGet b.pageTable pageID with
    | none => b.sparesVictim
    | some _ => true
  | .newPage => b.sparesVictim && (b.pinCountOf b.diskManager.nextPageID).isNone
  | _ => true

/-- Every call of the run spares the pinned pages, in the state in which it is made. -/
def BufferPoolManager.sparing (c : Common) : BufferPoolManager → List Op → Bool
  | _, [] => true
  | b, op :: rest =>
    b.spares op &&
      match b.step c op with
      | .ok b1 _ => BufferPoolManager.sparing c b1 rest
      | .panic _ _ => true

/-- The count `bal` of pins minus decrements is the pin count of every resident page, and
0 for a page that is not resident. -/
def BufferPoolManager.Tallied (b : BufferPoolManager) (bal : Int → Int) : Prop :=
  ∀ pid : Int, bal pid = (b.pinCountOf pid).getD 0

end SamehadaDB

/-! # Theorems -/

namespace SamehadaDB

/-! ## Disk manager -/

theorem File.write_length_ge (f : File) (data : List UInt8) :
    f.pos + data.length ≤ (f.Write data).bytes.length := by
  simp only [File.Write, zeroBytes, List.length_append, List.length_take, List.length_replicate,
    List.length_drop]
  omega

theorem File.write_drop_take (f : File) (data : List UInt8) :
    ((f.Write data).bytes.drop f.pos).take data.length = data := by
  have h : ((f.bytes ++ zeroBytes (f.pos - f.bytes.length)).take f.pos).length = f.pos := by
    simp only [zeroBytes, List.length_take, List.length_append, List.length_replicate]
    omega
  simp only [File.Write, List.append_assoc]
  rw [List.drop_append_eq_append_drop, h, Nat.sub_self, List.drop_zero,
    List.drop_eq_nil_of_le (Nat.le_of_eq h), List.nil_append, List.take_left']
  rfl

theorem File.read_full (f : File) (n : Nat) (got : List UInt8) (hn : n ≠ 0)
    (hlen : got.length = n) (hgot : (f.bytes.drop f.pos).take n = got) :
    f.Read n = (some got, { f with pos := f.pos + n }) := by
  have hne : ¬ (got = []) := by
    intro h; rw [h] at hlen; exact hn hlen.symm
  simp only [File.Read, hn, if_false, hgot, hne, hlen]

theorem File.read_length (f : File) (n : Nat) (got : List UInt8) (f1 : File)
    (h : f.Read n = (some got, f1)) : got.length ≤ n := by
  unfold File.Read at h
  split at h
  · simp only [Prod.mk.injEq, Option.some.injEq] at h
    rw [← h.1]; simp
  · simp only at h
    split at h
    · simp at h
    · simp only [Prod.mk.injEq, Option.some.injEq] at h
      rw [← h.1]; simp

/-- A successful `ReadPage` into a buffer of `PageSize` bytes leaves `PageSize` bytes. -/
theorem VirtualDiskManagerImpl.readPage_length (c : Common) (d d1 : VirtualDiskManagerImpl)
    (pid : Int) (buf data : List UInt8) (e : Option ReadError) (hbuf : buf.length = c.PageSize)
    (h : d.ReadPage c pid buf = .ok d1 (e, data)) : data.length = c.PageSize := by
  unfold VirtualDiskManagerImpl.ReadPage at h
  simp only at h
  split at h
  · simp only [Res.ok.injEq, Prod.mk.injEq] at h
    rw [← h.2.2]; exact hbuf
  · split at h
    · simp only [Res.ok.injEq, Prod.mk.injEq] at h
      rw [← h.2.2]; exact hbuf
    · rename_i got db1 hread
      have hle := File.read_length _ _ _ _ hread
      split at h
      · split at h
        · simp at h
        · simp only [Res.ok.injEq, Prod.mk.injEq] at h
          rw [← h.2.2]
          simp only [zeroBytes, List.length_append, List.length_replicate, List.length_drop]
          omega
      · simp only [Res.ok.injEq, Prod.mk.injEq] at h
        rw [← h.2.2]
        simp only [List.length_append, List.length_drop]
        omega

/-- C7. Pager round trip: for a page id whose seek offset `int64(pid * PageSize)` is not
negative, and `PageSize`-byte buffers `b` and `buf`, `WritePage(pid, b)` succeeds and the
`ReadPage(pid, buf)` that follows returns no error and leaves `buf` equal to `b`. -/
theorem writePage_then_readPage (c : Common) (d : VirtualDiskManagerImpl) (pid : Int)
    (b buf : List UInt8) (hb : b.length = c.PageSize) (hbuf : buf.length = c.PageSize)
    (hvalid : 0 ≤ pageOffset c pid) :
    (d.WritePage c pid b).value = some () ∧
      ((d.WritePage c pid b).state.ReadPage c pid buf).value = some (none, b) := by
  obtain ⟨n, hn⟩ := Int.eq_ofNat_of_zero_le hvalid
  have hseek : ∀ f : File, f.Seek (n : Int) = { f with pos := n } := by
    intro f; simp [File.Seek]
  simp only [VirtualDiskManagerImpl.WritePage, hb, ne_eq, not_true_eq_false, if_false, hn,
    Res.value, Res.state, true_and, VirtualDiskManagerImpl.ReadPage, hseek]
  set f0 : File := { bytes := d.db.bytes, pos := n } with hf0
  have hlen := File.write_length_ge f0 b
  have hgot := File.write_drop_take f0 b
  have hpos : f0.pos = n := rfl
  rw [hpos] at hlen hgot
  have h1 : ¬ ((n : Int) > ((f0.Write b).bytes.length : Int)) := by
    have : (n : Int) ≤ ((f0.Write b).bytes.length : Int) := by exact_mod_cast (by omega : n ≤ _)
    omega
  rw [if_neg h1]
  by_cases hz : c.PageSize = 0
  · have hb0 : b = [] := List.length_eq_zero.mp (hb.trans hz)
    have hbuf0 : buf = [] := List.length_eq_zero.mp (hbuf.trans hz)
    subst hb0 hbuf0
    simp [File.Read, hz]
  · rw [File.read_full _ buf.length b (by omega) (by omega) (by rw [hbuf, ← hb]; exact hgot)]
    simp only [hb, lt_irrefl, if_false]
    rw [← hbuf, List.drop_length, List.append_nil]

/-- Witness of C7: page 3 of an empty file, page size 2. -/
theorem writePage_then_readPage_witness :
    ((NewVirtualDiskManagerImpl tinyCommon []).WritePage tinyCommon 3 [7, 9]).value = some () ∧
      (((NewVirtualDiskManagerImpl tinyCommon []).WritePage tinyCommon 3 [7, 9]).state.ReadPage
        tinyCommon 3 [0, 0]).value = some (none, [7, 9]) :=
  writePage_then_readPage tinyCommon (NewVirtualDiskManagerImpl tinyCommon []) 3 [7, 9] [0, 0]
    (by decide) (by decide) (by decide)

end SamehadaDB

namespace SamehadaDB

/-! ## Buffer pool: single calls -/

/-- C8. FetchPage hit path: when the directory maps `pid` to frame `f` and `f` holds the
page `pg`, `FetchPage(pid)` returns that page with its pin count raised by one, stores it
in `f`, tells the replacer to pin `f`, calls the pager not at all (disk manager and
event trace unchanged) and leaves the directory, the free list and every other frame
unchanged. -/
theorem fetchPage_hit (c : Common) (b : BufferPoolManager) (pid : Int) (f : Nat) (pg : Page)
    (hdir : tableGet b.pageTable pid = some f) (hfr : b.pages[f]? = some (some pg)) :
    (b.FetchPage c pid).value = some (some { pg with pinCount := pg.pinCount + 1 }) ∧
    (b.FetchPage c pid).state.pages[f]? = some (some { pg with pinCount := pg.pinCount + 1 }) ∧
    (∀ g, g ≠ f → (b.FetchPage c pid).state.pages[g]? = b.pages[g]?) ∧
    (b.FetchPage c pid).state.replacer = b.replacer.Pin f ∧
    (b.FetchPage c pid).state.pageTable = b.pageTable ∧
    (b.FetchPage c pid).state.freeList = b.freeList ∧
    (b.FetchPage c pid).state.diskManager = b.diskManager ∧
    (b.FetchPage c pid).state.events = b.events := by
  have hlt : f < b.pages.length := by
    rcases Nat.lt_or_ge f b.pages.length with h | h
    · exact h
    · rw [List.getElem?_eq_none h] at hfr; cases hfr
  simp only [BufferPoolManager.FetchPage, hdir, hfr, Res.value, Res.state, Page.IncPinCount,
    true_and, and_true]
  refine ⟨?_, ?_⟩
  · rw [List.getElem?_set_self hlt]
  · intro g hg
    rw [List.getElem?_set_ne (Ne.symm hg)]

/-- Witness of C8: a second fetch of page 0, resident in frame 0 after `NewPage`. -/
theorem fetchPage_hit_witness :
    ((BufferPoolManager.NewPage tinyCommon
        (NewBufferPoolManager 2 (NewVirtualDiskManagerImpl tinyCommon []))).state.FetchPage
      tinyCommon 0).value = some (some { id := 0, pinCount := 1 + 1, isDirty := false, data := [0, 0] }) :=
  (fetchPage_hit tinyCommon
    (BufferPoolManager.NewPage tinyCommon
      (NewBufferPoolManager 2 (NewVirtualDiskManagerImpl tinyCommon []))).state 0 0
    { id := 0, pinCount := 1, isDirty := false, data := [0, 0] } (by decide) (by decide)).1

theorem ClockReplacer.victim_none (r : ClockReplacer) (h : ∀ f, r.eligible f = false) :
    r.Victim = (none, r) := by
  have hall : r.inPool.all (fun e => !e) = true := by
    rw [List.all_eq_true]
    intro e he
    obtain ⟨i, hi, hie⟩ := List.getElem_of_mem he
    have := h i
    simp only [ClockReplacer.eligible, List.getD_eq_getElem?_getD, List.getElem?_eq_getElem hi,
      Option.getD_some, hie] at this
    simp [this]
  simp only [ClockReplacer.Victim, hall, if_true]

/-- C10. Pool exhaustion: when the free list is empty and the replacer has no eligible
frame, `FetchPage(pid)` for a page that is not resident and `NewPage()` both return `nil`
and leave the whole pool as it was: directory, frames, free list and the disk manager
(its `nextPageID` and data file), so `NewPage` allocates no page id. -/
theorem pool_exhausted (c : Common) (b : BufferPoolManager) (pid : Int)
    (hfree : b.freeList = []) (hrep : ∀ f, b.replacer.eligible f = false)
    (hmiss : tableGet b.pageTable pid = none) :
    b.FetchPage c pid = .ok b none ∧ b.NewPage c = .ok b none := by
  have hv := ClockReplacer.victim_none b.replacer hrep
  have hg : b.getFrameID = (none, false, b) := by
    obtain ⟨dm, pages, rep, fl, pt, ev⟩ := b
    simp only at hfree hv
    subst hfree
    simp only [BufferPoolManager.getFrameID, hv]
  simp only [BufferPoolManager.FetchPage, hmiss, hg, BufferPoolManager.NewPage, and_self]

/-- Witness of C10: a pool of one frame whose only page is pinned. -/
theorem pool_exhausted_witness :
    (BufferPoolManager.NewPage tinyCommon
        (NewBufferPoolManager 1 (NewVirtualDiskManagerImpl tinyCommon []))).state.FetchPage
      tinyCommon 5 =
      .ok (BufferPoolManager.NewPage tinyCommon
        (NewBufferPoolManager 1 (NewVirtualDiskManagerImpl tinyCommon []))).state none ∧
    (BufferPoolManager.NewPage tinyCommon
        (NewBufferPoolManager 1 (NewVirtualDiskManagerImpl tinyCommon []))).state.NewPage
      tinyCommon =
      .ok (BufferPoolManager.NewPage tinyCommon
        (NewBufferPoolManager 1 (NewVirtualDiskManagerImpl tinyCommon []))).state none :=
  pool_exhausted tinyCommon
    (BufferPoolManager.NewPage tinyCommon
      (NewBufferPoolManager 1 (NewVirtualDiskManagerImpl tinyCommon []))).state 5
    (by decide)
    (by
      intro f
      cases f with
      | zero => decide
      | succ n => rfl)
    (by decide)

end SamehadaDB

namespace SamehadaDB

/-- The events `removeCurrent` adds when the frame holds a dirty page: the log flush, then
the write of the page. The page table entry goes only when the write returned. -/
theorem BufferPoolManager.removeCurrent_dirty (c : Common) (b : BufferPoolManager) (f : Nat)
    (cur : Page) (hcur : b.pages[f]? = some (some cur)) (hdirty : cur.isDirty = true) :
    (b.removeCurrent c f).state.events
        = b.events ++ [Event.logFlush, Event.writePage cur.id cur.data] := by
  simp only [BufferPoolManager.removeCurrent, hcur, hdirty, if_true]
  cases b.diskManager.WritePage c cur.id cur.data <;> rfl

/-- C5. WAL ordering: when `FetchPage` (of a page that is not resident) or `NewPage` takes
a frame from the replacer that holds a dirty page `cur`, the events of the call start with
`log_manager.Flush()` followed by the pager's `WritePage(cur.id, cur.data)`; whatever
follows is the `ReadPage` of the fetched page (resp. the `AllocatePage` of the new one), so
no write of the displaced page happens without the flush before it. -/
theorem wal_flush_precedes_write (c : Common) (b b1 : BufferPoolManager) (pid : Int) (f : Nat)
    (cur : Page) (hmiss : tableGet b.pageTable pid = none)
    (hframe : b.getFrameID = (some f, false, b1))
    (hcur : b1.pages[f]? = some (some cur)) (hdirty : cur.isDirty = true) :
    (∃ rest, (b.FetchPage c pid).state.events
        = b.events ++ Event.logFlush :: Event.writePage cur.id cur.data :: rest ∧
        ∀ e ∈ rest, e = Event.readPage pid) ∧
    (∃ rest, (b.NewPage c).state.events
        = b.events ++ Event.logFlush :: Event.writePage cur.id cur.data :: rest ∧
        ∀ e ∈ rest, e = Event.allocatePage) := by
  have hev1 : b1.events = b.events := by
    unfold BufferPoolManager.getFrameID at hframe
    split at hframe
    · simp at hframe
    · simp only [Prod.mk.injEq] at hframe
      rw [← hframe.2.2]
  have hrem := BufferPoolManager.removeCurrent_dirty c b1 f cur hcur hdirty
  rw [hev1] at hrem
  constructor
  · simp only [BufferPoolManager.FetchPage, hmiss, hframe, Bool.false_eq_true, if_false]
    cases hr : b1.removeCurrent c f with
    | panic b2 flt =>
      rw [hr] at hrem
      exact ⟨[], by simpa [Res.state] using hrem, by simp⟩
    | ok b2 u =>
      rw [hr] at hrem
      simp only [Res.state] at hrem
      refine ⟨[Event.readPage pid], ?_, by simp⟩
      simp only
      cases hrd : b2.diskManager.ReadPage c pid (zeroBytes c.PageSize) with
      | panic d flt => simp [Res.state, hrem]
      | ok d res =>
        obtain ⟨e, data⟩ := res
        cases e with
        | some e => simp [Res.state, hrem]
        | none =>
          simp only
          split <;> simp [Res.state, hrem]
  · simp only [BufferPoolManager.NewPage, hframe, Bool.false_eq_true, if_false]
    cases hr : b1.removeCurrent c f with
    | panic b2 flt =>
      rw [hr] at hrem
      exact ⟨[], by simpa [Res.state] using hrem, by simp⟩
    | ok b2 u =>
      rw [hr] at hrem
      simp only [Res.state] at hrem
      refine ⟨[Event.allocatePage], ?_, by simp⟩
      simp only
      cases hrd : b2.diskManager.AllocatePage c with
      | panic d flt => simp [Res.state, hrem]
      | ok d res =>
        simp only
        split <;> simp [Res.state, hrem]

/-- The pool of one frame after `NewPage`, `UnpinPage(0, dirty)`: page 0 is dirty and its
frame is eligible for eviction. -/
theorem wal_example_state :
    (BufferPoolManager.run tinyCommon
        (NewBufferPoolManager 1 (NewVirtualDiskManagerImpl tinyCommon []))
        [.newPage, .unpinPage 0 true]).state.getFrameID =
      (some 0, false,
        { diskManager := { db := { bytes := [0, 0], pos := 2 }, nextPageID := 1, size := 2 }
          pages := [some { id := 0, pinCount := 0, isDirty := true, data := [0, 0] }]
          replacer := { inPool := [false], refBit := [false], hand := 0 }
          freeList := []
          pageTable := [(0, 0)]
          events := [Event.allocatePage] }) := by
  decide

/-- Witness of C5: pool of one frame, `NewPage`, `UnpinPage(0, dirty)`, then a call that
displaces page 0. -/
theorem wal_flush_precedes_write_witness :
    (∃ rest, ((BufferPoolManager.run tinyCommon
        (NewBufferPoolManager 1 (NewVirtualDiskManagerImpl tinyCommon []))
        [.newPage, .unpinPage 0 true]).state.FetchPage tinyCommon 7).state.events
        = [Event.allocatePage] ++ Event.logFlush :: Event.writePage 0 [0, 0] :: rest ∧
        ∀ e ∈ rest, e = Event.readPage 7) ∧
    (∃ rest, ((BufferPoolManager.run tinyCommon
        (NewBufferPoolManager 1 (NewVirtualDiskManagerImpl tinyCommon []))
        [.newPage, .unpinPage 0 true]).state.NewPage tinyCommon).state.events
        = [Event.allocatePage] ++ Event.logFlush :: Event.writePage 0 [0, 0] :: rest ∧
        ∀ e ∈ rest, e = Event.allocatePage) :=
  wal_flush_precedes_write tinyCommon
    (BufferPoolManager.run tinyCommon
        (NewBufferPoolManager 1 (NewVirtualDiskManagerImpl tinyCommon []))
        [.newPage, .unpinPage 0 true]).state _ 7 0
    { id := 0, pinCount := 0, isDirty := true, data := [0, 0] }
    (by decide) wal_example_state (by decide) rfl

end SamehadaDB

namespace SamehadaDB

theorem toPageArray_of_length (c : Common) (data : List UInt8) (h : data.length = c.PageSize) :
    toPageArray c data = data := by
  unfold toPageArray
  rw [List.take_append_of_le_length (Nat.le_of_eq h.symm), ← h, List.take_length]

theorem tableGet_tableSet_self (m : List (Int × Nat)) (k : Int) (v : Nat) :
    tableGet (tableSet m k v) k = some v := by
  simp [tableSet, tableGet]

theorem BufferPoolManager.getFrameID_pages (b b1 : BufferPoolManager) (fr : Option Nat)
    (isFromFreeList : Bool) (h : b.getFrameID = (fr, isFromFreeList, b1)) :
    b1.pages = b.pages ∧ b1.pageTable = b.pageTable ∧ b1.events = b.events ∧
      b1.diskManager = b.diskManager := by
  unfold BufferPoolManager.getFrameID at h
  split at h
  · simp only [Prod.mk.injEq] at h
    rw [← h.2.2]; simp
  · simp only [Prod.mk.injEq] at h
    rw [← h.2.2]; simp

/-- Displacement returns when the frame is one of the pool and the page it holds, if any,
has `PageSize` bytes; the frames are not touched by it. -/
theorem BufferPoolManager.removeCurrent_ok (c : Common) (b : BufferPoolManager) (f : Nat)
    (hf : f < b.pages.length)
    (hsized : ∀ pg, b.pages[f]? = some (some pg) → pg.data.length = c.PageSize) :
    ∃ b2, b.removeCurrent c f = .ok b2 () ∧ b2.pages = b.pages := by
  unfold BufferPoolManager.removeCurrent
  split
  · rename_i h
    rw [List.getElem?_eq_getElem hf] at h
    cases h
  · exact ⟨_, rfl, rfl⟩
  · rename_i cur h
    have hl := hsized cur h
    simp only [VirtualDiskManagerImpl.WritePage, hl, ne_eq, not_true_eq_false, if_false]
    split
    · exact ⟨_, rfl, rfl⟩
    · exact ⟨_, rfl, rfl⟩

/-- C9. FetchPage miss path: `pid` is not in the directory, `getFrameID` yields the frame
`f` (a frame of the pool, whose page, if it holds one, has `PageSize` bytes), and the
pager's `ReadPage(pid)`, called after the displaced page was dealt with, succeeds with the
bytes `data`. Then `FetchPage(pid)` returns a page with id `pid`, bytes `data`, pin count 1
and dirty flag false; afterwards the directory maps `pid` to `f` and `f` holds that page. -/
theorem fetchPage_miss (c : Common) (b b1 : BufferPoolManager) (pid : Int) (f : Nat)
    (isFromFreeList : Bool) (d : VirtualDiskManagerImpl) (data : List UInt8)
    (hmiss : tableGet b.pageTable pid = none)
    (hframe : b.getFrameID = (some f, isFromFreeList, b1))
    (hf : f < b.pages.length)
    (hsized : ∀ pg, b.pages[f]? = some (some pg) → pg.data.length = c.PageSize)
    (hread : (if isFromFreeList then Res.ok b1 () else b1.removeCurrent c f).state.diskManager.ReadPage
        c pid (zeroBytes c.PageSize) = .ok d (none, data)) :
    (b.FetchPage c pid).value
        = some (some { id := pid, pinCount := 1, isDirty := false, data := data }) ∧
    tableGet (b.FetchPage c pid).state.pageTable pid = some f ∧
    (b.FetchPage c pid).state.pages[f]?
        = some (some { id := pid, pinCount := 1, isDirty := false, data := data }) := by
  have hlen : data.length = c.PageSize :=
    VirtualDiskManagerImpl.readPage_length c _ _ pid _ data none (by simp [zeroBytes]) hread
  have hp1 : b1.pages = b.pages := (BufferPoolManager.getFrameID_pages b b1 _ _ hframe).1
  obtain ⟨b2, hrem, hp2⟩ :
      ∃ b2, (if isFromFreeList then Res.ok b1 () else b1.removeCurrent c f) = .ok b2 () ∧
        b2.pages = b.pages := by
    cases isFromFreeList with
    | true => exact ⟨b1, rfl, hp1⟩
    | false =>
      obtain ⟨b2, h, hp⟩ := BufferPoolManager.removeCurrent_ok c b1 f (by rw [hp1]; exact hf)
        (by rw [hp1]; exact hsized)
      exact ⟨b2, by simpa using h, hp.trans hp1⟩
  rw [hrem] at hread
  simp only [Res.state] at hread
  have hf2 : f < b2.pages.length := by rw [hp2]; exact hf
  simp only [BufferPoolManager.FetchPage, hmiss, hframe, hrem, hread, hf2, if_true, Res.value,
    Res.state, Page.New, toPageArray_of_length c data hlen, tableGet_tableSet_self, true_and]
  rw [List.getElem?_set_self hf2]

/-- Witness of C9: a fresh pool of two frames over a file of two pages; page 1 is fetched
into frame 0. -/
theorem fetchPage_miss_witness :
    ((NewBufferPoolManager 2 (NewVirtualDiskManagerImpl tinyCommon [1, 2, 3, 4])).FetchPage
        tinyCommon 1).value
        = some (some { id := 1, pinCount := 1, isDirty := false, data := [3, 4] }) ∧
    tableGet ((NewBufferPoolManager 2 (NewVirtualDiskManagerImpl tinyCommon [1, 2, 3, 4])).FetchPage
        tinyCommon 1).state.pageTable 1 = some 0 ∧
    ((NewBufferPoolManager 2 (NewVirtualDiskManagerImpl tinyCommon [1, 2, 3, 4])).FetchPage
        tinyCommon 1).state.pages[0]?
        = some (some { id := 1, pinCount := 1, isDirty := false, data := [3, 4] }) :=
  fetchPage_miss tinyCommon
    (NewBufferPoolManager 2 (NewVirtualDiskManagerImpl tinyCommon [1, 2, 3, 4]))
    { NewBufferPoolManager 2 (NewVirtualDiskManagerImpl tinyCommon [1, 2, 3, 4]) with
      freeList := [1] }
    1 0 true { db := { bytes := [1, 2, 3, 4], pos := 4 }, nextPageID := 3, size := 4 } [3, 4]
    (by decide) (by decide) (by decide)
    (fun pg h => by simp [NewBufferPoolManager] at h) (by decide)

end SamehadaDB

namespace SamehadaDB

/-! ## Page table lemmas -/

theorem mem_tableDelete (m : List (Int × Nat)) (k : Int) (e : Int × Nat) :
    e ∈ tableDelete m k ↔ e ∈ m ∧ e.1 ≠ k := by
  simp [tableDelete, List.mem_filter]

theorem mem_tableSet (m : List (Int × Nat)) (k : Int) (v : Nat) (e : Int × Nat) :
    e ∈ tableSet m k v ↔ e = (k, v) ∨ (e ∈ m ∧ e.1 ≠ k) := by
  simp [tableSet, mem_tableDelete]

theorem tableGet_mem (m : List (Int × Nat)) (k : Int) (f : Nat)
    (h : tableGet m k = some f) : (k, f) ∈ m := by
  induction m with
  | nil => simp [tableGet] at h
  | cons e m ih =>
    obtain ⟨k1, v1⟩ := e
    simp only [tableGet] at h
    split at h
    · rename_i hk
      simp only [Option.some.injEq] at h
      subst hk; subst h
      exact List.mem_cons_self _ _
    · exact List.mem_cons_of_mem _ (ih h)

theorem tableGet_of_mem (m : List (Int × Nat)) (k : Int) (f : Nat)
    (hk : (m.map Prod.fst).Nodup) (h : (k, f) ∈ m) : tableGet m k = some f := by
  induction m with
  | nil => cases h
  | cons e m ih =>
    obtain ⟨k1, v1⟩ := e
    simp only [List.map_cons, List.nodup_cons] at hk
    simp only [tableGet]
    rcases List.mem_cons.mp h with h | h
    · simp only [Prod.mk.injEq] at h
      simp [h.1, h.2]
    · have hne : k1 ≠ k := by
        intro heq
        subst heq
        exact hk.1 (List.mem_map_of_mem Prod.fst h)
      simp only [hne, if_false]
      exact ih hk.2 h

theorem tableGet_none_not_mem (m : List (Int × Nat)) (k : Int) (f : Nat)
    (h : tableGet m k = none) : (k, f) ∉ m := by
  induction m with
  | nil => simp
  | cons e m ih =>
    obtain ⟨k1, v1⟩ := e
    simp only [tableGet] at h
    split at h
    · cases h
    · rename_i hk
      intro hm
      rcases List.mem_cons.mp hm with hm | hm
      · simp only [Prod.mk.injEq] at hm
        exact hk hm.1.symm
      · exact ih h hm

theorem tableDelete_keys_nodup (m : List (Int × Nat)) (k : Int)
    (h : (m.map Prod.fst).Nodup) : ((tableDelete m k).map Prod.fst).Nodup :=
  List.Nodup.sublist ((List.filter_sublist m).map Prod.fst) h

theorem tableSet_keys_nodup (m : List (Int × Nat)) (k : Int) (v : Nat)
    (h : (m.map Prod.fst).Nodup) : ((tableSet m k v).map Prod.fst).Nodup := by
  simp only [tableSet, List.map_cons, List.nodup_cons]
  refine ⟨?_, tableDelete_keys_nodup m k h⟩
  intro hm
  obtain ⟨e, he, hek⟩ := List.mem_map.mp hm
  exact ((mem_tableDelete m k e).mp he).2 hek

/-! ## Preservation of the invariant -/

theorem PoolInv.setSame {P : List (Option Page)} {F : List Nat} {T : List (Int × Nat)}
    (h : PoolInv P F T) (f : Nat) (pg pg1 : Page) (hf : P[f]? = some (some pg))
    (hid : pg1.id = pg.id) : PoolInv (P.set f (some pg1)) F T := by
  have hlt : f < P.length := by
    rcases Nat.lt_or_ge f P.length with h | h
    · exact h
    · rw [List.getElem?_eq_none h] at hf; cases hf
  refine ⟨?_, ?_, h.nodup, h.keys⟩
  · intro k g hkg
    obtain ⟨pg2, hg, hid2⟩ := h.table k g hkg
    by_cases hgf : g = f
    · subst hgf
      rw [hf] at hg
      simp only [Option.some.injEq] at hg
      subst hg
      exact ⟨pg1, List.getElem?_set_self hlt, hid.trans hid2⟩
    · exact ⟨pg2, by rw [List.getElem?_set_ne (Ne.symm hgf)]; exact hg, hid2⟩
  · intro g hg
    have hnone := h.free g hg
    have hgf : g ≠ f := by
      intro heq; subst heq; rw [hf] at hnone; cases hnone
    rw [List.getElem?_set_ne (Ne.symm hgf)]
    exact hnone

theorem PoolInv.delete {P : List (Option Page)} {F : List Nat} {T : List (Int × Nat)}
    (h : PoolInv P F T) (k : Int) : PoolInv P F (tableDelete T k) :=
  ⟨fun k1 f hm => h.table k1 f ((mem_tableDelete T k _).mp hm).1, h.free, h.nodup,
    tableDelete_keys_nodup T k h.keys⟩

theorem PoolInv.install {P : List (Option Page)} {F : List Nat} {T : List (Int × Nat)}
    (h : PoolInv P F T) (f : Nat) (pg : Page) (hlt : f < P.length) (hF : f ∉ F)
    (hT : ∀ k, (k, f) ∉ T) : PoolInv (P.set f (some pg)) F (tableSet T pg.id f) := by
  refine ⟨?_, ?_, h.nodup, tableSet_keys_nodup T pg.id f h.keys⟩
  · intro k g hkg
    rcases (mem_tableSet T pg.id f (k, g)).mp hkg with heq | ⟨hm, _⟩
    · simp only [Prod.mk.injEq] at heq
      rw [heq.1, heq.2]
      exact ⟨pg, List.getElem?_set_self hlt, rfl⟩
    · obtain ⟨pg2, hg, hid2⟩ := h.table k g hm
      have hgf : g ≠ f := by
        intro heq; subst heq; exact hT k hm
      exact ⟨pg2, by rw [List.getElem?_set_ne (Ne.symm hgf)]; exact hg, hid2⟩
  · intro g hg
    have hgf : g ≠ f := by
      intro heq; subst heq; exact hF hg
    rw [List.getElem?_set_ne (Ne.symm hgf)]
    exact h.free g hg

theorem PoolInv.release {P : List (Option Page)} {F : List Nat} {T : List (Int × Nat)}
    (h : PoolInv P F T) (f : Nat) (pg : Page) (hf : P[f]? = some (some pg))
    (hT : ∀ k, (k, f) ∉ T) : PoolInv (P.set f none) (F ++ [f]) T := by
  have hlt : f < P.length := by
    rcases Nat.lt_or_ge f P.length with h | h
    · exact h
    · rw [List.getElem?_eq_none h] at hf; cases hf
  have hF : f ∉ F := by
    intro hm
    have := h.free f hm
    rw [hf] at this; cases this
  refine ⟨?_, ?_, ?_, h.keys⟩
  · intro k g hkg
    obtain ⟨pg2, hg, hid2⟩ := h.table k g hkg
    have hgf : g ≠ f := by
      intro heq; subst heq; exact hT k hkg
    exact ⟨pg2, by rw [List.getElem?_set_ne (Ne.symm hgf)]; exact hg, hid2⟩
  · intro g hg
    rcases List.mem_append.mp hg with hg1 | hg1
    · have hgf : g ≠ f := by
        intro heq; rw [heq] at hg1; exact hF hg1
      rw [List.getElem?_set_ne (Ne.symm hgf)]
      exact h.free g hg1
    · simp only [List.mem_singleton] at hg1
      rw [hg1]
      exact List.getElem?_set_self hlt
  · rw [List.nodup_append]
    refine ⟨h.nodup, List.nodup_singleton f, ?_⟩
    intro a ha hb
    simp only [List.mem_singleton] at hb
    subst hb
    exact hF ha

theorem NewBufferPoolManager_inv (poolSize : Nat) (d : VirtualDiskManagerImpl) :
    (NewBufferPoolManager poolSize d).Inv := by
  refine ⟨?_, ?_, List.nodup_range poolSize, List.nodup_nil⟩
  · intro k f h
    cases h
  · intro f hf
    have hlt : f < poolSize := List.mem_range.mp hf
    simp [NewBufferPoolManager, hlt]

end SamehadaDB

namespace SamehadaDB

theorem BufferPoolManager.getFrameID_inv (b b1 : BufferPoolManager) (fr : Option Nat)
    (isFromFreeList : Bool) (hinv : b.Inv) (h : b.getFrameID = (fr, isFromFreeList, b1)) :
    b1.Inv ∧ (isFromFreeList = false → b1.freeList = []) ∧
      (∀ f, fr = some f → isFromFreeList = true → b1.Detached f) := by
  obtain ⟨dm, P, rep, F, T, ev⟩ := b
  unfold BufferPoolManager.getFrameID at h
  cases F with
  | nil =>
    simp only [Prod.mk.injEq] at h
    obtain ⟨_, h2, h3⟩ := h
    subst h3
    refine ⟨⟨hinv.table, hinv.free, hinv.nodup, hinv.keys⟩, fun _ => rfl, ?_⟩
    intro f _ ht
    rw [← h2] at ht
    cases ht
  | cons f0 rest =>
    simp only [Prod.mk.injEq] at h
    obtain ⟨h1, _, h3⟩ := h
    subst h3
    have hnd := List.nodup_cons.mp hinv.nodup
    refine ⟨⟨hinv.table, fun g hg => hinv.free g (List.mem_cons_of_mem _ hg), hnd.2, hinv.keys⟩,
      fun hc => by simp_all, ?_⟩
    intro f hf _
    rw [← h1] at hf
    simp only [Option.some.injEq] at hf
    subst hf
    have hnone := hinv.free f0 (List.mem_cons_self _ _)
    refine ⟨?_, hnd.1, ?_⟩
    · rcases Nat.lt_or_ge f0 P.length with h | h
      · exact h
      · simp only at hnone
        rw [List.getElem?_eq_none h] at hnone; cases hnone
    · intro k hk
      obtain ⟨pg, hpg, _⟩ := hinv.table k f0 hk
      simp only at hnone hpg
      rw [hnone] at hpg; cases hpg

theorem BufferPoolManager.removeCurrent_inv (c : Common) (b : BufferPoolManager) (f : Nat)
    (hinv : b.Inv) (hfree : b.freeList = []) :
    (b.removeCurrent c f).state.Inv ∧
      ∀ b2 u, b.removeCurrent c f = .ok b2 u → b2.Detached f := by
  unfold BufferPoolManager.removeCurrent
  split
  · exact ⟨hinv, fun b2 u h => by cases h⟩
  · rename_i hnone
    refine ⟨hinv, ?_⟩
    intro b2 u h
    simp only [Res.ok.injEq] at h
    rw [← h.1]
    refine ⟨?_, by rw [hfree]; simp, ?_⟩
    · rcases Nat.lt_or_ge f b.pages.length with h | h
      · exact h
      · rw [List.getElem?_eq_none h] at hnone; cases hnone
    · intro k hk
      obtain ⟨pg, hpg, _⟩ := hinv.table k f hk
      rw [hnone] at hpg; cases hpg
  · rename_i cur hcur
    have hlt : f < b.pages.length := by
      rcases Nat.lt_or_ge f b.pages.length with h | h
      · exact h
      · rw [List.getElem?_eq_none h] at hcur; cases hcur
    have hdet : ∀ k, (k, f) ∉ tableDelete b.pageTable cur.id := by
      intro k hk
      obtain ⟨hm, hne⟩ := (mem_tableDelete _ _ _).mp hk
      obtain ⟨pg, hpg, hid⟩ := hinv.table k f hm
      rw [hcur] at hpg
      simp only [Option.some.injEq] at hpg
      subst hpg
      exact hne hid.symm
    have hdel : PoolInv b.pages b.freeList (tableDelete b.pageTable cur.id) := hinv.delete cur.id
    split
    · cases hw : b.diskManager.WritePage c cur.id cur.data with
      | panic d flt => exact ⟨hinv, fun b2 u h => by cases h⟩
      | ok d u =>
        refine ⟨hdel, ?_⟩
        intro b2 u2 h
        simp only [Res.ok.injEq] at h
        rw [← h.1]
        exact ⟨hlt, by simp [hfree], hdet⟩
    · refine ⟨hdel, ?_⟩
      intro b2 u2 h
      simp only [Res.ok.injEq] at h
      rw [← h.1]
      exact ⟨hlt, by simp [hfree], hdet⟩

/-- The first half of `FetchPage` (miss) and of `NewPage`: after a frame was obtained and
its page removed, the invariant holds and the frame is detached. -/
theorem BufferPoolManager.removePhase_inv (c : Common) (b b1 : BufferPoolManager) (f : Nat)
    (isFromFreeList : Bool) (hinv : b.Inv)
    (h : b.getFrameID = (some f, isFromFreeList, b1)) :
    (if isFromFreeList then Res.ok b1 () else b1.removeCurrent c f).state.Inv ∧
      ∀ b2 u, (if isFromFreeList then Res.ok b1 () else b1.removeCurrent c f) = .ok b2 u →
        b2.Detached f := by
  obtain ⟨hinv1, hfree, hdet⟩ := BufferPoolManager.getFrameID_inv b b1 _ _ hinv h
  cases isFromFreeList with
  | true =>
    refine ⟨hinv1, ?_⟩
    intro b2 u h2
    simp only [if_true, Res.ok.injEq] at h2
    rw [← h2.1]
    exact hdet f rfl rfl
  | false =>
    simp only [Bool.false_eq_true, if_false]
    exact BufferPoolManager.removeCurrent_inv c b1 f hinv1 (hfree rfl)

theorem BufferPoolManager.FetchPage_inv (c : Common) (b : BufferPoolManager) (pid : Int)
    (hinv : b.Inv) : (b.FetchPage c pid).state.Inv := by
  unfold BufferPoolManager.FetchPage
  split
  · split
    · exact hinv
    · exact hinv
    · rename_i f hget _ pg hpg
      exact PoolInv.setSame hinv f pg pg.IncPinCount hpg rfl
  · split
    · rename_i x b1 hg
      exact (BufferPoolManager.getFrameID_inv b b1 _ _ hinv hg).1
    · rename_i f isFromFreeList b1 hg
      obtain ⟨hinv2, hdet⟩ := BufferPoolManager.removePhase_inv c b b1 f isFromFreeList hinv hg
      split
      · rename_i b2 flt hr
        rw [hr] at hinv2
        exact hinv2
      · rename_i b2 u hr
        rw [hr] at hinv2
        have hd := hdet b2 u hr
        simp only [Res.state] at hinv2
        split
        · exact hinv2
        · exact hinv2
        · rename_i d data hread
          simp only
          rw [if_pos hd.1]
          exact PoolInv.install hinv2 f (Page.New pid false (toPageArray c data)) hd.1 hd.2.1 hd.2.2

theorem BufferPoolManager.NewPage_inv (c : Common) (b : BufferPoolManager)
    (hinv : b.Inv) : (b.NewPage c).state.Inv := by
  unfold BufferPoolManager.NewPage
  split
  · rename_i x b1 hg
    exact (BufferPoolManager.getFrameID_inv b b1 _ _ hinv hg).1
  · rename_i f isFromFreeList b1 hg
    obtain ⟨hinv2, hdet⟩ := BufferPoolManager.removePhase_inv c b b1 f isFromFreeList hinv hg
    split
    · rename_i b2 flt hr
      rw [hr] at hinv2
      exact hinv2
    · rename_i b2 u hr
      rw [hr] at hinv2
      have hd := hdet b2 u hr
      simp only [Res.state] at hinv2
      split
      · exact hinv2
      · rename_i d pageID halloc
        simp only
        rw [if_pos hd.1]
        exact PoolInv.install hinv2 f (Page.NewEmpty c pageID) hd.1 hd.2.1 hd.2.2

theorem BufferPoolManager.UnpinPage_inv (c : Common) (b : BufferPoolManager) (pid : Int)
    (isDirty : Bool) (hinv : b.Inv) : (b.UnpinPage c pid isDirty).state.Inv := by
  unfold BufferPoolManager.UnpinPage
  split
  · split
    · exact hinv
    · exact hinv
    · rename_i f hget _ pg hpg
      refine PoolInv.setSame hinv f pg _ hpg ?_
      split <;> rfl
  · split <;> exact hinv

theorem BufferPoolManager.FlushPage_inv (c : Common) (b : BufferPoolManager) (pid : Int)
    (hinv : b.Inv) : (b.FlushPage c pid).state.Inv := by
  unfold BufferPoolManager.FlushPage
  split
  · split
    · exact hinv
    · exact hinv
    · rename_i f hget _ pg hpg
      have := PoolInv.setSame hinv f pg ((pg.DecPinCount).SetIsDirty false) hpg rfl
      simp only
      split <;> exact this
  · exact hinv

theorem BufferPoolManager.DeletePage_inv (b : BufferPoolManager) (pid : Int)
    (hinv : b.Inv) : (b.DeletePage pid).state.Inv := by
  unfold BufferPoolManager.DeletePage
  split
  · exact hinv
  · rename_i f hget
    have hdel : PoolInv b.pages b.freeList (tableDelete b.pageTable pid) := hinv.delete pid
    simp only
    split
    · exact hdel
    · exact hdel
    · rename_i page hpage
      split
      · rename_i hid
        split
        · exact hdel
        · refine PoolInv.release hdel f page hpage ?_
          intro k hk
          obtain ⟨hm, hne⟩ := (mem_tableDelete _ _ _).mp hk
          obtain ⟨pg, hpg, hid2⟩ := hinv.table k f hm
          rw [hpage] at hpg
          simp only [Option.some.injEq] at hpg
          subst hpg
          exact hne (hid2.symm.trans hid)
      · exact hdel

theorem BufferPoolManager.flushEach_inv (c : Common) (ids : List Int) :
    ∀ b : BufferPoolManager, b.Inv → (b.flushEach c ids).state.Inv := by
  induction ids with
  | nil => intro b h; exact h
  | cons pid rest ih =>
    intro b h
    have h1 := BufferPoolManager.FlushPage_inv c b pid h
    unfold BufferPoolManager.flushEach
    cases hr : b.FlushPage c pid with
    | panic b1 flt => rw [hr] at h1; exact h1
    | ok b1 r => rw [hr] at h1; exact ih b1 h1

theorem BufferPoolManager.step_inv (c : Common) (b : BufferPoolManager) (op : Op)
    (hinv : b.Inv) : (b.step c op).state.Inv := by
  cases op with
  | fetchPage pid =>
    have := BufferPoolManager.FetchPage_inv c b pid hinv
    simp only [BufferPoolManager.step]
    cases hr : b.FetchPage c pid <;> rw [hr] at this <;> exact this
  | newPage =>
    have := BufferPoolManager.NewPage_inv c b hinv
    simp only [BufferPoolManager.step]
    cases hr : b.NewPage c <;> rw [hr] at this <;> exact this
  | unpinPage pid isDirty =>
    have := BufferPoolManager.UnpinPage_inv c b pid isDirty hinv
    simp only [BufferPoolManager.step]
    cases hr : b.UnpinPage c pid isDirty <;> rw [hr] at this <;> exact this
  | flushPage pid =>
    have := BufferPoolManager.FlushPage_inv c b pid hinv
    simp only [BufferPoolManager.step]
    cases hr : b.FlushPage c pid <;> rw [hr] at this <;> exact this
  | deletePage pid => exact BufferPoolManager.DeletePage_inv b pid hinv
  | flushAllPages => exact BufferPoolManager.flushEach_inv c _ b hinv
  | flushAllDirtyPages =>
    simp only [BufferPoolManager.step, BufferPoolManager.FlushAllDirtyPages]
    split
    · exact hinv
    · exact BufferPoolManager.flushEach_inv c _ b hinv

theorem BufferPoolManager.run_inv (c : Common) (ops : List Op) :
    ∀ b : BufferPoolManager, b.Inv → (b.run c ops).state.Inv := by
  induction ops with
  | nil => intro b h; exact h
  | cons op rest ih =>
    intro b h
    have h1 := BufferPoolManager.step_inv c b op h
    unfold BufferPoolManager.run
    cases hr : b.step c op with
    | panic b1 flt => rw [hr] at h1; exact h1
    | ok b1 r => rw [hr] at h1; exact ih b1 h1

/-- C3. Directory/free-list disjointness: after every sequence of buffer-pool calls on a
pool fresh from `NewBufferPoolManager` (also when the last call ended in a panic), no frame
is at once a value of the page table and an element of the free list, and no frame occurs
twice in the free list. -/
theorem directory_freeList_disjoint (c : Common) (poolSize : Nat) (d : VirtualDiskManagerImpl)
    (ops : List Op) :
    (∀ pid f, tableGet ((NewBufferPoolManager poolSize d).run c ops).state.pageTable pid = some f →
        f ∉ ((NewBufferPoolManager poolSize d).run c ops).state.freeList) ∧
      ((NewBufferPoolManager poolSize d).run c ops).state.freeList.Nodup := by
  have hinv := BufferPoolManager.run_inv c ops _ (NewBufferPoolManager_inv poolSize d)
  refine ⟨?_, hinv.nodup⟩
  intro pid f hget hfree
  obtain ⟨pg, hpg, _⟩ := hinv.table pid f (tableGet_mem _ _ _ hget)
  have := hinv.free f hfree
  rw [this] at hpg
  cases hpg

end SamehadaDB

namespace SamehadaDB

/-! ## The code at two failing inputs -/

/-- C1, the code at the failing input. Pool of one frame: `NewPage` (page 0),
`UnpinPage(0, false)` (frame 0 becomes eligible in the replacer), `DeletePage(0)` (frame 0
goes to the free list, the replacer is not told), `NewPage` (page 1 takes frame 0 from the
free list, pin count 1). All four calls return. Then the free list is empty, `getFrameID`
obtains frame 0 from the replacer although the page in it has pin count 1, and the next
`NewPage` removes that pinned page from the directory. -/
theorem eviction_of_pinned_page :
    (BufferPoolManager.run tinyCommon
        (NewBufferPoolManager 1 (NewVirtualDiskManagerImpl tinyCommon []))
        [.newPage, .unpinPage 0 false, .deletePage 0, .newPage]).value = some () ∧
    evictionExample.freeList = [] ∧
    evictionExample.getFrameID.1 = some 0 ∧
    evictionExample.getFrameID.2.1 = false ∧
    evictionExample.pages[0]?
        = some (some { id := 1, pinCount := 1, isDirty := false, data := [0, 0] }) ∧
    tableGet evictionExample.pageTable 1 = some 0 ∧
    tableGet (evictionExample.NewPage tinyCommon).state.pageTable 1 = none := by
  decide

/-- C2, the code at the failing input. Data file of one byte (less than a page), so the
disk manager starts with `nextPageID = 0`; pool of two frames. `FetchPage(0)` reads the
short page into frame 0; `NewPage()` is given page id 0 again and puts it in frame 1. Both
calls return. Afterwards frame 0 still holds a page with id 0 and is not on the free list,
but the directory maps page 0 to frame 1. -/
theorem directory_not_exact :
    (BufferPoolManager.run tinyCommon
        (NewBufferPoolManager 2 (NewVirtualDiskManagerImpl tinyCommon [7]))
        [.fetchPage 0, .newPage]).value = some () ∧
    collisionExample.pages[0]?
        = some (some { id := 0, pinCount := 1, isDirty := false, data := [0, 0] }) ∧
    collisionExample.freeList = [] ∧
    tableGet collisionExample.pageTable 0 = some 1 := by
  decide

end SamehadaDB

namespace SamehadaDB

/-! ## Pin accounting -/

theorem tableGet_tableDelete_self (m : List (Int × Nat)) (k : Int) :
    tableGet (tableDelete m k) k = none := by
  induction m with
  | nil => rfl
  | cons e m ih =>
    obtain ⟨k1, v1⟩ := e
    by_cases h : k1 = k
    · simpa [tableDelete, h] using ih
    · have : tableDelete ((k1, v1) :: m) k = (k1, v1) :: tableDelete m k := by
        simp [tableDelete, h]
      rw [this]
      simp only [tableGet, h, if_false]
      exact ih

theorem tableGet_tableDelete_ne (m : List (Int × Nat)) (k pid : Int) (hne : pid ≠ k) :
    tableGet (tableDelete m k) pid = tableGet m pid := by
  induction m with
  | nil => rfl
  | cons e m ih =>
    obtain ⟨k1, v1⟩ := e
    by_cases h : k1 = k
    · have h1 : tableDelete ((k1, v1) :: m) k = tableDelete m k := by
        simp [tableDelete, h]
      have h2 : ¬ (k1 = pid) := by
        intro heq; exact hne (heq.symm.trans h)
      rw [h1, ih]
      simp only [tableGet, h2, if_false]
    · have : tableDelete ((k1, v1) :: m) k = (k1, v1) :: tableDelete m k := by
        simp [tableDelete, h]
      rw [this]
      simp only [tableGet, ih]

theorem tableGet_tableSet_ne (m : List (Int × Nat)) (k pid : Int) (v : Nat) (hne : pid ≠ k) :
    tableGet (tableSet m k v) pid = tableGet m pid := by
  have h2 : ¬ (k = pid) := fun h => hne h.symm
  simp only [tableSet, tableGet, h2, if_false]
  exact tableGet_tableDelete_ne m k pid hne

theorem PoolInv.frame_inj {P : List (Option Page)} {F : List Nat} {T : List (Int × Nat)}
    (h : PoolInv P F T) (p q : Int) (f : Nat) (hp : tableGet T p = some f)
    (hq : tableGet T q = some f) : p = q := by
  obtain ⟨pg1, h1, hid1⟩ := h.table p f (tableGet_mem T p f hp)
  obtain ⟨pg2, h2, hid2⟩ := h.table q f (tableGet_mem T q f hq)
  rw [h1] at h2
  simp only [Option.some.injEq] at h2
  subst h2
  exact hid1.symm.trans hid2

/-- Replacing the page in the directory's frame for `p` changes the pin count of `p`
only. -/
theorem BufferPoolManager.pinCountOf_setSame (b b1 : BufferPoolManager) (p : Int) (f : Nat)
    (pg1 : Page) (hinv : b.Inv) (hget : tableGet b.pageTable p = some f)
    (hlt : f < b.pages.length)
    (hT : b1.pageTable = b.pageTable) (hP : b1.pages = b.pages.set f (some pg1)) (pid : Int) :
    b1.pinCountOf pid = if pid = p then some pg1.pinCount else b.pinCountOf pid := by
  unfold BufferPoolManager.pinCountOf
  rw [hT, hP]
  by_cases hpid : pid = p
  · subst hpid
    simp only [hget, if_true, List.getElem?_set_self hlt]
  · simp only [hpid, if_false]
    cases hg : tableGet b.pageTable pid with
    | none => rfl
    | some g =>
      have hgf : g ≠ f := by
        intro heq
        subst heq
        exact hpid (hinv.frame_inj pid p g hg hget)
      simp only [List.getElem?_set_ne (Ne.symm hgf)]

/-- Installing a page in a detached frame sets the pin count of its id and changes no
other. -/
theorem BufferPoolManager.pinCountOf_install (b b1 : BufferPoolManager) (f : Nat) (pg : Page)
    (hdet : b.Detached f)
    (hT : b1.pageTable = tableSet b.pageTable pg.id f)
    (hP : b1.pages = b.pages.set f (some pg)) (pid : Int) :
    b1.pinCountOf pid = if pid = pg.id then some pg.pinCount else b.pinCountOf pid := by
  unfold BufferPoolManager.pinCountOf
  rw [hT, hP]
  by_cases hpid : pid = pg.id
  · subst hpid
    simp only [tableGet_tableSet_self, if_true, List.getElem?_set_self hdet.1]
  · simp only [hpid, if_false, tableGet_tableSet_ne _ _ _ _ hpid]
    cases hg : tableGet b.pageTable pid with
    | none => rfl
    | some g =>
      have hgf : g ≠ f := by
        intro heq
        subst heq
        exact hdet.2.2 pid (tableGet_mem _ _ _ hg)
      simp only [List.getElem?_set_ne (Ne.symm hgf)]

/-- A page resident after the table lost a key was resident before, with the same
pin count. -/
theorem BufferPoolManager.pinCountOf_delete (b b1 : BufferPoolManager) (k : Int)
    (hT : b1.pageTable = tableDelete b.pageTable k) (hP : b1.pages = b.pages)
    (pid : Int) (n : Int) (h : b1.pinCountOf pid = some n) : b.pinCountOf pid = some n := by
  unfold BufferPoolManager.pinCountOf at h ⊢
  rw [hT, hP] at h
  by_cases hpid : pid = k
  · subst hpid
    rw [tableGet_tableDelete_self] at h
    cases h
  · rw [tableGet_tableDelete_ne _ _ _ hpid] at h
    exact h

theorem BufferPoolManager.pinCountOf_congr (b b1 : BufferPoolManager)
    (hT : b1.pageTable = b.pageTable) (hP : b1.pages = b.pages) (pid : Int) :
    b1.pinCountOf pid = b.pinCountOf pid := by
  unfold BufferPoolManager.pinCountOf
  rw [hT, hP]

theorem BufferPoolManager.pinCountOf_eq_none (b : BufferPoolManager) (pid : Int)
    (hinv : b.Inv) : b.pinCountOf pid = none ↔ tableGet b.pageTable pid = none := by
  unfold BufferPoolManager.pinCountOf
  cases hg : tableGet b.pageTable pid with
  | none => simp
  | some f =>
    obtain ⟨pg, hpg, _⟩ := hinv.table pid f (tableGet_mem _ _ _ hg)
    simp [hpg]

end SamehadaDB

namespace SamehadaDB

theorem VirtualDiskManagerImpl.writePage_nextPageID (c : Common) (d d1 : VirtualDiskManagerImpl)
    (pid : Int) (data : List UInt8) (u : Unit) (h : d.WritePage c pid data = .ok d1 u) :
    d1.nextPageID = d.nextPageID := by
  unfold VirtualDiskManagerImpl.WritePage at h
  simp only at h
  split at h
  · cases h
  · simp only [Res.ok.injEq] at h
    rw [← h.1]

theorem VirtualDiskManagerImpl.allocatePage_ret (c : Common) (d d1 : VirtualDiskManagerImpl)
    (pid : Int) (h : d.AllocatePage c = .ok d1 pid) : pid = d.nextPageID := by
  unfold VirtualDiskManagerImpl.AllocatePage at h
  simp only at h
  split at h
  · cases h
  · simp only [Res.ok.injEq] at h
    exact h.2.symm

theorem BufferPoolManager.removeCurrent_pin (c : Common) (b b2 : BufferPoolManager) (f : Nat)
    (u : Unit) (h : b.removeCurrent c f = .ok b2 u) :
    (∀ pid n, b2.pinCountOf pid = some n → b.pinCountOf pid = some n) ∧
      b2.diskManager.nextPageID = b.diskManager.nextPageID := by
  unfold BufferPoolManager.removeCurrent at h
  split at h
  · cases h
  · simp only [Res.ok.injEq] at h
    rw [← h.1]
    exact ⟨fun _ _ hh => hh, rfl⟩
  · rename_i cur hcur
    split at h
    · split at h
      · cases h
      · rename_i d u1 hw
        simp only [Res.ok.injEq] at h
        rw [← h.1]
        refine ⟨fun pid n hh => BufferPoolManager.pinCountOf_delete b _ cur.id (by rfl) (by rfl) pid n hh, ?_⟩
        exact VirtualDiskManagerImpl.writePage_nextPageID c _ _ _ _ u1 hw
    · simp only [Res.ok.injEq] at h
      rw [← h.1]
      exact ⟨fun pid n hh => BufferPoolManager.pinCountOf_delete b _ cur.id (by rfl) (by rfl) pid n hh, rfl⟩

theorem BufferPoolManager.removePhase_pin (c : Common) (b b1 b2 : BufferPoolManager) (f : Nat)
    (isFromFreeList : Bool) (u : Unit)
    (hg : b.getFrameID = (some f, isFromFreeList, b1))
    (h : (if isFromFreeList then Res.ok b1 () else b1.removeCurrent c f) = .ok b2 u) :
    (∀ pid n, b2.pinCountOf pid = some n → b.pinCountOf pid = some n) ∧
      b2.diskManager.nextPageID = b.diskManager.nextPageID := by
  obtain ⟨hP, hT, _, hD⟩ := BufferPoolManager.getFrameID_pages b b1 _ _ hg
  have h1 : ∀ pid, b1.pinCountOf pid = b.pinCountOf pid :=
    BufferPoolManager.pinCountOf_congr b b1 hT hP
  cases isFromFreeList with
  | true =>
    simp only [if_true, Res.ok.injEq] at h
    rw [← h.1]
    exact ⟨fun pid n hh => by rw [← h1]; exact hh, by rw [hD]⟩
  | false =>
    simp only [Bool.false_eq_true, if_false] at h
    obtain ⟨h2, h3⟩ := BufferPoolManager.removeCurrent_pin c b1 b2 f u h
    exact ⟨fun pid n hh => by rw [← h1]; exact h2 pid n hh, by rw [h3, hD]⟩

theorem BufferPoolManager.FetchPage_pin (c : Common) (b b' : BufferPoolManager) (p : Int)
    (r : Option Page) (hinv : b.Inv) (h : b.FetchPage c p = .ok b' r) (pid : Int) (n' : Int)
    (hn : b'.pinCountOf pid = some n') :
    n' = match b.pinCountOf pid with
         | none => 1
         | some n => n + (if p = pid then 1 else 0) := by
  unfold BufferPoolManager.FetchPage at h
  split at h
  · rename_i f hget
    split at h
    · cases h
    · cases h
    · rename_i pg hpg
      simp only [Res.ok.injEq] at h
      have hlt : f < b.pages.length := by
        rcases Nat.lt_or_ge f b.pages.length with h | h
        · exact h
        · rw [List.getElem?_eq_none h] at hpg; cases hpg
      have := BufferPoolManager.pinCountOf_setSame b b' p f pg.IncPinCount hinv hget hlt
        (by rw [← h.1]) (by rw [← h.1]) pid
      rw [this] at hn
      by_cases hpid : pid = p
      · subst hpid
        simp only [if_true, Option.some.injEq] at hn
        simp only [BufferPoolManager.pinCountOf, hget, hpg, if_true]
        rw [← hn]; rfl
      · simp only [hpid, if_false] at hn
        have hpid2 : ¬ (p = pid) := fun h => hpid h.symm
        rw [hn]
        simp [hpid2]
  · rename_i hmiss
    split at h
    · rename_i x b1 hg
      simp only [Res.ok.injEq] at h
      obtain ⟨hP, hT, _, _⟩ := BufferPoolManager.getFrameID_pages b b1 _ _ hg
      rw [← h.1, BufferPoolManager.pinCountOf_congr b b1 hT hP] at hn
      have hpid : ¬ (p = pid) := by
        intro heq
        subst heq
        simp [BufferPoolManager.pinCountOf, hmiss] at hn
      rw [hn]
      simp [hpid]
    · rename_i f isFromFreeList b1 hg
      obtain ⟨hinv2, hdet⟩ := BufferPoolManager.removePhase_inv c b b1 f isFromFreeList hinv hg
      split at h
      · cases h
      · rename_i b2 u hr
        have hd := hdet b2 u hr
        obtain ⟨hpin, _⟩ := BufferPoolManager.removePhase_pin c b b1 b2 f isFromFreeList u hg hr
        split at h
        · cases h
        · cases h
        · rename_i d data hread
          simp only at h
          rw [if_pos hd.1] at h
          simp only [Res.ok.injEq] at h
          have := BufferPoolManager.pinCountOf_install b2 b' f
            (Page.New p false (toPageArray c data)) hd (by rw [← h.1]; rfl) (by rw [← h.1]) pid
          rw [this] at hn
          have hnone : b.pinCountOf p = none := by
            simp [BufferPoolManager.pinCountOf, hmiss]
          by_cases hpid : pid = p
          · subst hpid
            simp only [Page.New, if_true, Option.some.injEq] at hn
            rw [hnone]
            exact hn.symm
          · simp only [Page.New, hpid, if_false] at hn
            have hpid2 : ¬ (p = pid) := fun h => hpid h.symm
            rw [hpin pid n' hn]
            simp [hpid2]

theorem BufferPoolManager.NewPage_pin (c : Common) (b b' : BufferPoolManager)
    (r : Option Page) (hinv : b.Inv) (hfresh : b.pinCountOf b.diskManager.nextPageID = none)
    (h : b.NewPage c = .ok b' r) (pid : Int) (n' : Int)
    (hn : b'.pinCountOf pid = some n') :
    n' = match b.pinCountOf pid with
         | none => 1
         | some n => n := by
  unfold BufferPoolManager.NewPage at h
  split at h
  · rename_i x b1 hg
    simp only [Res.ok.injEq] at h
    obtain ⟨hP, hT, _, _⟩ := BufferPoolManager.getFrameID_pages b b1 _ _ hg
    rw [← h.1, BufferPoolManager.pinCountOf_congr b b1 hT hP] at hn
    rw [hn]
  · rename_i f isFromFreeList b1 hg
    obtain ⟨hinv2, hdet⟩ := BufferPoolManager.removePhase_inv c b b1 f isFromFreeList hinv hg
    split at h
    · cases h
    · rename_i b2 u hr
      have hd := hdet b2 u hr
      obtain ⟨hpin, hnext⟩ := BufferPoolManager.removePhase_pin c b b1 b2 f isFromFreeList u hg hr
      split at h
      · cases h
      · rename_i d pageID halloc
        simp only at h
        rw [if_pos hd.1] at h
        simp only [Res.ok.injEq] at h
        have hid : pageID = b.diskManager.nextPageID := by
          rw [← hnext]
          exact VirtualDiskManagerImpl.allocatePage_ret c _ _ _ halloc
        have := BufferPoolManager.pinCountOf_install b2 b' f
          (Page.NewEmpty c pageID) hd (by rw [← h.1]; rfl) (by rw [← h.1]) pid
        rw [this] at hn
        by_cases hpid : pid = pageID
        · rw [hpid, hid, hfresh]
          simp only [Page.NewEmpty, Page.New, hpid, if_true, Option.some.injEq] at hn
          exact hn.symm
        · simp only [Page.NewEmpty, Page.New, hpid, if_false] at hn
          rw [hpin pid n' hn]

theorem BufferPoolManager.UnpinPage_pin (c : Common) (b b' : BufferPoolManager) (p : Int)
    (isDirty : Bool) (r : Bool) (hinv : b.Inv) (h : b.UnpinPage c p isDirty = .ok b' r)
    (pid : Int) :
    b'.pinCountOf pid = (b.pinCountOf pid).map (fun n => if pid = p then n - 1 else n) := by
  unfold BufferPoolManager.UnpinPage at h
  split at h
  · rename_i f hget
    split at h
    · cases h
    · cases h
    · rename_i pg hpg
      simp only [Res.ok.injEq] at h
      have hlt : f < b.pages.length := by
        rcases Nat.lt_or_ge f b.pages.length with h | h
        · exact h
        · rw [List.getElem?_eq_none h] at hpg; cases hpg
      have := BufferPoolManager.pinCountOf_setSame b b' p f _ hinv hget hlt
        (by rw [← h.1]) (by rw [← h.1]) pid
      rw [this]
      by_cases hpid : pid = p
      · subst hpid
        simp only [if_true, BufferPoolManager.pinCountOf, hget, hpg, Option.map_some']
        split <;> rfl
      · simp only [hpid, if_false]
        cases b.pinCountOf pid <;> rfl
  · split at h
    · cases h
    · simp only [Res.ok.injEq] at h
      rw [← h.1]
      rename_i hmiss _
      by_cases hpid : pid = p
      · subst hpid
        simp [BufferPoolManager.pinCountOf, hmiss]
      · simp only [hpid, if_false]
        cases b.pinCountOf pid <;> rfl

theorem BufferPoolManager.FlushPage_pin (c : Common) (b b' : BufferPoolManager) (p : Int)
    (r : Bool) (hinv : b.Inv) (h : b.FlushPage c p = .ok b' r) (pid : Int) :
    b'.pinCountOf pid = (b.pinCountOf pid).map (fun n => if pid = p then n - 1 else n) := by
  unfold BufferPoolManager.FlushPage at h
  split at h
  · rename_i f hget
    split at h
    · cases h
    · cases h
    · rename_i pg hpg
      simp only at h
      split at h
      · cases h
      · simp only [Res.ok.injEq] at h
        have hlt : f < b.pages.length := by
          rcases Nat.lt_or_ge f b.pages.length with h | h
          · exact h
          · rw [List.getElem?_eq_none h] at hpg; cases hpg
        have := BufferPoolManager.pinCountOf_setSame b b' p f _ hinv hget hlt
          (by rw [← h.1]) (by rw [← h.1]) pid
        rw [this]
        by_cases hpid : pid = p
        · subst hpid
          simp only [if_true, BufferPoolManager.pinCountOf, hget, hpg, Option.map_some']
          rfl
        · simp only [hpid, if_false]
          cases b.pinCountOf pid <;> rfl
  · simp only [Res.ok.injEq] at h
    rw [← h.1]
    rename_i hmiss
    by_cases hpid : pid = p
    · subst hpid
      simp [BufferPoolManager.pinCountOf, hmiss]
    · simp only [hpid, if_false]
      cases b.pinCountOf pid <;> rfl

theorem BufferPoolManager.DeletePage_pin (b b' : BufferPoolManager) (p : Int)
    (hinv : b.Inv) (h : b.DeletePage p = .ok b' ()) (pid : Int) (n' : Int)
    (hn : b'.pinCountOf pid = some n') : b.pinCountOf pid = some n' := by
  unfold BufferPoolManager.DeletePage at h
  split at h
  · simp only [Res.ok.injEq, and_true] at h
    rw [h]; exact hn
  · rename_i f hget
    simp only at h
    split at h
    · cases h
    · cases h
    · rename_i page hpage
      split at h
      · split at h
        · cases h
        · simp only [Res.ok.injEq, and_true] at h
          have hpne : pid ≠ p := by
            intro heq
            subst heq
            simp [BufferPoolManager.pinCountOf, ← h, tableGet_tableDelete_self] at hn
          unfold BufferPoolManager.pinCountOf at hn ⊢
          rw [← h] at hn
          simp only [tableGet_tableDelete_ne _ _ _ hpne] at hn
          cases hg : tableGet b.pageTable pid with
          | none => rw [hg] at hn; cases hn
          | some g =>
            rw [hg] at hn
            have hgf : g ≠ f := by
              intro heq
              subst heq
              exact hpne (hinv.frame_inj pid p g hg hget)
            simp only [List.getElem?_set_ne (Ne.symm hgf)] at hn
            exact hn
      · simp only [Res.ok.injEq, and_true] at h
        exact BufferPoolManager.pinCountOf_delete b b' p (by rw [← h]) (by rw [← h]) pid n' hn

end SamehadaDB

namespace SamehadaDB

theorem BufferPoolManager.flushEach_pin (c : Common) (ids : List Int) :
    ∀ (b b' : BufferPoolManager) (u : Unit), b.Inv → b.flushEach c ids = .ok b' u →
      ∀ pid, b'.pinCountOf pid = (b.pinCountOf pid).map (fun n => n - (ids.count pid : Int)) := by
  induction ids with
  | nil =>
    intro b b' u _ h pid
    simp only [BufferPoolManager.flushEach, Res.ok.injEq] at h
    rw [← h.1]
    cases b.pinCountOf pid <;> simp
  | cons p rest ih =>
    intro b b' u hinv h pid
    unfold BufferPoolManager.flushEach at h
    cases hr : b.FlushPage c p with
    | panic b1 flt => rw [hr] at h; cases h
    | ok b1 r =>
      rw [hr] at h
      simp only at h
      have hinv1 : b1.Inv := by
        have := BufferPoolManager.FlushPage_inv c b p hinv
        rw [hr] at this
        exact this
      rw [ih b1 b' u hinv1 h pid, BufferPoolManager.FlushPage_pin c b b1 p r hinv hr pid]
      cases b.pinCountOf pid with
      | none => rfl
      | some n =>
        simp only [Option.map_some', Option.some.injEq, List.count_cons, beq_iff_eq]
        by_cases hpid : pid = p
        · subst hpid
          simp only [if_true]
          push_cast
          ring
        · have hpid2 : ¬ (p = pid) := fun h => hpid h.symm
          simp only [hpid, hpid2, if_false]
          push_cast
          ring

/-- The pin count after a returning call, for every call on a pool that satisfies the
invariant; for `NewPage` the id about to be allocated must not be resident. -/
theorem BufferPoolManager.step_pin (c : Common) (b b' : BufferPoolManager) (op : Op)
    (hinv : b.Inv) (hfresh : op = Op.newPage → b.pinCountOf b.diskManager.nextPageID = none)
    (h : b.step c op = .ok b' ()) (pid : Int) (n' : Int)
    (hn : b'.pinCountOf pid = some n') : n' = b.expectedPin op pid := by
  unfold BufferPoolManager.expectedPin
  cases op with
  | fetchPage p =>
    simp only [BufferPoolManager.step] at h
    cases hr : b.FetchPage c p with
    | panic b1 flt => rw [hr] at h; cases h
    | ok b1 r =>
      rw [hr] at h
      simp only [Res.ok.injEq, and_true] at h
      subst h
      rw [BufferPoolManager.FetchPage_pin c b b1 p r hinv hr pid n' hn]
      cases b.pinCountOf pid with
      | none => rfl
      | some n =>
        simp only [BufferPoolManager.decrements, List.count_nil, Op.fetchPage.injEq]
        push_cast
        ring
  | newPage =>
    simp only [BufferPoolManager.step] at h
    cases hr : b.NewPage c with
    | panic b1 flt => rw [hr] at h; cases h
    | ok b1 r =>
      rw [hr] at h
      simp only [Res.ok.injEq, and_true] at h
      subst h
      rw [BufferPoolManager.NewPage_pin c b b1 r hinv (hfresh rfl) hr pid n' hn]
      cases b.pinCountOf pid with
      | none => rfl
      | some n => simp [BufferPoolManager.decrements]
  | unpinPage p isDirty =>
    simp only [BufferPoolManager.step] at h
    cases hr : b.UnpinPage c p isDirty with
    | panic b1 flt => rw [hr] at h; cases h
    | ok b1 r =>
      rw [hr] at h
      simp only [Res.ok.injEq, and_true] at h
      subst h
      rw [BufferPoolManager.UnpinPage_pin c b b1 p isDirty r hinv hr pid] at hn
      cases hb : b.pinCountOf pid with
      | none => rw [hb] at hn; cases hn
      | some n =>
        rw [hb] at hn
        simp only [Option.map_some', Option.some.injEq] at hn
        simp only [BufferPoolManager.decrements, List.count_cons, List.count_nil, beq_iff_eq,
          reduceCtorEq, if_false]
        rw [← hn]
        by_cases hpid : pid = p
        · subst hpid; simp
        · have hpid2 : ¬ (p = pid) := fun h => hpid h.symm
          simp [hpid, hpid2]
  | flushPage p =>
    simp only [BufferPoolManager.step] at h
    cases hr : b.FlushPage c p with
    | panic b1 flt => rw [hr] at h; cases h
    | ok b1 r =>
      rw [hr] at h
      simp only [Res.ok.injEq, and_true] at h
      subst h
      rw [BufferPoolManager.FlushPage_pin c b b1 p r hinv hr pid] at hn
      cases hb : b.pinCountOf pid with
      | none => rw [hb] at hn; cases hn
      | some n =>
        rw [hb] at hn
        simp only [Option.map_some', Option.some.injEq] at hn
        simp only [BufferPoolManager.decrements, List.count_cons, List.count_nil, beq_iff_eq,
          reduceCtorEq, if_false]
        rw [← hn]
        by_cases hpid : pid = p
        · subst hpid; simp
        · have hpid2 : ¬ (p = pid) := fun h => hpid h.symm
          simp [hpid, hpid2]
  | deletePage p =>
    simp only [BufferPoolManager.step] at h
    rw [BufferPoolManager.DeletePage_pin b b' p hinv h pid n' hn]
    simp [BufferPoolManager.decrements]
  | flushAllPages =>
    simp only [BufferPoolManager.step, BufferPoolManager.FlushAllPages] at h
    rw [BufferPoolManager.flushEach_pin c _ b b' () hinv h pid] at hn
    cases hb : b.pinCountOf pid with
    | none => rw [hb] at hn; cases hn
    | some n =>
      rw [hb] at hn
      simp only [Option.map_some', Option.some.injEq] at hn
      simp only [BufferPoolManager.decrements, reduceCtorEq, if_false]
      rw [← hn]
      ring
  | flushAllDirtyPages =>
    simp only [BufferPoolManager.step, BufferPoolManager.FlushAllDirtyPages] at h
    cases hd : b.dirtyPageIDs b.pageTable with
    | none => rw [hd] at h; cases h
    | some ids =>
      rw [hd] at h
      simp only at h
      rw [BufferPoolManager.flushEach_pin c _ b b' () hinv h pid] at hn
      cases hb : b.pinCountOf pid with
      | none => rw [hb] at hn; cases hn
      | some n =>
        rw [hb] at hn
        simp only [Option.map_some', Option.some.injEq] at hn
        simp only [BufferPoolManager.decrements, hd, Option.getD_some, reduceCtorEq, if_false]
        rw [← hn]
        ring

end SamehadaDB

namespace SamehadaDB

/-! ## Pin counts are not negative -/

theorem nonNeg_set (P : List (Option Page)) (f : Nat) (pg : Page)
    (h : ∀ (g : Nat) (q : Page), P[g]? = some (some q) → 0 ≤ q.pinCount)
    (hpg : 0 ≤ pg.pinCount) :
    ∀ (g : Nat) (q : Page), (P.set f (some pg))[g]? = some (some q) → 0 ≤ q.pinCount := by
  intro g q hq
  by_cases hgf : g = f
  · subst hgf
    rcases Nat.lt_or_ge g P.length with hlt | hge
    · rw [List.getElem?_set_self hlt] at hq
      simp only [Option.some.injEq] at hq
      rw [← hq]; exact hpg
    · rw [List.getElem?_eq_none (by simpa using hge)] at hq
      cases hq
  · rw [List.getElem?_set_ne (Ne.symm hgf)] at hq
    exact h g q hq

theorem nonNeg_set_none (P : List (Option Page)) (f : Nat)
    (h : ∀ (g : Nat) (q : Page), P[g]? = some (some q) → 0 ≤ q.pinCount) :
    ∀ (g : Nat) (q : Page), (P.set f none)[g]? = some (some q) → 0 ≤ q.pinCount := by
  intro g q hq
  by_cases hgf : g = f
  · subst hgf
    rcases Nat.lt_or_ge g P.length with hlt | hge
    · rw [List.getElem?_set_self hlt] at hq
      cases hq
    · rw [List.getElem?_eq_none (by simpa using hge)] at hq
      cases hq
  · rw [List.getElem?_set_ne (Ne.symm hgf)] at hq
    exact h g q hq

theorem BufferPoolManager.removeCurrent_pages (c : Common) (b : BufferPoolManager) (f : Nat) :
    (b.removeCurrent c f).state.pages = b.pages := by
  unfold BufferPoolManager.removeCurrent
  split
  · rfl
  · rfl
  · split
    · split <;> rfl
    · rfl

theorem BufferPoolManager.removePhase_pages (c : Common) (b b1 : BufferPoolManager)
    (fr : Option Nat) (f : Nat) (isFromFreeList : Bool)
    (hg : b.getFrameID = (fr, isFromFreeList, b1)) :
    (if isFromFreeList then Res.ok b1 () else b1.removeCurrent c f).state.pages = b.pages := by
  have hP := (BufferPoolManager.getFrameID_pages b b1 _ _ hg).1
  cases isFromFreeList with
  | true => exact hP
  | false =>
    simp only [Bool.false_eq_true, if_false]
    rw [BufferPoolManager.removeCurrent_pages, hP]

theorem BufferPoolManager.FetchPage_nonNeg (c : Common) (b : BufferPoolManager) (p : Int)
    (h : b.NonNeg) : (b.FetchPage c p).state.NonNeg := by
  unfold BufferPoolManager.FetchPage
  split
  · split
    · exact h
    · exact h
    · rename_i pg hpg
      have := h _ pg hpg
      exact nonNeg_set b.pages _ pg.IncPinCount h (by simp only [Page.IncPinCount]; omega)
  · split
    · rename_i x b1 hg
      intro g q hq
      simp only [Res.state] at hq
      rw [(BufferPoolManager.getFrameID_pages b b1 _ _ hg).1] at hq
      exact h g q hq
    · rename_i f isFromFreeList b1 hg
      have hP := BufferPoolManager.removePhase_pages c b b1 _ f isFromFreeList hg
      split
      · rename_i b2 flt hr
        rw [hr] at hP
        intro g q hq
        simp only [Res.state] at hq hP
        rw [hP] at hq
        exact h g q hq
      · rename_i b2 u hr
        rw [hr] at hP
        simp only [Res.state] at hP
        have h2 : ∀ (g : Nat) (q : Page), b2.pages[g]? = some (some q) → 0 ≤ q.pinCount := by
          rw [hP]; exact h
        split
        · exact h2
        · exact h2
        · simp only
          split
          · exact nonNeg_set b2.pages f _ h2 (by simp [Page.New])
          · exact h2

theorem BufferPoolManager.NewPage_nonNeg (c : Common) (b : BufferPoolManager)
    (h : b.NonNeg) : (b.NewPage c).state.NonNeg := by
  unfold BufferPoolManager.NewPage
  split
  · rename_i x b1 hg
    intro g q hq
    simp only [Res.state] at hq
    rw [(BufferPoolManager.getFrameID_pages b b1 _ _ hg).1] at hq
    exact h g q hq
  · rename_i f isFromFreeList b1 hg
    have hP := BufferPoolManager.removePhase_pages c b b1 _ f isFromFreeList hg
    split
    · rename_i b2 flt hr
      rw [hr] at hP
      intro g q hq
      simp only [Res.state] at hq hP
      rw [hP] at hq
      exact h g q hq
    · rename_i b2 u hr
      rw [hr] at hP
      simp only [Res.state] at hP
      have h2 : ∀ (g : Nat) (q : Page), b2.pages[g]? = some (some q) → 0 ≤ q.pinCount := by
        rw [hP]; exact h
      split
      · exact h2
      · simp only
        split
        · exact nonNeg_set b2.pages f _ h2 (by simp [Page.NewEmpty, Page.New])
        · exact h2

theorem BufferPoolManager.DeletePage_nonNeg (b : BufferPoolManager) (p : Int)
    (h : b.NonNeg) : (b.DeletePage p).state.NonNeg := by
  unfold BufferPoolManager.DeletePage
  split
  · exact h
  · simp only
    split
    · exact h
    · exact h
    · split
      · split
        · exact h
        · exact nonNeg_set_none b.pages _ h
      · exact h

theorem BufferPoolManager.UnpinPage_nonNeg (c : Common) (b : BufferPoolManager) (p : Int)
    (isDirty : Bool) (h : b.NonNeg) (hguard : ∀ n, b.pinCountOf p = some n → 0 < n) :
    (b.UnpinPage c p isDirty).state.NonNeg := by
  unfold BufferPoolManager.UnpinPage
  split
  · rename_i f hget
    split
    · exact h
    · exact h
    · rename_i pg hpg
      have hpos := hguard pg.pinCount (by simp [BufferPoolManager.pinCountOf, hget, hpg])
      refine nonNeg_set b.pages f _ h ?_
      split <;> simp only [Page.SetIsDirty, Page.DecPinCount] <;> omega
  · split <;> exact h

theorem BufferPoolManager.FlushPage_nonNeg (c : Common) (b : BufferPoolManager) (p : Int)
    (h : b.NonNeg) (hguard : ∀ n, b.pinCountOf p = some n → 0 < n) :
    (b.FlushPage c p).state.NonNeg := by
  unfold BufferPoolManager.FlushPage
  split
  · rename_i f hget
    split
    · exact h
    · exact h
    · rename_i pg hpg
      have hpos := hguard pg.pinCount (by simp [BufferPoolManager.pinCountOf, hget, hpg])
      have := nonNeg_set b.pages f ((pg.DecPinCount).SetIsDirty false) h
        (by simp only [Page.SetIsDirty, Page.DecPinCount]; omega)
      simp only
      split <;> exact this
  · exact h

theorem BufferPoolManager.flushEach_nonNeg (c : Common) (ids : List Int) :
    ∀ b : BufferPoolManager, b.Inv → b.NonNeg → ids.Nodup →
      (∀ id ∈ ids, ∀ n, b.pinCountOf id = some n → 0 < n) →
      (b.flushEach c ids).state.NonNeg := by
  induction ids with
  | nil => intro b _ h _ _; exact h
  | cons p rest ih =>
    intro b hinv h hnd hguard
    have h1 := BufferPoolManager.FlushPage_nonNeg c b p h (hguard p (List.mem_cons_self _ _))
    have hinv1 := BufferPoolManager.FlushPage_inv c b p hinv
    unfold BufferPoolManager.flushEach
    cases hr : b.FlushPage c p with
    | panic b1 flt => rw [hr] at h1; exact h1
    | ok b1 r =>
      rw [hr] at h1 hinv1
      have hnd2 := List.nodup_cons.mp hnd
      refine ih b1 hinv1 h1 hnd2.2 ?_
      intro id hid n hn
      have hne : id ≠ p := by
        intro heq; rw [heq] at hid; exact hnd2.1 hid
      rw [BufferPoolManager.FlushPage_pin c b b1 p r hinv hr id] at hn
      cases hb : b.pinCountOf id with
      | none => rw [hb] at hn; cases hn
      | some m =>
        rw [hb] at hn
        simp only [Option.map_some', hne, if_false, Option.some.injEq] at hn
        rw [← hn]
        exact hguard id (List.mem_cons_of_mem _ hid) m hb

theorem BufferPoolManager.dirtyPageIDs_sublist (b : BufferPoolManager) (T : List (Int × Nat)) :
    ∀ ids, b.dirtyPageIDs T = some ids → ids.Sublist (T.map (fun e => e.1)) := by
  induction T with
  | nil =>
    intro ids h
    simp only [BufferPoolManager.dirtyPageIDs, Option.some.injEq] at h
    rw [← h]
    exact List.Sublist.refl _
  | cons e T ih =>
    obtain ⟨k, f⟩ := e
    intro ids h
    unfold BufferPoolManager.dirtyPageIDs at h
    split at h
    · split at h
      · cases h
      · rename_i ids1 hrest
        simp only [Option.some.injEq] at h
        rw [← h]
        split
        · exact (ih ids1 hrest).cons₂ k
        · exact (ih ids1 hrest).cons k
    · cases h

theorem BufferPoolManager.guard_spec (b : BufferPoolManager) (op : Op)
    (h : b.guard op = true) :
    ∀ id ∈ b.decrements op, ∀ n, b.pinCountOf id = some n → 0 < n := by
  intro id hid n hn
  unfold BufferPoolManager.guard at h
  rw [List.all_eq_true] at h
  have := h id hid
  rw [hn] at this
  simpa using this

theorem BufferPoolManager.step_nonNeg (c : Common) (b : BufferPoolManager) (op : Op)
    (hinv : b.Inv) (h : b.NonNeg) (hguard : b.guard op = true) :
    (b.step c op).state.NonNeg := by
  have hg := BufferPoolManager.guard_spec b op hguard
  have hkeys : (b.pageTable.map (fun e => e.1)).Nodup := hinv.keys
  cases op with
  | fetchPage pid =>
    have := BufferPoolManager.FetchPage_nonNeg c b pid h
    simp only [BufferPoolManager.step]
    cases hr : b.FetchPage c pid <;> rw [hr] at this <;> exact this
  | newPage =>
    have := BufferPoolManager.NewPage_nonNeg c b h
    simp only [BufferPoolManager.step]
    cases hr : b.NewPage c <;> rw [hr] at this <;> exact this
  | unpinPage pid isDirty =>
    have := BufferPoolManager.UnpinPage_nonNeg c b pid isDirty h
      (hg pid (by simp [BufferPoolManager.decrements]))
    simp only [BufferPoolManager.step]
    cases hr : b.UnpinPage c pid isDirty <;> rw [hr] at this <;> exact this
  | flushPage pid =>
    have := BufferPoolManager.FlushPage_nonNeg c b pid h
      (hg pid (by simp [BufferPoolManager.decrements]))
    simp only [BufferPoolManager.step]
    cases hr : b.FlushPage c pid <;> rw [hr] at this <;> exact this
  | deletePage pid => exact BufferPoolManager.DeletePage_nonNeg b pid h
  | flushAllPages =>
    exact BufferPoolManager.flushEach_nonNeg c _ b hinv h hkeys hg
  | flushAllDirtyPages =>
    simp only [BufferPoolManager.step, BufferPoolManager.FlushAllDirtyPages]
    cases hd : b.dirtyPageIDs b.pageTable with
    | none => exact h
    | some ids =>
      simp only [BufferPoolManager.decrements, hd, Option.getD_some] at hg
      exact BufferPoolManager.flushEach_nonNeg c ids b hinv h
        (List.Nodup.sublist (BufferPoolManager.dirtyPageIDs_sublist b _ ids hd) hkeys) hg

theorem BufferPoolManager.run_nonNeg (c : Common) (ops : List Op) :
    ∀ b : BufferPoolManager, b.Inv → b.NonNeg → b.balanced c ops = true →
      (b.run c ops).state.NonNeg := by
  induction ops with
  | nil => intro b _ h _; exact h
  | cons op rest ih =>
    intro b hinv h hbal
    unfold BufferPoolManager.balanced at hbal
    rw [Bool.and_eq_true] at hbal
    have h1 := BufferPoolManager.step_nonNeg c b op hinv h hbal.1
    have hinv1 := BufferPoolManager.step_inv c b op hinv
    unfold BufferPoolManager.run
    cases hr : b.step c op with
    | panic b1 flt => rw [hr] at h1; exact h1
    | ok b1 r =>
      rw [hr] at h1 hinv1
      have hb2 := hbal.2
      rw [hr] at hb2
      exact ih b1 hinv1 h1 hb2

theorem NewBufferPoolManager_nonNeg (poolSize : Nat) (d : VirtualDiskManagerImpl) :
    (NewBufferPoolManager poolSize d).NonNeg := by
  intro f pg h
  simp only [NewBufferPoolManager] at h
  rcases Nat.lt_or_ge f poolSize with hlt | hge
  · simp [hlt] at h
  · rw [List.getElem?_eq_none (by simpa using hge)] at h
    cases h

end SamehadaDB

namespace SamehadaDB

/-- C4 as stated fails: `FlushPage` changes a pin count. In a pool of two frames, after
`NewPage` page 0 has pin count 1; `FlushPage(0)` returns true and leaves it with pin
count 0. -/
theorem flushPage_changes_pin_count :
    ((NewBufferPoolManager 2 (NewVirtualDiskManagerImpl tinyCommon [])).run tinyCommon
        [.newPage]).state.pinCountOf 0 = some 1 ∧
    (((NewBufferPoolManager 2 (NewVirtualDiskManagerImpl tinyCommon [])).run tinyCommon
        [.newPage]).state.FlushPage tinyCommon 0).value = some true ∧
    (((NewBufferPoolManager 2 (NewVirtualDiskManagerImpl tinyCommon [])).run tinyCommon
        [.newPage]).state.FlushPage tinyCommon 0).state.pinCountOf 0 = some 0 := by
  decide

end SamehadaDB

namespace SamehadaDB

/-! ## Tuple layer -/

theorem copyAt_some (dst : List UInt8) (o : Nat) (src : List UInt8) (h : o ≤ dst.length) :
    copyAt dst o src
      = some (dst.take o ++ src.take (dst.length - o) ++ dst.drop (o + src.length)) := by
  simp [copyAt, Nat.not_lt.mpr h]

theorem copyAt_length (dst : List UInt8) (o : Nat) (src d1 : List UInt8)
    (h : copyAt dst o src = some d1) : d1.length = dst.length := by
  unfold copyAt at h
  split at h
  · cases h
  · simp only [Option.some.injEq] at h
    rw [← h]
    simp only [List.length_append, List.length_take, List.length_drop]
    omega

theorem copyAt_getElem? (dst : List UInt8) (o : Nat) (src d1 : List UInt8)
    (h : copyAt dst o src = some d1) (j : Nat) :
    d1[j]? = if o ≤ j ∧ j < o + src.length ∧ j < dst.length then src[j - o]? else dst[j]? := by
  unfold copyAt at h
  split at h
  · cases h
  · rename_i hle
    simp only [Option.some.injEq] at h
    rw [← h]
    have hlen1 : (dst.take o).length = o := by
      simp only [List.length_take]; omega
    by_cases h1 : j < o
    · have hc : ¬ (o ≤ j ∧ j < o + src.length ∧ j < dst.length) := by omega
      rw [if_neg hc, List.append_assoc, List.getElem?_append_left (by omega),
        List.getElem?_take_of_lt h1]
    · by_cases h2 : j < o + src.length ∧ j < dst.length
      · have hc : o ≤ j ∧ j < o + src.length ∧ j < dst.length := ⟨by omega, h2.1, h2.2⟩
        rw [if_pos hc, List.append_assoc, List.getElem?_append_right (by omega), hlen1,
          List.getElem?_append_left (by simp only [List.length_take]; omega),
          List.getElem?_take_of_lt (by omega)]
      · have hc : ¬ (o ≤ j ∧ j < o + src.length ∧ j < dst.length) := fun hh => h2 hh.2
        rw [if_neg hc, List.getElem?_append_right
          (by simp only [List.length_append, List.length_take]; omega)]
        simp only [List.length_append, List.length_take, List.getElem?_drop]
        by_cases h3 : j < dst.length
        · congr 1
          omega
        · rw [List.getElem?_eq_none (by omega), List.getElem?_eq_none (by omega)]

theorem slice_getElem? (data : List UInt8) (a k j : Nat) :
    (slice data a k)[j]? = if j < k then data[a + j]? else none := by
  unfold slice
  rw [List.getElem?_take]
  split
  · rw [List.getElem?_drop]
  · rfl

theorem copyAt_slice_disjoint (dst : List UInt8) (o : Nat) (src d1 : List UInt8)
    (h : copyAt dst o src = some d1) (a k : Nat)
    (hd : a + k ≤ o ∨ o + src.length ≤ a) : slice d1 a k = slice dst a k := by
  apply List.ext_getElem?
  intro j
  rw [slice_getElem?, slice_getElem?]
  split
  · rw [copyAt_getElem? dst o src d1 h]
    have hc : ¬ (o ≤ a + j ∧ a + j < o + src.length ∧ a + j < dst.length) := by omega
    rw [if_neg hc]
  · rfl

theorem copyAt_slice_self (dst : List UInt8) (o : Nat) (src d1 : List UInt8)
    (h : copyAt dst o src = some d1) (hfit : o + src.length ≤ dst.length) :
    slice d1 o src.length = src := by
  apply List.ext_getElem?
  intro j
  rw [slice_getElem?]
  split
  · rename_i hj
    rw [copyAt_getElem? dst o src d1 h]
    have hc : o ≤ o + j ∧ o + j < o + src.length ∧ o + j < dst.length := by omega
    rw [if_pos hc]
    congr 1
    omega
  · rw [List.getElem?_eq_none (by omega)]

theorem le32_length (n : Nat) : (le32 n).length = 4 := rfl

theorem UInt8.toNat_ofNat_mod (n : Nat) : (UInt8.ofNat (n % 256)).toNat = n % 256 := by
  show (n % 256) % 256 = n % 256
  omega

theorem NewUInt32FromBytes_le32 (n : Nat) (rest : List UInt8) (h : n < 4294967296) :
    NewUInt32FromBytes (le32 n ++ rest) = some n := by
  simp only [le32, List.cons_append, List.nil_append, NewUInt32FromBytes, Option.some.injEq,
    UInt8.toNat_ofNat_mod]
  omega

theorem wrap32_toNat (v : Int) (h1 : -2147483648 ≤ v) (h2 : v < 2147483648) :
    wrap32 ((v % 4294967296).toNat : Int) = v := by
  have h3 : 0 ≤ v % 4294967296 := Int.emod_nonneg v (by norm_num)
  rw [Int.toNat_of_nonneg h3]
  unfold wrap32
  omega

/-- Decoding the serialized bytes of a valid value of a fixed type gives the value back,
whatever follows the bytes. -/
theorem NewValueFromBytes_serialize (v : Value) (rest : List UInt8) (hv : v.Valid)
    (hfixed : v.ValueType ≠ TypeID.Varchar) :
    NewValueFromBytes (v.Serialize ++ rest) v.ValueType = some v := by
  cases v with
  | Integer n =>
    simp only [Value.Valid] at hv
    have hlt : (n % 4294967296).toNat < 4294967296 := by
      have h3 : 0 ≤ n % 4294967296 := Int.emod_nonneg n (by norm_num)
      have h4 : n % 4294967296 < 4294967296 := Int.emod_lt_of_pos n (by norm_num)
      omega
    simp only [Value.Serialize, Value.ValueType, NewValueFromBytes,
      NewUInt32FromBytes_le32 _ rest hlt, Option.map_some', wrap32_toNat n hv.1 hv.2]
  | Float bits =>
    simp only [Value.Valid] at hv
    simp only [Value.Serialize, Value.ValueType, NewValueFromBytes,
      NewUInt32FromBytes_le32 _ rest hv, Option.map_some']
  | Boolean b =>
    cases b <;> simp [Value.Serialize, Value.ValueType, NewValueFromBytes]
  | Varchar s => exact absurd rfl hfixed

/-- The serialized length of a valid value of a fixed type is the slot length of the type. -/
theorem Value.serialize_length (v : Value) (hfixed : v.ValueType ≠ TypeID.Varchar) :
    v.Serialize.length = v.ValueType.slotLength := by
  cases v with
  | Integer n => rfl
  | Float bits => rfl
  | Boolean b => rfl
  | Varchar s => exact absurd rfl hfixed

end SamehadaDB

namespace SamehadaDB

theorem serializeColumns_eq_pairs (values : List Value) (cols : List Column) :
    ∀ (i : Nat) (vs : List Value) (e : Nat) (d : List UInt8), values.drop i = vs →
      cols.length ≤ vs.length →
      serializeColumns values cols i e d = serializePairs (cols.zip vs) e d := by
  induction cols with
  | nil => intro i vs e d _ _; rfl
  | cons col rest ih =>
    intro i vs e d hdrop hlen
    cases vs with
    | nil => simp at hlen
    | cons v vs1 =>
      have hi : values[i]? = some v := by
        have := List.getElem?_drop values i 0
        rw [hdrop] at this
        simpa using this.symm
      have hdrop1 : values.drop (i + 1) = vs1 := by
        have : values.drop (i + 1) = (values.drop i).drop 1 := by
          rw [List.drop_drop]
        rw [this, hdrop]
        rfl
      have hlen1 : rest.length ≤ vs1.length := by simpa using hlen
      simp only [serializeColumns, hi, List.zip_cons_cons, serializePairs]
      split
      · split
        · rfl
        · exact ih _ _ _ _ hdrop1 hlen1
      · split
        · rfl
        · split
          · rfl
          · exact ih _ _ _ _ hdrop1 hlen1

theorem payloadSize_cons (col : Column) (v : Value) (rest : List (Column × Value)) :
    payloadSize ((col, v) :: rest) = (if col.isInlined then 0 else v.Size) + payloadSize rest :=
  rfl

theorem addSizes_unlinedFrom (values : List Value) (cols : List Column) :
    ∀ (i : Nat) (vs : List Value) (acc : Nat), values.drop i = vs → cols.length ≤ vs.length →
      acc + payloadSize (cols.zip vs) < 4294967296 →
      addSizes values (unlinedFrom cols i) acc = some (acc + payloadSize (cols.zip vs)) := by
  induction cols with
  | nil => intro i vs acc _ _ _; simp [unlinedFrom, addSizes, payloadSize]
  | cons col rest ih =>
    intro i vs acc hdrop hlen hsum
    cases vs with
    | nil => simp at hlen
    | cons v vs1 =>
      have hi : values[i]? = some v := by
        have := List.getElem?_drop values i 0
        rw [hdrop] at this
        simpa using this.symm
      have hdrop1 : values.drop (i + 1) = vs1 := by
        have : values.drop (i + 1) = (values.drop i).drop 1 := by
          rw [List.drop_drop]
        rw [this, hdrop]
        rfl
      have hlen1 : rest.length ≤ vs1.length := by simpa using hlen
      rw [List.zip_cons_cons, payloadSize_cons] at hsum ⊢
      unfold unlinedFrom
      cases hin : col.isInlined with
      | true =>
        rw [hin] at hsum
        simp only [if_true, Nat.zero_add] at hsum ⊢
        exact ih _ _ _ hdrop1 hlen1 hsum
      | false =>
        rw [hin] at hsum
        simp only [Bool.false_eq_true, if_false] at hsum ⊢
        simp only [addSizes, hi]
        rw [Nat.mod_eq_of_lt (by omega), ih _ _ _ hdrop1 hlen1 (by omega)]
        congr 1
        omega

/-- The loop returns, keeps the length of the buffer, and leaves alone every stretch of the
fixed part that meets no slot of the columns it handles. -/
theorem serializePairs_ok (L : Nat) (ps : List (Column × Value)) :
    ∀ (e : Nat) (d : List UInt8), PairsOK L ps → L ≤ e → e + payloadSize ps ≤ d.length →
      d.length < 4294967296 →
      ∃ d1, serializePairs ps e d = some d1 ∧ d1.length = d.length ∧
        ∀ a k, a + k ≤ L →
          (∀ p ∈ ps, p.1.offset + p.1.fixedLength ≤ a ∨ a + k ≤ p.1.offset) →
          slice d1 a k = slice d a k := by
  induction ps with
  | nil =>
    intro e d _ _ _ _
    exact ⟨d, rfl, rfl, fun _ _ _ _ => rfl⟩
  | cons p rest ih =>
    obtain ⟨col, v⟩ := p
    intro e d hok hL hfit hsmall
    have hhead := hok (col, v) (List.mem_cons_self _ _)
    have hrest : PairsOK L rest := fun q hq => hok q (List.mem_cons_of_mem _ hq)
    rw [payloadSize_cons] at hfit
    simp only at hhead
    by_cases hin : col.isInlined = true
    · simp only [hin, if_true] at hhead hfit
      have hc := copyAt_some d col.offset v.Serialize (by omega)
      obtain ⟨d2, h2, hl2, hp2⟩ := ih e _ hrest hL
        (by rw [copyAt_length _ _ _ _ hc]; omega) (by rw [copyAt_length _ _ _ _ hc]; exact hsmall)
      refine ⟨d2, ?_, ?_, ?_⟩
      · simp only [serializePairs, hin, if_true, hc]
        exact h2
      · rw [hl2, copyAt_length _ _ _ _ hc]
      · intro a k hak hdis
        rw [hp2 a k hak (fun q hq => hdis q (List.mem_cons_of_mem _ hq))]
        have := hdis (col, v) (List.mem_cons_self _ _)
        simp only at this
        exact copyAt_slice_disjoint _ _ _ _ hc a k (by omega)
    · simp only [hin, Bool.false_eq_true, if_false] at hhead hfit
      have hc := copyAt_some d col.offset (le32 e) (by omega)
      have hl1 := copyAt_length _ _ _ _ hc
      have hc2 := copyAt_some (d.take col.offset ++ (le32 e).take (d.length - col.offset)
        ++ d.drop (col.offset + (le32 e).length)) e v.Serialize (by rw [hl1]; omega)
      have hl2 := copyAt_length _ _ _ _ hc2
      obtain ⟨d3, h3, hl3, hp3⟩ := ih ((e + v.Size) % 4294967296) _ hrest
        (by rw [Nat.mod_eq_of_lt (by omega)]; omega)
        (by rw [Nat.mod_eq_of_lt (by omega), hl2, hl1]; omega)
        (by rw [hl2, hl1]; exact hsmall)
      refine ⟨d3, ?_, ?_, ?_⟩
      · simp only [serializePairs, hin, Bool.false_eq_true, if_false, hc, hc2]
        exact h3
      · rw [hl3, hl2, hl1]
      · intro a k hak hdis
        rw [hp3 a k hak (fun q hq => hdis q (List.mem_cons_of_mem _ hq))]
        have := hdis (col, v) (List.mem_cons_self _ _)
        simp only at this
        rw [copyAt_slice_disjoint _ _ _ _ hc2 a k (by omega)]
        exact copyAt_slice_disjoint _ _ _ _ hc a k (by rw [le32_length]; omega)

/-- After the loop the fixed slot of every inlined column holds the serialized value. -/
theorem serializePairs_inlined_slot (L : Nat) (ps : List (Column × Value)) :
    ∀ (e : Nat) (d d1 : List UInt8), PairsOK L ps → L ≤ e → e + payloadSize ps ≤ d.length →
      d.length < 4294967296 → ps.Pairwise (fun p q => p.1.Apart q.1) →
      serializePairs ps e d = some d1 →
      ∀ p ∈ ps, p.1.isInlined = true → slice d1 p.1.offset p.1.fixedLength = p.2.Serialize := by
  induction ps with
  | nil =>
    intro e d d1 _ _ _ _ _ _ p hp
    cases hp
  | cons q rest ih =>
    obtain ⟨col, v⟩ := q
    intro e d d1 hok hL hfit hsmall hpw hser p hp hpin
    have hhead := hok (col, v) (List.mem_cons_self _ _)
    have hrest : PairsOK L rest := fun q hq => hok q (List.mem_cons_of_mem _ hq)
    have hpw2 := List.pairwise_cons.mp hpw
    rw [payloadSize_cons] at hfit
    simp only at hhead
    by_cases hin : col.isInlined = true
    · simp only [hin, if_true] at hhead hfit
      have hc := copyAt_some d col.offset v.Serialize (by omega)
      have hl1 := copyAt_length _ _ _ _ hc
      simp only [serializePairs, hin, if_true, hc] at hser
      rcases List.mem_cons.mp hp with hp1 | hp1
      · subst hp1
        obtain ⟨d2, h2, _, hp2⟩ := serializePairs_ok L rest e _ hrest hL
          (by rw [hl1]; omega) (by rw [hl1]; exact hsmall)
        rw [hser] at h2
        simp only [Option.some.injEq] at h2
        subst h2
        rw [hp2 col.offset col.fixedLength hhead.1 (fun q hq => by
          have := hpw2.1 q hq
          simp only [Column.Apart] at this
          omega)]
        rw [← hhead.2]
        exact copyAt_slice_self _ _ _ _ hc (by omega)
      · exact ih e _ d1 hrest hL (by rw [hl1]; omega) (by rw [hl1]; exact hsmall) hpw2.2 hser
          p hp1 hpin
    · simp only [hin, Bool.false_eq_true, if_false] at hhead hfit
      have hc := copyAt_some d col.offset (le32 e) (by omega)
      have hl1 := copyAt_length _ _ _ _ hc
      have hc2 := copyAt_some (d.take col.offset ++ (le32 e).take (d.length - col.offset)
        ++ d.drop (col.offset + (le32 e).length)) e v.Serialize (by rw [hl1]; omega)
      have hl2 := copyAt_length _ _ _ _ hc2
      simp only [serializePairs, hin, Bool.false_eq_true, if_false, hc, hc2] at hser
      rcases List.mem_cons.mp hp with hp1 | hp1
      · subst hp1
        exact absurd hpin hin
      · exact ih _ _ d1 hrest (by rw [Nat.mod_eq_of_lt (by omega)]; omega)
          (by rw [Nat.mod_eq_of_lt (by omega), hl2, hl1]; omega)
          (by rw [hl2, hl1]; exact hsmall) hpw2.2 hser p hp1 hpin

end SamehadaDB

namespace SamehadaDB

theorem pairsOK_of_wf (values : List Value) (s : Schema) (hwf : s.WF) (hm : Matches values s) :
    PairsOK s.length (s.columns.zip values) := by
  intro p hp
  obtain ⟨hcolumns, _, _, _⟩ := hwf
  obtain ⟨hin, hslot, hinside⟩ := hcolumns p.1 (List.of_mem_zip hp).1
  obtain ⟨_, htype⟩ := hm.2 p hp
  refine ⟨hinside, ?_⟩
  by_cases hv : p.1.columnType = TypeID.Varchar
  · simp only [hv, ne_eq, not_true_eq_false, decide_False] at hin
    simp only [hin, Bool.false_eq_true, if_false]
    rw [hslot, hv]
    rfl
  · simp only [ne_eq, hv, not_false_eq_true, decide_True] at hin
    simp only [hin, if_true]
    rw [hslot, ← htype]
    exact Value.serialize_length p.2 (by rw [htype]; exact hv)

theorem pairwise_zip_of_wf (values : List Value) (s : Schema) (hwf : s.WF)
    (hm : Matches values s) :
    (s.columns.zip values).Pairwise (fun p q => p.1.Apart q.1) := by
  have hmap : (s.columns.zip values).map Prod.fst = s.columns :=
    List.map_fst_zip _ _ (Nat.le_of_eq hm.1.symm)
  have := hwf.2.1
  rw [← hmap, List.pairwise_map] at this
  exact this

/-- The tuple `NewTupleFromSchema` builds for values that match a well-formed schema, when
the tuple size fits 32 bits. -/
theorem NewTupleFromSchema_ok (values : List Value) (s : Schema) (hwf : s.WF)
    (hm : Matches values s)
    (hsize : s.length + payloadSize (s.columns.zip values) < 4294967296) :
    ∃ data, NewTupleFromSchema values s
        = some { rid := none, size := s.length + payloadSize (s.columns.zip values),
                 data := data } ∧
      data.length = s.length + payloadSize (s.columns.zip values) ∧
      serializePairs (s.columns.zip values) s.length
        (zeroBytes (s.length + payloadSize (s.columns.zip values))) = some data := by
  have hadd := addSizes_unlinedFrom values s.columns 0 values s.length rfl
    (Nat.le_of_eq hm.1.symm) hsize
  have hzl : (zeroBytes (s.length + payloadSize (s.columns.zip values))).length
      = s.length + payloadSize (s.columns.zip values) := by simp [zeroBytes]
  obtain ⟨d1, h1, hl1, _⟩ := serializePairs_ok s.length (s.columns.zip values) s.length
    (zeroBytes (s.length + payloadSize (s.columns.zip values))) (pairsOK_of_wf values s hwf hm)
    (Nat.le_refl _) (by rw [hzl]) (by rw [hzl]; exact hsize)
  refine ⟨d1, ?_, by rw [hl1, hzl], h1⟩
  unfold NewTupleFromSchema
  rw [hwf.2.2.1, hadd]
  simp only
  rw [serializeColumns_eq_pairs values s.columns 0 values _ _ rfl (Nat.le_of_eq hm.1.symm), h1]

/-- C6, the code at the failing input, which is the claim's own witness. For the schema
`[id:Integer, name:Varchar, score:Float]` (well-formed) and the matching values
`[42, "hello", 3.5]`, `NewTupleFromSchema` reserves `Size()` = 5 bytes for the varchar and
copies its 9 serialized bytes (length prefix and payload) there, which the end of the
buffer cuts to 5: the tuple ends in the prefix `5, 0, 0, 0` and the letter `h`. `GetValue`
of column 1 then finds a length of 5 with one byte to read, gets no value and panics; it
does not return `"hello"`. Columns 0 and 2 decode to `42` and `3.5`. -/
theorem varchar_round_trip_fails :
    exampleSchema.WF ∧ Matches exampleValues exampleSchema ∧
    (NewTupleFromSchema exampleValues exampleSchema).map (fun t => t.data)
        = some [42, 0, 0, 0, 12, 0, 0, 0, 0, 0, 96, 64, 5, 0, 0, 0, 104] ∧
    (NewTupleFromSchema exampleValues exampleSchema).bind (fun t => t.GetValue exampleSchema 1)
        = none ∧
    (NewTupleFromSchema exampleValues exampleSchema).bind (fun t => t.GetValue exampleSchema 1)
        ≠ exampleValues[1]? ∧
    (NewTupleFromSchema exampleValues exampleSchema).bind (fun t => t.GetValue exampleSchema 0)
        = exampleValues[0]? ∧
    (NewTupleFromSchema exampleValues exampleSchema).bind (fun t => t.GetValue exampleSchema 2)
        = exampleValues[2]? := by
  decide

/-- Tuple round trip for inlined columns: for a well-formed schema, values
that match it (one valid value of the column's type per column) and a tuple size that fits
32 bits, `NewTupleFromSchema(values, schema)` returns a tuple, and for every index `i` of
an inlined (fixed-type) column `GetValue(schema, i)` on it returns `values[i]`. -/
theorem getValue_inlined_round_trip (values : List Value) (s : Schema) (i : Nat)
    (col : Column) (v : Value) (hwf : s.WF) (hm : Matches values s)
    (hsize : s.length + payloadSize (s.columns.zip values) < 4294967296)
    (hcol : s.columns[i]? = some col) (hv : values[i]? = some v)
    (hin : col.isInlined = true) :
    (NewTupleFromSchema values s).bind (fun t => t.GetValue s i) = some v := by
  obtain ⟨data, hnew, hlen, hser⟩ := NewTupleFromSchema_ok values s hwf hm hsize
  have hzl : (zeroBytes (s.length + payloadSize (s.columns.zip values))).length
      = s.length + payloadSize (s.columns.zip values) := by simp [zeroBytes]
  have hok := pairsOK_of_wf values s hwf hm
  have hmem : (col, v) ∈ s.columns.zip values :=
    List.getElem?_mem (List.getElem?_zip_eq_some.mpr ⟨hcol, hv⟩)
  have hslot := serializePairs_inlined_slot s.length (s.columns.zip values) s.length _ data hok
    (Nat.le_refl _) (by rw [hzl]) (by rw [hzl]; exact hsize)
    (pairwise_zip_of_wf values s hwf hm) hser (col, v) hmem hin
  obtain ⟨hinside, hbytes⟩ := hok (col, v) hmem
  obtain ⟨hvalid, htype⟩ := hm.2 (col, v) hmem
  simp only at hslot hinside hbytes hvalid htype
  have hfixed : v.ValueType ≠ TypeID.Varchar := by
    have := (hwf.1 col (List.of_mem_zip hmem).1).1
    rw [hin] at this
    rw [htype]
    simpa using this
  have hdrop : data.drop col.offset = v.Serialize ++ data.drop (col.offset + col.fixedLength) := by
    have := List.take_append_drop col.fixedLength (data.drop col.offset)
    rw [List.drop_drop] at this
    unfold slice at hslot
    rw [hslot] at this
    rw [← this, Nat.add_comm]
  have hle : ¬ (col.offset > data.length) := by omega
  rw [hnew]
  simp only [Option.some_bind, Tuple.GetValue, hcol, hin, Bool.not_true, Bool.false_eq_true,
    if_false, hle, hdrop, ← htype]
  exact NewValueFromBytes_serialize v _ hvalid hfixed

/-- An instance of the round trip: column 0 (`id`) of the schema `[id:Integer, name:Varchar,
score:Float]` with the values `[42, "hello", 3.5]`. -/
theorem getValue_inlined_round_trip_witness :
    (NewTupleFromSchema exampleValues exampleSchema).bind
        (fun t => t.GetValue exampleSchema 0) = some (Value.Integer 42) :=
  getValue_inlined_round_trip exampleValues exampleSchema 0
    { columnType := .Integer, isInlined := true, offset := 0, fixedLength := 4 }
    (Value.Integer 42) (by decide) (by decide) (by decide) (by decide) (by decide) (by decide)

end SamehadaDB

namespace SamehadaDB

/-! ## UnpinPage and DeletePage -/

/-- C12. With debugging disabled, `UnpinPage(pid, flag)` returns the error "could not find
page" exactly when `pid` is not in the directory, and then the pool (directory, frames,
free list, replacer and all the rest) is as it was before the call. -/
theorem unpinPage_error_iff (c : Common) (b : BufferPoolManager) (pid : Int) (flag : Bool)
    (hdebug : c.EnableDebug = false) :
    ((b.UnpinPage c pid flag).value = some true ↔ tableGet b.pageTable pid = none) ∧
    (tableGet b.pageTable pid = none → b.UnpinPage c pid flag = .ok b true) := by
  unfold BufferPoolManager.UnpinPage
  cases hget : tableGet b.pageTable pid with
  | none => simp [hdebug, Res.value]
  | some f =>
    simp only [reduceCtorEq, iff_false, false_implies, and_true]
    cases hp : b.pages[f]? with
    | none => simp [Res.value]
    | some o =>
      cases o with
      | none => simp [Res.value]
      | some pg => simp [Res.value]

/-- Witness of C12: page 5 is not resident in a pool that holds page 0 only. -/
theorem unpinPage_error_iff_witness :
    ((pinnedExample.UnpinPage tinyCommon 5 true).value = some true ↔
        tableGet pinnedExample.pageTable 5 = none) ∧
    (tableGet pinnedExample.pageTable 5 = none →
        pinnedExample.UnpinPage tinyCommon 5 true = .ok pinnedExample true) :=
  unpinPage_error_iff tinyCommon pinnedExample 5 true rfl

/-- C13. `UnpinPage(pid, made_dirty)` on a page resident in frame `f` with positive pin
count returns without error; afterwards the page in `f` has a pin count one less and a
dirty flag equal to (old flag OR `made_dirty`), its id and bytes being the same; the
replacer is told `Unpin(f)` exactly when the new pin count is zero; nothing else
changes. -/
theorem unpinPage_resident (c : Common) (b : BufferPoolManager) (pid : Int) (f : Nat)
    (pg : Page) (made_dirty : Bool) (hdir : tableGet b.pageTable pid = some f)
    (hfr : b.pages[f]? = some (some pg)) (hpin : 0 < pg.pinCount) :
    b.UnpinPage c pid made_dirty =
      .ok { b with
            pages := b.pages.set f
              (some { pg with pinCount := pg.pinCount - 1, isDirty := pg.isDirty || made_dirty })
            replacer := if pg.pinCount - 1 = 0 then b.replacer.Unpin f else b.replacer }
          false := by
  have hiff : (pg.pinCount - 1 ≤ 0) ↔ (pg.pinCount - 1 = 0) := by omega
  simp only [BufferPoolManager.UnpinPage, hdir, hfr, Page.DecPinCount, Page.SetIsDirty, hiff]
  cases hd : pg.isDirty <;> cases made_dirty <;> simp

/-- Witness of C13: the pinned page 0 of `pinnedExample`, unpinned clean. -/
theorem unpinPage_resident_witness :
    pinnedExample.UnpinPage tinyCommon 0 false =
      .ok { pinnedExample with
            pages := pinnedExample.pages.set 0
              (some { id := 0, pinCount := 1 - 1, isDirty := false || false, data := [0, 0] })
            replacer := if (1 : Int) - 1 = 0 then pinnedExample.replacer.Unpin 0
                        else pinnedExample.replacer }
          false :=
  unpinPage_resident tinyCommon pinnedExample 0 0
    { id := 0, pinCount := 1, isDirty := false, data := [0, 0] } false (by decide) (by decide)
    (by decide)

end SamehadaDB

namespace SamehadaDB

/-- C17. `DeletePage(pid)` returns nil and changes nothing when `pid` is not in the
directory. When `pid` is resident in frame `f` with pin count 0 it returns nil, `pid` is
no longer in the directory, frame `f` is nil, `f` is appended to the end of the free list,
every other directory entry and every other frame is unchanged (the pager is asked to
deallocate the page, which does nothing). -/
theorem deletePage_success (b : BufferPoolManager) (pid : Int) :
    (tableGet b.pageTable pid = none → b.DeletePage pid = .ok b ()) ∧
    (∀ (f : Nat) (pg : Page), tableGet b.pageTable pid = some f →
      b.pages[f]? = some (some pg) → pg.id = pid → pg.pinCount = 0 →
      b.DeletePage pid =
        .ok { b with
              events := b.events ++ [Event.deallocatePage pid]
              pageTable := tableDelete b.pageTable pid
              pages := b.pages.set f none
              freeList := b.freeList ++ [f] } () ∧
      tableGet (tableDelete b.pageTable pid) pid = none ∧
      (∀ k, k ≠ pid → tableGet (tableDelete b.pageTable pid) k = tableGet b.pageTable k) ∧
      (b.pages.set f none)[f]? = some none ∧
      (∀ g, g ≠ f → (b.pages.set f none)[g]? = b.pages[g]?)) := by
  refine ⟨?_, ?_⟩
  · intro hmiss
    simp only [BufferPoolManager.DeletePage, hmiss]
  · intro f pg hdir hfr hid hpin
    have hlt : f < b.pages.length := by
      rcases Nat.lt_or_ge f b.pages.length with h | h
      · exact h
      · rw [List.getElem?_eq_none h] at hfr; cases hfr
    refine ⟨?_, tableGet_tableDelete_self _ _, fun k hk => tableGet_tableDelete_ne _ _ _ hk,
      List.getElem?_set_self hlt, fun g hg => List.getElem?_set_ne (Ne.symm hg)⟩
    simp only [BufferPoolManager.DeletePage, hdir, hfr, hid, hpin,
      VirtualDiskManagerImpl.DeallocatePage, if_true, gt_iff_lt, lt_irrefl, if_false]

/-- Witness of C17: page 0, resident in frame 0 of `unpinnedExample` with pin count 0. -/
theorem deletePage_success_witness :
    unpinnedExample.DeletePage 0 =
      .ok { unpinnedExample with
            events := unpinnedExample.events ++ [Event.deallocatePage 0]
            pageTable := tableDelete unpinnedExample.pageTable 0
            pages := unpinnedExample.pages.set 0 none
            freeList := unpinnedExample.freeList ++ [0] } () :=
  ((deletePage_success unpinnedExample 0).2 0
    { id := 0, pinCount := 0, isDirty := false, data := [0, 0] }
    (by decide) (by decide) rfl rfl).1

/-- C16, the code at the failing input. Page 0 is resident with pin count 1 (scenario 3).
`DeletePage(0)` removes page 0 from the directory before it looks at the pin count and
then stops with the panic "Pin count greater than 0": the directory is not what it was.
If the run goes on from there, `UnpinPage(0, false)` returns the error "could not find
page", and `DeletePage(0)` returns nil without freeing anything: frame 0 still holds the
page and the free list stays empty. -/
theorem deletePage_pinned_not_atomic :
    tableGet pinnedExample.pageTable 0 = some 0 ∧
    (pinnedExample.DeletePage 0).fault = some Fault.pinCountGreaterThanZero ∧
    tableGet (pinnedExample.DeletePage 0).state.pageTable 0 = none ∧
    ((pinnedExample.DeletePage 0).state.UnpinPage tinyCommon 0 false).value = some true ∧
    ((pinnedExample.DeletePage 0).state.DeletePage 0).value = some () ∧
    ((pinnedExample.DeletePage 0).state.DeletePage 0).state.pages
        = [some { id := 0, pinCount := 1, isDirty := false, data := [0, 0] }] ∧
    ((pinnedExample.DeletePage 0).state.DeletePage 0).state.freeList = [] := by
  decide

end SamehadaDB

namespace SamehadaDB

/-! ## Fetch past the end of the data file -/

/-- C11 as stated fails. Fresh pool of one frame over an empty data file; page 1 is not
resident and its offset (2) is past the end of the file. `FetchPage(1)` does not return
an error value: it stops with the panic "ReadPage returned error!", and the free list,
`[0]` before the call, is empty in the state reached. -/
theorem fetchPage_past_end_panics :
    tableGet (NewBufferPoolManager 1 (NewVirtualDiskManagerImpl tinyCommon [])).pageTable 1
        = none ∧
    ((NewBufferPoolManager 1 (NewVirtualDiskManagerImpl tinyCommon [])).FetchPage
        tinyCommon 1).value = none ∧
    ((NewBufferPoolManager 1 (NewVirtualDiskManagerImpl tinyCommon [])).FetchPage
        tinyCommon 1).fault = some Fault.readPageError ∧
    (NewBufferPoolManager 1 (NewVirtualDiskManagerImpl tinyCommon [])).freeList = [0] ∧
    ((NewBufferPoolManager 1 (NewVirtualDiskManagerImpl tinyCommon [])).FetchPage
        tinyCommon 1).state.freeList = [] := by
  decide

/-- C11 (amended). `pid` is not resident and its offset is greater than the length of
the data file at the moment `ReadPage` is called. Then `FetchPage(pid)` returns nothing: it
stops with the panic "ReadPage returned error!", after the frame has been taken, and the
state it leaves is the following. (1) The free list has a frame: the free list has lost its
head, the read was attempted, nothing else has changed. (2) The free list is empty and the
replacer's victim frame holds no page: the replacer is the one `Victim` leaves, the read
was attempted. (3) The victim frame holds a clean page `cur`: in addition `cur.id` has left
the directory. (4) The victim frame holds a dirty page `cur` (of `PageSize` bytes): in
addition the log was flushed and `WritePage(cur.id, cur.data)` was made before the read,
and the disk manager is the one that write leaves. In all four cases the frame array is
the same as before the call, so the displaced page is still in its frame. -/
theorem fetchPage_past_end (c : Common) (b : BufferPoolManager) (pid : Int)
    (hmiss : tableGet b.pageTable pid = none) :
    (∀ (f : Nat) (rest : List Nat), b.freeList = f :: rest →
      pageOffset c pid > (b.diskManager.db.bytes.length : Int) →
      b.FetchPage c pid
        = .panic { b with freeList := rest
                          events := b.events ++ [Event.readPage pid] } .readPageError) ∧
    (∀ (f : Nat) (r : ClockReplacer), b.freeList = [] → b.replacer.Victim = (some f, r) →
      b.pages[f]? = some none →
      pageOffset c pid > (b.diskManager.db.bytes.length : Int) →
      b.FetchPage c pid
        = .panic { b with replacer := r
                          events := b.events ++ [Event.readPage pid] } .readPageError) ∧
    (∀ (f : Nat) (r : ClockReplacer) (cur : Page), b.freeList = [] →
      b.replacer.Victim = (some f, r) → b.pages[f]? = some (some cur) →
      cur.isDirty = false →
      pageOffset c pid > (b.diskManager.db.bytes.length : Int) →
      b.FetchPage c pid
        = .panic { b with replacer := r
                          pageTable := tableDelete b.pageTable cur.id
                          events := b.events ++ [Event.readPage pid] } .readPageError) ∧
    (∀ (f : Nat) (r : ClockReplacer) (cur : Page), b.freeList = [] →
      b.replacer.Victim = (some f, r) → b.pages[f]? = some (some cur) →
      cur.isDirty = true → cur.data.length = c.PageSize →
      pageOffset c pid
        > ((b.diskManager.WritePage c cur.id cur.data).state.db.bytes.length : Int) →
      b.FetchPage c pid
        = .panic { b with replacer := r
                          diskManager := (b.diskManager.WritePage c cur.id cur.data).state
                          pageTable := tableDelete b.pageTable cur.id
                          events := b.events ++ [Event.logFlush,
                            Event.writePage cur.id cur.data, Event.readPage pid] }
            .readPageError) := by
  refine ⟨?_, ?_, ?_, ?_⟩
  · intro f rest hfree hpast
    simp only [BufferPoolManager.FetchPage, hmiss, BufferPoolManager.getFrameID, hfree,
      if_true, VirtualDiskManagerImpl.ReadPage, hpast]
  · intro f r hfree hvic hfr hpast
    simp only [BufferPoolManager.FetchPage, hmiss, BufferPoolManager.getFrameID, hfree, hvic,
      Bool.false_eq_true, if_false, BufferPoolManager.removeCurrent, hfr,
      VirtualDiskManagerImpl.ReadPage, hpast, if_true]
  · intro f r cur hfree hvic hfr hclean hpast
    simp only [BufferPoolManager.FetchPage, hmiss, BufferPoolManager.getFrameID, hfree, hvic,
      Bool.false_eq_true, if_false, BufferPoolManager.removeCurrent, hfr, hclean,
      VirtualDiskManagerImpl.ReadPage, hpast, if_true]
  · intro f r cur hfree hvic hfr hdirty hlen hpast
    have hw : b.diskManager.WritePage c cur.id cur.data
        = .ok (b.diskManager.WritePage c cur.id cur.data).state () := by
      simp only [VirtualDiskManagerImpl.WritePage, hlen, ne_eq, not_true_eq_false, if_false,
        Res.state]
    have hread : (b.diskManager.WritePage c cur.id cur.data).state.ReadPage c pid
          (zeroBytes c.PageSize)
        = .ok (b.diskManager.WritePage c cur.id cur.data).state
            (some ReadError.pastEndOfFile, zeroBytes c.PageSize) := by
      simp only [VirtualDiskManagerImpl.ReadPage, hpast, if_true]
    simp only [BufferPoolManager.FetchPage, hmiss, BufferPoolManager.getFrameID, hfree, hvic,
      Bool.false_eq_true, if_false, BufferPoolManager.removeCurrent, hfr, hdirty, if_true]
    rw [hw]
    simp only [hread, List.append_assoc, List.cons_append, List.nil_append]
    rfl

/-- Witness of C11 (amended). On the fresh pool of one frame over an empty file,
`FetchPage(1)` panics with the free list emptied. On `dirtyExample` (free list empty, the
victim frame 0 holds the dirty page 0) `FetchPage(5)` panics after page 0 was written back
and has left the directory; the frame array is unchanged in both. -/
theorem fetchPage_past_end_witness :
    (NewBufferPoolManager 1 (NewVirtualDiskManagerImpl tinyCommon [])).FetchPage tinyCommon 1
      = .panic { NewBufferPoolManager 1 (NewVirtualDiskManagerImpl tinyCommon []) with
                 freeList := []
                 events := [Event.readPage 1] } .readPageError ∧
    dirtyExample.FetchPage tinyCommon 5
      = .panic { dirtyExample with
                 replacer := dirtyExample.replacer.Victim.2
                 diskManager := (dirtyExample.diskManager.WritePage tinyCommon 0 [0, 0]).state
                 pageTable := tableDelete dirtyExample.pageTable 0
                 events := dirtyExample.events ++ [Event.logFlush, Event.writePage 0 [0, 0],
                   Event.readPage 5] } .readPageError :=
  ⟨(fetchPage_past_end tinyCommon
      (NewBufferPoolManager 1 (NewVirtualDiskManagerImpl tinyCommon [])) 1 (by decide)).1
      0 [] (by decide) (by decide),
   (fetchPage_past_end tinyCommon dirtyExample 5 (by decide)).2.2.2 0
      dirtyExample.replacer.Victim.2
      { id := 0, pinCount := 0, isDirty := true, data := [0, 0] }
      (by decide) (by decide) (by decide) (by decide) (by decide) (by decide)⟩

end SamehadaDB

namespace SamehadaDB

/-! ## ReadPage and AllocatePage -/

theorem wrap32_of_range (x : Int) (h0 : 0 ≤ x) (h1 : x < 2147483648) : wrap32 x = x := by
  unfold wrap32
  omega

theorem File.seek_nat (f : File) (n : Nat) : f.Seek (n : Int) = { f with pos := n } := by
  simp [File.Seek]

/-- What `ReadPage` does, by the number of bytes the file has at a seek offset `n` that is
not negative. -/
theorem VirtualDiskManagerImpl.readPage_cases (c : Common) (d : VirtualDiskManagerImpl)
    (pid : Int) (buf : List UInt8) (n : Nat) (ho : pageOffset c pid = (n : Int))
    (hbuf : buf.length = c.PageSize) :
    (d.db.bytes.length < n →
      (d.ReadPage c pid buf).value = some (some ReadError.pastEndOfFile, buf)) ∧
    (n = d.db.bytes.length → 0 < c.PageSize →
      (d.ReadPage c pid buf).value = some (some ReadError.whileReading, buf)) ∧
    (n < d.db.bytes.length → d.db.bytes.length < n + c.PageSize →
      (d.ReadPage c pid buf).value = some (none, zeroBytes c.PageSize)) ∧
    (n + c.PageSize ≤ d.db.bytes.length →
      (d.ReadPage c pid buf).value = some (none, slice d.db.bytes n c.PageSize)) := by
  refine ⟨?_, ?_, ?_, ?_⟩
  · intro h
    have h1 : (n : Int) > (d.db.bytes.length : Int) := by exact_mod_cast h
    simp only [VirtualDiskManagerImpl.ReadPage, ho, h1, if_true, Res.value]
  · intro h hps
    have h1 : ¬ ((n : Int) > (d.db.bytes.length : Int)) := by
      have : (n : Int) = (d.db.bytes.length : Int) := by exact_mod_cast h
      omega
    have hread : ({ d.db with pos := n } : File).Read buf.length = (none, { d.db with pos := n }) := by
      have hz : ¬ (buf.length = 0) := by omega
      simp only [File.Read, hz, if_false]
      rw [List.drop_eq_nil_of_le (by omega)]
      simp
    simp only [VirtualDiskManagerImpl.ReadPage, ho, h1, if_false, File.seek_nat, hread, Res.value]
  · intro h1 h2
    have hn : ¬ ((n : Int) > (d.db.bytes.length : Int)) := by
      have : (n : Int) < (d.db.bytes.length : Int) := by exact_mod_cast h1
      omega
    have hgl : ((d.db.bytes.drop n).take buf.length).length = d.db.bytes.length - n := by
      simp only [List.length_take, List.length_drop]
      omega
    have hne : ¬ ((d.db.bytes.drop n).take buf.length = []) := by
      intro h
      rw [h] at hgl
      simp only [List.length_nil] at hgl
      omega
    have hread : ({ d.db with pos := n } : File).Read buf.length
        = (some ((d.db.bytes.drop n).take buf.length),
           { d.db with pos := n + ((d.db.bytes.drop n).take buf.length).length }) := by
      have hz : ¬ (buf.length = 0) := by omega
      simp only [File.Read, hz, if_false, hne]
    simp only [VirtualDiskManagerImpl.ReadPage, ho, hn, if_false, File.seek_nat, hread]
    have hshort : ((d.db.bytes.drop n).take buf.length).length < c.PageSize := by
      rw [hgl]; omega
    have hfull : ¬ (((d.db.bytes.drop n).take buf.length
        ++ buf.drop ((d.db.bytes.drop n).take buf.length).length).length < c.PageSize) := by
      simp only [List.length_append, List.length_drop, hgl]
      omega
    simp only [hshort, if_true, hfull, if_false, Res.value]
    rw [List.drop_eq_nil_of_le (by
      simp only [List.length_append, List.length_drop, hgl]
      omega), List.append_nil]
  · intro h
    have hn : ¬ ((n : Int) > (d.db.bytes.length : Int)) := by
      have : (n : Int) ≤ (d.db.bytes.length : Int) := by exact_mod_cast (by omega : n ≤ _)
      omega
    by_cases hz : c.PageSize = 0
    · have hbuf0 : buf = [] := List.length_eq_zero.mp (hbuf.trans hz)
      subst hbuf0
      simp [VirtualDiskManagerImpl.ReadPage, ho, hn, File.seek_nat, File.Read, hz, Res.value,
        slice]
    · have hgl : ((d.db.bytes.drop n).take c.PageSize).length = c.PageSize := by
        simp only [List.length_take, List.length_drop]
        omega
      have hread : ({ bytes := d.db.bytes, pos := n } : File).Read buf.length
          = (some ((d.db.bytes.drop n).take c.PageSize),
             { bytes := d.db.bytes, pos := n + buf.length }) := by
        rw [hbuf]
        exact File.read_full ({ bytes := d.db.bytes, pos := n } : File) c.PageSize
          ((d.db.bytes.drop n).take c.PageSize) hz hgl rfl
      simp only [VirtualDiskManagerImpl.ReadPage, ho, hn, if_false, File.seek_nat, hread, hgl,
        lt_irrefl, Res.value, slice]
      rw [← hbuf, List.drop_length, List.append_nil]

/-- C20 as stated fails: when the offset equals the file length the read meets the end of
the file and `ReadPage` returns the error "I/O error while reading"; the buffer is not
zero-filled. Data file of one page `[1, 2]`, page 1, page size 2. -/
theorem readPage_at_end_of_file :
    pageOffset tinyCommon 1 = 2 ∧
    ((NewVirtualDiskManagerImpl tinyCommon [1, 2]).ReadPage tinyCommon 1 [9, 9]).value
      = some (some ReadError.whileReading, [9, 9]) := by
  decide

/-- C20 (amended). For a page id from 0 whose offset `pid * PageSize` stays below 2^31 and
a buffer of `PageSize` bytes, `ReadPage(pid, buf)` returns the error "past end of file"
when the offset is greater than the file length, and the error "while reading" when the
offset equals the file length (no byte there); in both cases `buf` is untouched. When the
file has at least one but fewer than `PageSize` bytes at the offset it returns no error
with `buf` entirely zero, and when it has `PageSize` bytes there it returns no error with
`buf` equal to those bytes. -/
theorem readPage_contract (c : Common) (d : VirtualDiskManagerImpl) (pid : Int)
    (buf : List UInt8) (hbuf : buf.length = c.PageSize) (h0 : 0 ≤ pid)
    (hrange : pid * c.PageSize < 2147483648) :
    ((d.db.bytes.length : Int) < pid * c.PageSize →
      (d.ReadPage c pid buf).value = some (some ReadError.pastEndOfFile, buf)) ∧
    (pid * c.PageSize = (d.db.bytes.length : Int) → 0 < c.PageSize →
      (d.ReadPage c pid buf).value = some (some ReadError.whileReading, buf)) ∧
    (pid * c.PageSize < (d.db.bytes.length : Int) →
      (d.db.bytes.length : Int) < pid * c.PageSize + c.PageSize →
      (d.ReadPage c pid buf).value = some (none, zeroBytes c.PageSize)) ∧
    (pid * c.PageSize + c.PageSize ≤ (d.db.bytes.length : Int) →
      (d.ReadPage c pid buf).value = some (none, d.storedPage c pid)) := by
  have hnn : 0 ≤ pid * (c.PageSize : Int) := Int.mul_nonneg h0 (Int.ofNat_nonneg _)
  obtain ⟨n, hn⟩ := Int.eq_ofNat_of_zero_le hnn
  have ho : pageOffset c pid = (n : Int) := by
    unfold pageOffset
    rw [wrap32_of_range _ hnn hrange, hn]
  obtain ⟨h1, h2, h3, h4⟩ := VirtualDiskManagerImpl.readPage_cases c d pid buf n ho hbuf
  rw [hn]
  refine ⟨?_, ?_, ?_, ?_⟩
  · intro h
    exact h1 (by exact_mod_cast h)
  · intro h hps
    exact h2 (by exact_mod_cast h) hps
  · intro ha hb
    exact h3 (by exact_mod_cast ha) (by exact_mod_cast hb)
  · intro h
    have := h4 (by exact_mod_cast h)
    rw [this]
    simp only [VirtualDiskManagerImpl.storedPage, hn, Int.toNat_ofNat]

end SamehadaDB

namespace SamehadaDB

/-- Witness of C20 (amended): page 1 of the two-page file `[1, 2, 3, 4]`, page size 2. -/
theorem readPage_contract_witness :
    ((NewVirtualDiskManagerImpl tinyCommon [1, 2, 3, 4]).ReadPage tinyCommon 1 [0, 0]).value
      = some (none, (NewVirtualDiskManagerImpl tinyCommon [1, 2, 3, 4]).storedPage tinyCommon 1) :=
  (readPage_contract tinyCommon (NewVirtualDiskManagerImpl tinyCommon [1, 2, 3, 4]) 1 [0, 0]
    (by decide) (by decide) (by decide)).2.2.2 (by decide)

/-- A `ReadPage` of the page whose bytes `b` were just written at its (non-negative) seek
offset returns `b`. -/
theorem VirtualDiskManagerImpl.readPage_written (c : Common) (d1 : VirtualDiskManagerImpl)
    (f0 : File) (pid : Int) (n : Nat) (b buf : List UInt8)
    (ho : pageOffset c pid = (n : Int)) (hb : b.length = c.PageSize)
    (hbuf : buf.length = c.PageSize)
    (hdb : d1.db = ({ f0 with pos := n } : File).Write b) :
    (d1.ReadPage c pid buf).value = some (none, b) := by
  have hlen := File.write_length_ge ({ f0 with pos := n } : File) b
  have hgot := File.write_drop_take ({ f0 with pos := n } : File) b
  simp only at hlen hgot
  rw [← hdb] at hlen hgot
  have h4 := (VirtualDiskManagerImpl.readPage_cases c d1 pid buf n ho hbuf).2.2.2
    (by rw [← hb]; exact hlen)
  rw [h4]
  unfold slice
  rw [← hb, hgot]

theorem VirtualDiskManagerImpl.allocatePage_eq (c : Common) (d : VirtualDiskManagerImpl) :
    d.AllocatePage c =
      .ok { db := (d.db.Seek (pageOffset c d.nextPageID)).Write (zeroBytes c.PageSize)
            nextPageID := wrap32 (d.nextPageID + 1)
            size := if pageOffset c d.nextPageID ≥ d.size
                    then pageOffset c d.nextPageID + (c.PageSize : Int) else d.size }
          d.nextPageID := by
  simp [VirtualDiskManagerImpl.AllocatePage, VirtualDiskManagerImpl.WritePage, zeroBytes]

/-- C19 as stated fails at the largest 32-bit id: `AllocatePage` on a pager whose next
page id is 2147483647 returns that id and leaves the next page id at -2147483648, which the
following call returns: the ids are not increasing, the increment is not one. -/
theorem allocatePage_wraps :
    (lastIdDisk.AllocatePage tinyCommon).value = some 2147483647 ∧
    (lastIdDisk.AllocatePage tinyCommon).state.nextPageID = -2147483648 ∧
    ((lastIdDisk.AllocatePage tinyCommon).state.AllocatePage tinyCommon).value
      = some (-2147483648) := by
  decide

/-- C19 (amended). For every pager state `AllocatePage()` returns the current
`nextPageID` and sets it to the old value plus one in 32-bit arithmetic. When the old
value is below 2^31 - 1 that is the old value plus one, and the next call returns that
larger id. Right after a call that returned an id from 0 whose offset `pid * PageSize` is
below 2^31, `ReadPage(pid, buf)` into a buffer of `PageSize` bytes returns no error and
leaves `buf` all zeros. -/
theorem allocatePage_contract (c : Common) (d : VirtualDiskManagerImpl) :
    (d.AllocatePage c).value = some d.nextPageID ∧
    (d.AllocatePage c).state.nextPageID = wrap32 (d.nextPageID + 1) ∧
    (-2147483648 ≤ d.nextPageID → d.nextPageID < 2147483647 →
      (d.AllocatePage c).state.nextPageID = d.nextPageID + 1 ∧
      ((d.AllocatePage c).state.AllocatePage c).value = some (d.nextPageID + 1) ∧
      d.nextPageID < d.nextPageID + 1) ∧
    (∀ buf : List UInt8, buf.length = c.PageSize → 0 ≤ d.nextPageID →
      d.nextPageID * c.PageSize < 2147483648 →
      ((d.AllocatePage c).state.ReadPage c d.nextPageID buf).value
        = some (none, zeroBytes c.PageSize)) := by
  rw [VirtualDiskManagerImpl.allocatePage_eq]
  refine ⟨rfl, rfl, ?_, ?_⟩
  · intro h1 h2
    have hw : wrap32 (d.nextPageID + 1) = d.nextPageID + 1 := by
      unfold wrap32
      omega
    refine ⟨hw, ?_, by omega⟩
    rw [VirtualDiskManagerImpl.allocatePage_eq]
    simp only [Res.state, Res.value, hw]
  · intro buf hbuf h0 hrange
    have hnn : 0 ≤ d.nextPageID * (c.PageSize : Int) := Int.mul_nonneg h0 (Int.ofNat_nonneg _)
    obtain ⟨n, hn⟩ := Int.eq_ofNat_of_zero_le hnn
    have ho : pageOffset c d.nextPageID = (n : Int) := by
      unfold pageOffset
      rw [wrap32_of_range _ hnn hrange, hn]
    exact VirtualDiskManagerImpl.readPage_written c _ d.db d.nextPageID n (zeroBytes c.PageSize)
      buf ho (by simp [zeroBytes]) hbuf (by simp only [Res.state, ho, File.seek_nat])

/-- Witness of C19 (amended): the pager over an empty file, next page id 0. -/
theorem allocatePage_contract_witness :
    (((NewVirtualDiskManagerImpl tinyCommon []).AllocatePage tinyCommon).state.nextPageID
        = (NewVirtualDiskManagerImpl tinyCommon []).nextPageID + 1 ∧
      (((NewVirtualDiskManagerImpl tinyCommon []).AllocatePage tinyCommon).state.AllocatePage
        tinyCommon).value = some ((NewVirtualDiskManagerImpl tinyCommon []).nextPageID + 1) ∧
      (NewVirtualDiskManagerImpl tinyCommon []).nextPageID
        < (NewVirtualDiskManagerImpl tinyCommon []).nextPageID + 1) ∧
    (((NewVirtualDiskManagerImpl tinyCommon []).AllocatePage tinyCommon).state.ReadPage
        tinyCommon (NewVirtualDiskManagerImpl tinyCommon []).nextPageID [7, 7]).value
      = some (none, zeroBytes tinyCommon.PageSize) :=
  ⟨(allocatePage_contract tinyCommon (NewVirtualDiskManagerImpl tinyCommon [])).2.2.1
      (by decide) (by decide),
   (allocatePage_contract tinyCommon (NewVirtualDiskManagerImpl tinyCommon [])).2.2.2
      [7, 7] (by decide) (by decide) (by decide)⟩

end SamehadaDB

namespace SamehadaDB

/-! ## NewPage -/

theorem BufferPoolManager.getFrameID_fromFree (b b1 : BufferPoolManager) (f : Nat)
    (h : b.getFrameID = (some f, true, b1)) : f ∈ b.freeList := by
  unfold BufferPoolManager.getFrameID at h
  split at h
  · rename_i f0 rest hfl
    simp only [Prod.mk.injEq, Option.some.injEq, true_and] at h
    rw [hfl, ← h.1]
    exact List.mem_cons_self _ _
  · simp at h

/-- After the displacement phase the id of the page that was in the frame is not in the
directory. -/
theorem BufferPoolManager.removePhase_old (c : Common) (b b1 b2 : BufferPoolManager) (f : Nat)
    (isFromFreeList : Bool) (u : Unit) (hinv : b.Inv)
    (hg : b.getFrameID = (some f, isFromFreeList, b1))
    (hr : (if isFromFreeList then Res.ok b1 () else b1.removeCurrent c f) = .ok b2 u)
    (old : Page) (hold : b.pages[f]? = some (some old)) :
    tableGet b2.pageTable old.id = none := by
  obtain ⟨hP, hT, _, _⟩ := BufferPoolManager.getFrameID_pages b b1 _ _ hg
  cases isFromFreeList with
  | true =>
    have := hinv.free f (BufferPoolManager.getFrameID_fromFree b b1 f hg)
    rw [hold] at this
    cases this
  | false =>
    simp only [Bool.false_eq_true, if_false] at hr
    unfold BufferPoolManager.removeCurrent at hr
    rw [hP, hold] at hr
    simp only at hr
    split at hr
    · split at hr
      · cases hr
      · simp only [Res.ok.injEq] at hr
        rw [← hr.1]
        exact tableGet_tableDelete_self _ _
    · simp only [Res.ok.injEq] at hr
      rw [← hr.1]
      exact tableGet_tableDelete_self _ _

/-- C18 as stated fails at the largest 32-bit id: `NewPage` on a pool whose pager has
next page id 2147483647 returns the page with that id and leaves the pager's next page id
at -2147483648, not one more. -/
theorem newPage_nextPageID_wraps :
    (lastIdPool.NewPage tinyCommon).value
      = some (some { id := 2147483647, pinCount := 1, isDirty := false, data := [0, 0] }) ∧
    lastIdPool.diskManager.nextPageID = 2147483647 ∧
    (lastIdPool.NewPage tinyCommon).state.diskManager.nextPageID = -2147483648 := by
  decide

/-- C18 (amended). In a pool that satisfies the pool invariant, when `getFrameID` yields a
frame `f` of the pool (whose page, if any, has `PageSize` bytes), `NewPage()` returns a
page whose id is the pager's `nextPageID` before the call, whose bytes are all zero, whose
pin count is 1 and whose dirty flag is false. Afterwards the directory maps that id to
`f`, `f` holds the page, the id of the page previously in `f` (when it differs from the new
id) is no longer in the directory, and the pager's `nextPageID` is the old value plus one
in 32-bit arithmetic: the old value plus one whenever that was below 2^31 - 1. -/
theorem newPage_contract (c : Common) (b b1 : BufferPoolManager) (f : Nat)
    (isFromFreeList : Bool) (hinv : b.Inv)
    (hframe : b.getFrameID = (some f, isFromFreeList, b1))
    (hf : f < b.pages.length)
    (hsized : ∀ pg, b.pages[f]? = some (some pg) → pg.data.length = c.PageSize) :
    (b.NewPage c).value
      = some (some { id := b.diskManager.nextPageID, pinCount := 1, isDirty := false,
                     data := zeroBytes c.PageSize }) ∧
    tableGet (b.NewPage c).state.pageTable b.diskManager.nextPageID = some f ∧
    (b.NewPage c).state.pages[f]?
      = some (some { id := b.diskManager.nextPageID, pinCount := 1, isDirty := false,
                     data := zeroBytes c.PageSize }) ∧
    (∀ old : Page, b.pages[f]? = some (some old) → old.id ≠ b.diskManager.nextPageID →
      tableGet (b.NewPage c).state.pageTable old.id = none) ∧
    (b.NewPage c).state.diskManager.nextPageID = wrap32 (b.diskManager.nextPageID + 1) ∧
    (-2147483648 ≤ b.diskManager.nextPageID → b.diskManager.nextPageID < 2147483647 →
      (b.NewPage c).state.diskManager.nextPageID = b.diskManager.nextPageID + 1) := by
  have hp1 : b1.pages = b.pages := (BufferPoolManager.getFrameID_pages b b1 _ _ hframe).1
  obtain ⟨b2, hrem, hp2⟩ :
      ∃ b2, (if isFromFreeList then Res.ok b1 () else b1.removeCurrent c f) = .ok b2 () ∧
        b2.pages = b.pages := by
    cases isFromFreeList with
    | true => exact ⟨b1, rfl, hp1⟩
    | false =>
      obtain ⟨b2, h, hp⟩ := BufferPoolManager.removeCurrent_ok c b1 f (by rw [hp1]; exact hf)
        (by rw [hp1]; exact hsized)
      exact ⟨b2, by simpa using h, hp.trans hp1⟩
  have hnext := (BufferPoolManager.removePhase_pin c b b1 b2 f isFromFreeList () hframe hrem).2
  have hold := BufferPoolManager.removePhase_old c b b1 b2 f isFromFreeList () hinv hframe hrem
  have hf2 : f < b2.pages.length := by rw [hp2]; exact hf
  simp only [BufferPoolManager.NewPage, hframe, hrem, VirtualDiskManagerImpl.allocatePage_eq,
    hf2, if_true, Res.value, Res.state, Page.NewEmpty, Page.New, hnext, tableGet_tableSet_self,
    true_and]
  refine ⟨List.getElem?_set_self hf2, ?_, ?_⟩
  · intro old ho hne
    rw [tableGet_tableSet_ne _ _ _ _ hne]
    exact hold old ho
  · intro h1 h2
    unfold wrap32
    omega

theorem unpinnedExample_inv : unpinnedExample.Inv :=
  BufferPoolManager.run_inv tinyCommon _ _ (NewBufferPoolManager_inv 1 _)

theorem unpinnedExample_frame :
    unpinnedExample.getFrameID = (some 0, false, unpinnedExample.getFrameID.2.2) := by
  decide

theorem unpinnedExample_sized (pg : Page) (h : unpinnedExample.pages[0]? = some (some pg)) :
    pg.data.length = tinyCommon.PageSize := by
  have h2 : unpinnedExample.pages[0]?
      = some (some { id := 0, pinCount := 0, isDirty := false, data := [0, 0] }) := by
    decide
  rw [h2] at h
  simp only [Option.some.injEq] at h
  rw [← h]
  rfl

/-- Witness of C18 (amended): `NewPage` on `unpinnedExample`, which displaces page 0 from
frame 0 and allocates page 1. -/
theorem newPage_contract_witness :
    (unpinnedExample.NewPage tinyCommon).value
      = some (some { id := unpinnedExample.diskManager.nextPageID, pinCount := 1,
                     isDirty := false, data := zeroBytes tinyCommon.PageSize }) ∧
    tableGet (unpinnedExample.NewPage tinyCommon).state.pageTable 0 = none ∧
    (unpinnedExample.NewPage tinyCommon).state.diskManager.nextPageID
      = unpinnedExample.diskManager.nextPageID + 1 :=
  ⟨(newPage_contract tinyCommon unpinnedExample _ 0 false unpinnedExample_inv
      unpinnedExample_frame (by decide) unpinnedExample_sized).1,
   (newPage_contract tinyCommon unpinnedExample _ 0 false unpinnedExample_inv
      unpinnedExample_frame (by decide) unpinnedExample_sized).2.2.2.1
      { id := 0, pinCount := 0, isDirty := false, data := [0, 0] } (by decide) (by decide),
   (newPage_contract tinyCommon unpinnedExample _ 0 false unpinnedExample_inv
      unpinnedExample_frame (by decide) unpinnedExample_sized).2.2.2.2.2
      (by decide) (by decide)⟩

end SamehadaDB

namespace SamehadaDB

/-! ## FlushPage -/

theorem File.write_slice_self (f : File) (data : List UInt8) :
    slice (f.Write data).bytes f.pos data.length = data :=
  File.write_drop_take f data

/-- C14. `FlushPage(pid)` returns false and changes nothing when `pid` is not in the
directory. When `pid` is resident in frame `f`, whose page `pg` has `PageSize` bytes, it
returns true; the pager was handed exactly one call, `WritePage(pid, pg.data)`, which
returned, and the disk manager is the one that call leaves; the page in `f` has the same
id and bytes, dirty flag false (and a pin count one less); the directory and the free list
are unchanged. For a page id from 0 whose offset `pid * PageSize` stays below 2^31, the
bytes of page `pid` in the data file are then `pg.data`, and a `ReadPage(pid, buf)`
returns them. -/
theorem flushPage_contract (c : Common) (b : BufferPoolManager) (pid : Int) :
    (tableGet b.pageTable pid = none → b.FlushPage c pid = .ok b false) ∧
    (∀ (f : Nat) (pg : Page), tableGet b.pageTable pid = some f →
      b.pages[f]? = some (some pg) → pg.data.length = c.PageSize →
      (b.FlushPage c pid).value = some true ∧
      (b.FlushPage c pid).state.pages
        = b.pages.set f (some { pg with pinCount := pg.pinCount - 1, isDirty := false }) ∧
      (b.FlushPage c pid).state.events = b.events ++ [Event.writePage pid pg.data] ∧
      (b.diskManager.WritePage c pid pg.data).value = some () ∧
      (b.FlushPage c pid).state.diskManager = (b.diskManager.WritePage c pid pg.data).state ∧
      (b.FlushPage c pid).state.pageTable = b.pageTable ∧
      (b.FlushPage c pid).state.freeList = b.freeList ∧
      (0 ≤ pid → pid * c.PageSize < 2147483648 →
        (b.FlushPage c pid).state.diskManager.storedPage c pid = pg.data ∧
        ∀ buf : List UInt8, buf.length = c.PageSize →
          ((b.FlushPage c pid).state.diskManager.ReadPage c pid buf).value
            = some (none, pg.data))) := by
  refine ⟨?_, ?_⟩
  · intro hmiss
    simp only [BufferPoolManager.FlushPage, hmiss]
  · intro f pg hdir hfr hlen
    have hw : b.diskManager.WritePage c pid pg.data
        = .ok { b.diskManager with
                db := (b.diskManager.db.Seek (pageOffset c pid)).Write pg.data
                size := if pageOffset c pid ≥ b.diskManager.size
                        then pageOffset c pid + (pg.data.length : Int)
                        else b.diskManager.size } () := by
      simp only [VirtualDiskManagerImpl.WritePage, hlen, ne_eq, not_true_eq_false, if_false]
    simp only [BufferPoolManager.FlushPage, hdir, hfr, Page.DecPinCount, Page.SetIsDirty, hw,
      Res.value, Res.state, true_and]
    intro h0 hrange
    have hnn : 0 ≤ pid * (c.PageSize : Int) := Int.mul_nonneg h0 (Int.ofNat_nonneg _)
    obtain ⟨n, hn⟩ := Int.eq_ofNat_of_zero_le hnn
    have ho : pageOffset c pid = (n : Int) := by
      unfold pageOffset
      rw [wrap32_of_range _ hnn hrange, hn]
    refine ⟨?_, ?_⟩
    · simp only [VirtualDiskManagerImpl.storedPage, hn, Int.toNat_ofNat, ho, File.seek_nat]
      rw [← hlen]
      exact File.write_slice_self ({ b.diskManager.db with pos := n } : File) pg.data
    · intro buf hbuf
      exact VirtualDiskManagerImpl.readPage_written c _ b.diskManager.db pid n pg.data buf ho
        hlen hbuf (by simp only [ho, File.seek_nat])

/-- Witness of C14: the flush of page 0 of `pinnedExample`. -/
theorem flushPage_contract_witness :
    (pinnedExample.FlushPage tinyCommon 0).value = some true ∧
    (pinnedExample.FlushPage tinyCommon 0).state.diskManager.storedPage tinyCommon 0 = [0, 0] ∧
    (pinnedExample.FlushPage tinyCommon 5) = .ok pinnedExample false :=
  ⟨((flushPage_contract tinyCommon pinnedExample 0).2 0
      { id := 0, pinCount := 1, isDirty := false, data := [0, 0] }
      (by decide) (by decide) (by decide)).1,
   (((flushPage_contract tinyCommon pinnedExample 0).2 0
      { id := 0, pinCount := 1, isDirty := false, data := [0, 0] }
      (by decide) (by decide) (by decide)).2.2.2.2.2.2.2 (by decide) (by decide)).1,
   (flushPage_contract tinyCommon pinnedExample 5).1 (by decide)⟩

end SamehadaDB

namespace SamehadaDB

/-! ## FlushAllDirtyPages -/

theorem BufferPoolManager.pageOf_eq_some (b : BufferPoolManager) (pid : Int) (pg : Page) :
    b.pageOf pid = some pg ↔
      ∃ f, tableGet b.pageTable pid = some f ∧ b.pages[f]? = some (some pg) := by
  unfold BufferPoolManager.pageOf
  cases hg : tableGet b.pageTable pid with
  | none => simp
  | some f =>
    cases hp : b.pages[f]? with
    | none => simp [hp]
    | some o =>
      cases o with
      | none => simp [hp]
      | some q => simp [hp]

theorem BufferPoolManager.pageOf_setSame (b b1 : BufferPoolManager) (p : Int) (f : Nat)
    (pg1 : Page) (hinv : b.Inv) (hget : tableGet b.pageTable p = some f)
    (hlt : f < b.pages.length)
    (hT : b1.pageTable = b.pageTable) (hP : b1.pages = b.pages.set f (some pg1)) (pid : Int) :
    b1.pageOf pid = if pid = p then some pg1 else b.pageOf pid := by
  unfold BufferPoolManager.pageOf
  rw [hT, hP]
  by_cases hpid : pid = p
  · subst hpid
    simp only [hget, if_true, List.getElem?_set_self hlt]
  · simp only [hpid, if_false]
    cases hg : tableGet b.pageTable pid with
    | none => rfl
    | some g =>
      have hgf : g ≠ f := by
        intro heq
        subst heq
        exact hpid (hinv.frame_inj pid p g hg hget)
      simp only [List.getElem?_set_ne (Ne.symm hgf)]

/-- The state `FlushPage` returns for a resident page with `PageSize` bytes. -/
theorem BufferPoolManager.FlushPage_resident (c : Common) (b : BufferPoolManager) (pid : Int)
    (f : Nat) (pg : Page) (hdir : tableGet b.pageTable pid = some f)
    (hfr : b.pages[f]? = some (some pg)) (hlen : pg.data.length = c.PageSize) :
    b.FlushPage c pid =
      .ok { b with
            pages := b.pages.set f (some pg.flushed)
            events := b.events ++ [Event.writePage pid pg.data]
            diskManager := (b.diskManager.WritePage c pid pg.data).state } true := by
  have hw : b.diskManager.WritePage c pid pg.data
      = .ok { b.diskManager with
              db := (b.diskManager.db.Seek (pageOffset c pid)).Write pg.data
              size := if pageOffset c pid ≥ b.diskManager.size
                      then pageOffset c pid + (pg.data.length : Int)
                      else b.diskManager.size } () := by
    simp only [VirtualDiskManagerImpl.WritePage, hlen, ne_eq, not_true_eq_false, if_false]
  simp only [BufferPoolManager.FlushPage, hdir, hfr, Page.DecPinCount, Page.SetIsDirty, hw,
    Res.state, Page.flushed]

theorem BufferPoolManager.flushEach_spec (c : Common) (ids : List Int) :
    ∀ b : BufferPoolManager, b.Inv → ids.Nodup →
      (∀ id ∈ ids, ∃ pg, b.pageOf id = some pg ∧ pg.data.length = c.PageSize) →
      ∃ b1, b.flushEach c ids = .ok b1 () ∧ b1.pageTable = b.pageTable ∧
        b1.freeList = b.freeList ∧
        (∀ pid, b1.pageOf pid
          = (b.pageOf pid).map (fun pg => if pid ∈ ids then pg.flushed else pg)) ∧
        b1.events = b.events ++ ids.map (fun id => Event.writePage id (b.dataOf id)) ∧
        b1.diskManager
          = VirtualDiskManagerImpl.writeAll c b.diskManager
              (ids.map (fun id => (id, b.dataOf id))) := by
  induction ids with
  | nil =>
    intro b _ _ _
    refine ⟨b, rfl, rfl, rfl, ?_, by simp, rfl⟩
    intro pid
    cases b.pageOf pid <;> simp
  | cons p rest ih =>
    intro b hinv hnd hres
    obtain ⟨pg, hpg, hlen⟩ := hres p (List.mem_cons_self _ _)
    obtain ⟨f, hdir, hfr⟩ := (BufferPoolManager.pageOf_eq_some b p pg).mp hpg
    have hflush := BufferPoolManager.FlushPage_resident c b p f pg hdir hfr hlen
    have hlt : f < b.pages.length := by
      rcases Nat.lt_or_ge f b.pages.length with h | h
      · exact h
      · rw [List.getElem?_eq_none h] at hfr; cases hfr
    generalize hb1 : ({ b with
            pages := b.pages.set f (some pg.flushed)
            events := b.events ++ [Event.writePage p pg.data]
            diskManager := (b.diskManager.WritePage c p pg.data).state }
          : BufferPoolManager) = b1 at hflush
    have hT1 : b1.pageTable = b.pageTable := by rw [← hb1]
    have hF1 : b1.freeList = b.freeList := by rw [← hb1]
    have hP1 : b1.pages = b.pages.set f (some pg.flushed) := by rw [← hb1]
    have hE1 : b1.events = b.events ++ [Event.writePage p pg.data] := by rw [← hb1]
    have hD1 : b1.diskManager = (b.diskManager.WritePage c p pg.data).state := by rw [← hb1]
    have hinv1 : b1.Inv := by
      have h := BufferPoolManager.FlushPage_inv c b p hinv
      rw [hflush] at h
      exact h
    have hnd2 := List.nodup_cons.mp hnd
    have hpage1 := BufferPoolManager.pageOf_setSame b b1 p f pg.flushed hinv hdir hlt hT1 hP1
    have hdata1 : ∀ id ∈ rest, b1.dataOf id = b.dataOf id := by
      intro id hid
      have hne : id ≠ p := by
        intro heq; rw [heq] at hid; exact hnd2.1 hid
      unfold BufferPoolManager.dataOf
      rw [hpage1 id, if_neg hne]
    obtain ⟨b2, h2, hT2, hF2, hP2, hE2, hD2⟩ := ih b1 hinv1 hnd2.2 (by
      intro id hid
      have hne : id ≠ p := by
        intro heq; rw [heq] at hid; exact hnd2.1 hid
      rw [hpage1 id, if_neg hne]
      exact hres id (List.mem_cons_of_mem _ hid))
    have hdp : b.dataOf p = pg.data := by
      unfold BufferPoolManager.dataOf
      rw [hpg]
      rfl
    refine ⟨b2, ?_, hT2.trans hT1, hF2.trans hF1, ?_, ?_, ?_⟩
    · unfold BufferPoolManager.flushEach
      rw [hflush]
      exact h2
    · intro pid
      rw [hP2 pid, hpage1 pid]
      by_cases hpid : pid = p
      · subst hpid
        simp only [if_true, hpg, Option.map_some', List.mem_cons, true_or, hnd2.1, if_false]
      · simp only [hpid, if_false, List.mem_cons, false_or]
    · rw [hE2, hE1, List.map_cons, hdp]
      simp only [List.append_assoc, List.singleton_append, List.append_cancel_left_eq,
        List.cons.injEq, true_and]
      exact List.map_congr_left (fun id hid => by rw [hdata1 id hid])
    · rw [hD2, hD1, List.map_cons, hdp]
      simp only [VirtualDiskManagerImpl.writeAll]
      congr 1
      exact List.map_congr_left (fun id hid => by rw [hdata1 id hid])

end SamehadaDB

namespace SamehadaDB

/-! ## Pages of the data file under a sequence of writes -/

theorem File.write_length_mono (f : File) (data : List UInt8) :
    f.bytes.length ≤ (f.Write data).bytes.length := by
  simp only [File.Write, zeroBytes, List.length_append, List.length_take, List.length_replicate,
    List.length_drop]
  omega

theorem File.write_slice_other (f : File) (data : List UInt8) (a k : Nat)
    (hin : a + k ≤ f.bytes.length) (hdis : a + k ≤ f.pos ∨ f.pos + data.length ≤ a) :
    slice (f.Write data).bytes a k = slice f.bytes a k := by
  have hA : ((f.bytes ++ zeroBytes (f.pos - f.bytes.length)).take f.pos).length = f.pos := by
    simp only [zeroBytes, List.length_take, List.length_append, List.length_replicate]
    omega
  apply List.ext_getElem?
  intro j
  rw [slice_getElem?, slice_getElem?]
  by_cases hj : j < k
  · simp only [hj, if_true, File.Write]
    rcases hdis with h | h
    · rw [List.getElem?_append_left (by
        rw [List.length_append, hA]; omega)]
      rw [List.getElem?_append_left (by rw [hA]; omega)]
      rw [List.getElem?_take, if_pos (by omega)]
      rw [List.getElem?_append_left (by omega)]
    · rw [List.getElem?_append_right (by
        rw [List.length_append, hA]; omega)]
      rw [List.length_append, hA, List.getElem?_drop]
      congr 1
      omega
  · simp only [hj, if_false]

theorem VirtualDiskManagerImpl.writePage_db (c : Common) (d : VirtualDiskManagerImpl)
    (pid : Int) (data : List UInt8) :
    (d.WritePage c pid data).state.db = (d.db.Seek (pageOffset c pid)).Write data := by
  unfold VirtualDiskManagerImpl.WritePage
  simp only
  split <;> rfl

theorem pageOffset_of_range (c : Common) (pid : Int) (h0 : 0 ≤ pid)
    (h1 : pid * c.PageSize < 2147483648) :
    pageOffset c pid = (((pid * c.PageSize).toNat : Nat) : Int) := by
  have hnn : 0 ≤ pid * (c.PageSize : Int) := Int.mul_nonneg h0 (Int.ofNat_nonneg _)
  unfold pageOffset
  rw [wrap32_of_range _ hnn h1, Int.toNat_of_nonneg hnn]

theorem VirtualDiskManagerImpl.storedPage_writePage_self (c : Common)
    (d : VirtualDiskManagerImpl) (pid : Int) (data : List UInt8) (h0 : 0 ≤ pid)
    (h1 : pid * c.PageSize < 2147483648) (hlen : data.length = c.PageSize) :
    ((d.WritePage c pid data).state).storedPage c pid = data ∧
    (pid * c.PageSize).toNat + c.PageSize ≤ (d.WritePage c pid data).state.db.bytes.length := by
  unfold VirtualDiskManagerImpl.storedPage
  rw [VirtualDiskManagerImpl.writePage_db, pageOffset_of_range c pid h0 h1, File.seek_nat]
  constructor
  · have h := File.write_slice_self { d.db with pos := (pid * c.PageSize).toNat } data
    rw [hlen] at h
    exact h
  · have h := File.write_length_ge { d.db with pos := (pid * c.PageSize).toNat } data
    rw [hlen] at h
    exact h

theorem VirtualDiskManagerImpl.storedPage_writePage_ne (c : Common)
    (d : VirtualDiskManagerImpl) (pid q : Int) (data : List UInt8) (h0 : 0 ≤ pid)
    (h1 : pid * c.PageSize < 2147483648) (hq0 : 0 ≤ q) (hq1 : q * c.PageSize < 2147483648)
    (hne : q ≠ pid) (hlen : data.length = c.PageSize)
    (hin : (pid * c.PageSize).toNat + c.PageSize ≤ d.db.bytes.length) :
    ((d.WritePage c q data).state).storedPage c pid = d.storedPage c pid ∧
    (pid * c.PageSize).toNat + c.PageSize ≤ (d.WritePage c q data).state.db.bytes.length := by
  unfold VirtualDiskManagerImpl.storedPage
  rw [VirtualDiskManagerImpl.writePage_db, pageOffset_of_range c q hq0 hq1, File.seek_nat]
  have hp : 0 ≤ pid * (c.PageSize : Int) := Int.mul_nonneg h0 (Int.ofNat_nonneg _)
  have hq : 0 ≤ q * (c.PageSize : Int) := Int.mul_nonneg hq0 (Int.ofNat_nonneg _)
  have hdis : pid * (c.PageSize : Int) + c.PageSize ≤ q * c.PageSize ∨
      q * (c.PageSize : Int) + c.PageSize ≤ pid * c.PageSize := by
    rcases lt_or_gt_of_ne hne with h | h
    · right
      have h2 : (q + 1) * (c.PageSize : Int) ≤ pid * c.PageSize :=
        Int.mul_le_mul_of_nonneg_right (by omega) (Int.ofNat_nonneg _)
      rw [Int.add_mul, Int.one_mul] at h2
      exact h2
    · left
      have h2 : (pid + 1) * (c.PageSize : Int) ≤ q * c.PageSize :=
        Int.mul_le_mul_of_nonneg_right (by omega) (Int.ofNat_nonneg _)
      rw [Int.add_mul, Int.one_mul] at h2
      exact h2
  have hdisN : (pid * c.PageSize).toNat + c.PageSize ≤ (q * c.PageSize).toNat ∨
      (q * c.PageSize).toNat + data.length ≤ (pid * c.PageSize).toNat := by
    rw [hlen]
    generalize pid * (c.PageSize : Int) = x at *
    generalize q * (c.PageSize : Int) = y at *
    omega
  constructor
  · exact File.write_slice_other { d.db with pos := (q * c.PageSize).toNat } data _ _ hin hdisN
  · exact Nat.le_trans hin
      (File.write_length_mono { d.db with pos := (q * c.PageSize).toNat } data)

theorem VirtualDiskManagerImpl.writeAll_preserve (c : Common) (pid : Int) (h0 : 0 ≤ pid)
    (h1 : pid * c.PageSize < 2147483648) (ws : List (Int × List UInt8)) :
    ∀ d : VirtualDiskManagerImpl,
      (pid * c.PageSize).toNat + c.PageSize ≤ d.db.bytes.length →
      (∀ w ∈ ws, 0 ≤ w.1 ∧ w.1 * c.PageSize < 2147483648 ∧ w.2.length = c.PageSize ∧
        w.1 ≠ pid) →
      (VirtualDiskManagerImpl.writeAll c d ws).storedPage c pid = d.storedPage c pid := by
  induction ws with
  | nil => intro d _ _; rfl
  | cons w rest ih =>
    obtain ⟨q, data⟩ := w
    intro d hin hws
    obtain ⟨hq0, hq1, hlen, hne⟩ := hws (q, data) (List.mem_cons_self _ _)
    have h := VirtualDiskManagerImpl.storedPage_writePage_ne c d pid q data h0 h1 hq0 hq1 hne
      hlen hin
    simp only [VirtualDiskManagerImpl.writeAll]
    rw [ih _ h.2 (fun w hw => hws w (List.mem_cons_of_mem _ hw)), h.1]

theorem VirtualDiskManagerImpl.writeAll_stored (c : Common) (ws : List (Int × List UInt8)) :
    ∀ d : VirtualDiskManagerImpl,
      (∀ w ∈ ws, 0 ≤ w.1 ∧ w.1 * c.PageSize < 2147483648 ∧ w.2.length = c.PageSize) →
      (ws.map Prod.fst).Nodup →
      ∀ w ∈ ws, (VirtualDiskManagerImpl.writeAll c d ws).storedPage c w.1 = w.2 := by
  induction ws with
  | nil => intro d _ _ w hw; cases hw
  | cons v rest ih =>
    obtain ⟨q, data⟩ := v
    intro d hws hnd w hw
    obtain ⟨hq0, hq1, hlen⟩ := hws (q, data) (List.mem_cons_self _ _)
    rw [List.map_cons, List.nodup_cons] at hnd
    simp only [VirtualDiskManagerImpl.writeAll]
    rcases List.mem_cons.mp hw with hw | hw
    · subst hw
      have h := VirtualDiskManagerImpl.storedPage_writePage_self c d q data hq0 hq1 hlen
      rw [VirtualDiskManagerImpl.writeAll_preserve c q hq0 hq1 rest _ h.2 (by
        intro w hw
        obtain ⟨a, b, l⟩ := hws w (List.mem_cons_of_mem _ hw)
        refine ⟨a, b, l, ?_⟩
        intro heq
        have hm : w.1 ∈ rest.map Prod.fst := List.mem_map_of_mem Prod.fst hw
        rw [heq] at hm
        exact hnd.1 hm)]
      exact h.1
    · exact ih _ (fun w hw => hws w (List.mem_cons_of_mem _ hw)) hnd.2 w hw

end SamehadaDB

namespace SamehadaDB

/-! ## FlushAllDirtyPages: the contract -/

theorem BufferPoolManager.dirtyPageIDs_mem (b : BufferPoolManager) (T : List (Int × Nat)) :
    (∀ k f, (k, f) ∈ T → ∃ pg, b.pages[f]? = some (some pg)) →
    ∃ ids, b.dirtyPageIDs T = some ids ∧
      ∀ id, id ∈ ids ↔
        ∃ (f : Nat) (pg : Page), (id, f) ∈ T ∧ b.pages[f]? = some (some pg) ∧
          pg.isDirty = true := by
  induction T with
  | nil =>
    intro _
    refine ⟨[], rfl, ?_⟩
    intro id
    constructor
    · intro h; cases h
    · rintro ⟨f, pg, h, _⟩; cases h
  | cons e T ih =>
    obtain ⟨k, f⟩ := e
    intro h
    obtain ⟨pg, hpg⟩ := h k f (List.mem_cons_self _ _)
    obtain ⟨ids1, hids1, hmem1⟩ := ih (fun k1 f1 h1 => h k1 f1 (List.mem_cons_of_mem _ h1))
    refine ⟨if pg.isDirty then k :: ids1 else ids1, ?_, ?_⟩
    · simp only [BufferPoolManager.dirtyPageIDs, hpg, hids1]
    · intro id
      cases hdirty : pg.isDirty with
      | true =>
        simp only [if_true, List.mem_cons]
        constructor
        · rintro (hk | hin)
          · exact ⟨f, pg, Or.inl (by rw [hk]), hpg, hdirty⟩
          · obtain ⟨f1, pg1, h1, h2, h3⟩ := (hmem1 id).mp hin
            exact ⟨f1, pg1, Or.inr h1, h2, h3⟩
        · rintro ⟨f1, pg1, h1, h2, h3⟩
          rcases h1 with h1 | h1
          · left
            exact (Prod.mk.inj h1).1
          · right
            exact (hmem1 id).mpr ⟨f1, pg1, h1, h2, h3⟩
      | false =>
        simp only [Bool.false_eq_true, if_false, List.mem_cons]
        constructor
        · intro hin
          obtain ⟨f1, pg1, h1, h2, h3⟩ := (hmem1 id).mp hin
          exact ⟨f1, pg1, Or.inr h1, h2, h3⟩
        · rintro ⟨f1, pg1, h1, h2, h3⟩
          rcases h1 with h1 | h1
          · have hf : f1 = f := (Prod.mk.inj h1).2
            rw [hf, hpg] at h2
            simp only [Option.some.injEq] at h2
            rw [← h2, hdirty] at h3
            cases h3
          · exact (hmem1 id).mpr ⟨f1, pg1, h1, h2, h3⟩

theorem BufferPoolManager.dirtyPageIDs_spec (b : BufferPoolManager) (hinv : b.Inv) :
    ∃ ids, b.dirtyPageIDs b.pageTable = some ids ∧ ids.Nodup ∧
      ∀ id, id ∈ ids ↔ ∃ pg, b.pageOf id = some pg ∧ pg.isDirty = true := by
  obtain ⟨ids, hids, hmem⟩ := BufferPoolManager.dirtyPageIDs_mem b b.pageTable (by
    intro k f h
    obtain ⟨pg, hpg, _⟩ := hinv.table k f h
    exact ⟨pg, hpg⟩)
  refine ⟨ids, hids,
    List.Nodup.sublist (BufferPoolManager.dirtyPageIDs_sublist b _ ids hids) hinv.keys, ?_⟩
  intro id
  rw [hmem id]
  constructor
  · rintro ⟨f, pg, h1, h2, h3⟩
    exact ⟨pg, (BufferPoolManager.pageOf_eq_some b id pg).mpr
      ⟨f, tableGet_of_mem _ _ _ hinv.keys h1, h2⟩, h3⟩
  · rintro ⟨pg, h1, h3⟩
    obtain ⟨f, hf, h2⟩ := (BufferPoolManager.pageOf_eq_some b id pg).mp h1
    exact ⟨f, pg, tableGet_mem _ _ _ hf, h2, h3⟩

/-- C15. On a pool that satisfies the pool invariant and whose frames hold pages of
`PageSize` bytes, `FlushAllDirtyPages()` (one caller) returns, and with `ids` the ids of
the resident pages that were dirty before the call (each once): the pager was handed
exactly the calls `WritePage(id, bytes of page id)` for the ids of `ids`, so a page that
was clean before the call is not written; every page resident afterwards has `is_dirty`
false and the bytes it had; the pages resident are the same ones, a page that was dirty
with its flag cleared (and its pin count one less), a clean page as it was; the directory
and the free list are unchanged; and when the ids of `ids` are from 0 with offsets
`id * PageSize` below 2^31, the bytes of each such page in the data file are the bytes of
its frame. -/
theorem flushAllDirtyPages_contract (c : Common) (b : BufferPoolManager) (hinv : b.Inv)
    (hsized : ∀ (f : Nat) (pg : Page), b.pages[f]? = some (some pg) →
      pg.data.length = c.PageSize) :
    ∃ ids : List Int,
      ids.Nodup ∧
      (∀ id, id ∈ ids ↔ ∃ pg, b.pageOf id = some pg ∧ pg.isDirty = true) ∧
      (b.FlushAllDirtyPages c).value = some () ∧
      (b.FlushAllDirtyPages c).state.events
        = b.events ++ ids.map (fun id => Event.writePage id (b.dataOf id)) ∧
      (b.FlushAllDirtyPages c).state.diskManager
        = VirtualDiskManagerImpl.writeAll c b.diskManager
            (ids.map (fun id => (id, b.dataOf id))) ∧
      (∀ (pid : Int) (pg : Page), (b.FlushAllDirtyPages c).state.pageOf pid = some pg →
        pg.isDirty = false ∧ pg.data = b.dataOf pid) ∧
      (∀ pid, (b.FlushAllDirtyPages c).state.pageOf pid
        = (b.pageOf pid).map (fun pg => if pg.isDirty then pg.flushed else pg)) ∧
      (b.FlushAllDirtyPages c).state.pageTable = b.pageTable ∧
      (b.FlushAllDirtyPages c).state.freeList = b.freeList ∧
      ((∀ id ∈ ids, 0 ≤ id ∧ id * c.PageSize < 2147483648) →
        ∀ id ∈ ids,
          (b.FlushAllDirtyPages c).state.diskManager.storedPage c id
            = (b.FlushAllDirtyPages c).state.dataOf id) := by
  obtain ⟨ids, hd, hnd, hmem⟩ := BufferPoolManager.dirtyPageIDs_spec b hinv
  have hres : ∀ id ∈ ids, ∃ pg, b.pageOf id = some pg ∧ pg.data.length = c.PageSize := by
    intro id hid
    obtain ⟨pg, hpg, _⟩ := (hmem id).mp hid
    obtain ⟨f, _, hfr⟩ := (BufferPoolManager.pageOf_eq_some b id pg).mp hpg
    exact ⟨pg, hpg, hsized f pg hfr⟩
  obtain ⟨b1, h1, hT, hF, hP, hE, hD⟩ := BufferPoolManager.flushEach_spec c ids b hinv hnd hres
  have hfl : b.FlushAllDirtyPages c = .ok b1 () := by
    unfold BufferPoolManager.FlushAllDirtyPages
    rw [hd]
    exact h1
  have hmap : ∀ pid, b1.pageOf pid
      = (b.pageOf pid).map (fun pg => if pg.isDirty then pg.flushed else pg) := by
    intro pid
    rw [hP pid]
    cases hpg : b.pageOf pid with
    | none => rfl
    | some pg =>
      simp only [Option.map_some', Option.some.injEq]
      by_cases hin : pid ∈ ids
      · obtain ⟨pg1, hpg1, hdirty⟩ := (hmem pid).mp hin
        rw [hpg] at hpg1
        simp only [Option.some.injEq] at hpg1
        rw [← hpg1] at hdirty
        simp only [hin, hdirty, if_true]
      · have hclean : ¬ (pg.isDirty = true) := fun h => hin ((hmem pid).mpr ⟨pg, hpg, h⟩)
        simp [hin, hclean]
  have hdata : ∀ pid, b1.dataOf pid = b.dataOf pid := by
    intro pid
    unfold BufferPoolManager.dataOf
    rw [hmap pid]
    cases b.pageOf pid with
    | none => rfl
    | some pg =>
      simp only [Option.map_some', Option.getD_some]
      split <;> rfl
  rw [hfl]
  simp only [Res.value, Res.state]
  refine ⟨ids, hnd, hmem, trivial, hE, hD, ?_, hmap, hT, hF, ?_⟩
  · intro pid pg hpg
    rw [hmap pid] at hpg
    cases hb : b.pageOf pid with
    | none => rw [hb] at hpg; cases hpg
    | some pg0 =>
      rw [hb] at hpg
      simp only [Option.map_some', Option.some.injEq] at hpg
      have hd0 : b.dataOf pid = pg0.data := by
        unfold BufferPoolManager.dataOf
        rw [hb]
        rfl
      rw [hd0, ← hpg]
      cases hdirty : pg0.isDirty with
      | true => simp [Page.flushed]
      | false => simp [hdirty]
  · intro hrange id hid
    rw [hD, hdata id]
    have hnd2 : ((ids.map (fun id => (id, b.dataOf id))).map Prod.fst).Nodup := by
      have e : (ids.map (fun i => (i, b.dataOf i))).map Prod.fst = ids := by
        simp [Function.comp_def]
      rw [e]
      exact hnd
    exact VirtualDiskManagerImpl.writeAll_stored c _ b.diskManager (by
      intro w hw
      obtain ⟨i, hi, hw⟩ := List.mem_map.mp hw
      rw [← hw]
      obtain ⟨pg, hpg, hlen⟩ := hres i hi
      have hdi : b.dataOf i = pg.data := by
        unfold BufferPoolManager.dataOf
        rw [hpg]
        rfl
      exact ⟨(hrange i hi).1, (hrange i hi).2, by rw [hdi]; exact hlen⟩) hnd2
      (id, b.dataOf id) (List.mem_map_of_mem _ hid)

theorem dirtyExample_inv : dirtyExample.Inv :=
  BufferPoolManager.run_inv tinyCommon _ _ (NewBufferPoolManager_inv 2 _)

theorem dirtyExample_sized (f : Nat) (pg : Page)
    (h : dirtyExample.pages[f]? = some (some pg)) : pg.data.length = tinyCommon.PageSize := by
  have hp : dirtyExample.pages
      = [some { id := 0, pinCount := 0, isDirty := true, data := [0, 0] },
         some { id := 1, pinCount := 1, isDirty := false, data := [0, 0] }] := by
    decide
  rw [hp] at h
  match f, h with
  | 0, h =>
    simp only [List.getElem?_cons_zero, Option.some.injEq] at h
    rw [← h]
    rfl
  | 1, h =>
    simp only [List.getElem?_cons_succ, List.getElem?_cons_zero, Option.some.injEq] at h
    rw [← h]
    rfl
  | n + 2, h =>
    simp at h

/-- Witness of C15: `FlushAllDirtyPages` on `dirtyExample` (page 0 dirty, page 1 clean)
returns, writes page 0 only, and leaves the bytes of page 0 in the data file. -/
theorem flushAllDirtyPages_contract_witness :
    ∃ ids : List Int,
      (∀ id, id ∈ ids ↔ ∃ pg, dirtyExample.pageOf id = some pg ∧ pg.isDirty = true) ∧
      (dirtyExample.FlushAllDirtyPages tinyCommon).value = some () ∧
      (dirtyExample.FlushAllDirtyPages tinyCommon).state.events
        = dirtyExample.events ++ ids.map (fun id => Event.writePage id (dirtyExample.dataOf id)) ∧
      (∀ (pid : Int) (pg : Page),
        (dirtyExample.FlushAllDirtyPages tinyCommon).state.pageOf pid = some pg →
        pg.isDirty = false ∧ pg.data = dirtyExample.dataOf pid) :=
  (flushAllDirtyPages_contract tinyCommon dirtyExample dirtyExample_inv
      dirtyExample_sized).elim
    (fun ids h => ⟨ids, h.2.1, h.2.2.1, h.2.2.2.1, h.2.2.2.2.2.1⟩)

end SamehadaDB

namespace SamehadaDB

/-! ## Tuple size -/

theorem addSizes_mod (values : List Value) (idxs : List Nat) :
    ∀ (acc r : Nat), acc < 4294967296 → addSizes values idxs acc = some r →
      r = (acc + unlinedSizes values idxs) % 4294967296 := by
  induction idxs with
  | nil =>
    intro acc r hacc h
    simp only [addSizes, Option.some.injEq] at h
    simp only [unlinedSizes, List.map_nil, List.sum_nil, Nat.add_zero]
    rw [← h, Nat.mod_eq_of_lt hacc]
  | cons i rest ih =>
    intro acc r _ h
    unfold addSizes at h
    cases hv : values[i]? with
    | none => rw [hv] at h; cases h
    | some v =>
      rw [hv] at h
      simp only at h
      have := ih _ r (Nat.mod_lt _ (by decide)) h
      rw [this]
      simp only [unlinedSizes, List.map_cons, List.sum_cons, hv]
      omega

theorem serializeColumns_length (values : List Value) (cols : List Column) :
    ∀ (i e : Nat) (d d1 : List UInt8), serializeColumns values cols i e d = some d1 →
      d1.length = d.length := by
  induction cols with
  | nil =>
    intro i e d d1 h
    simp only [serializeColumns, Option.some.injEq] at h
    rw [h]
  | cons col rest ih =>
    intro i e d d1 h
    unfold serializeColumns at h
    cases hv : values[i]? with
    | none => rw [hv] at h; cases h
    | some v =>
      rw [hv] at h
      simp only at h
      split at h
      · cases hc : copyAt d col.offset v.Serialize with
        | none => rw [hc] at h; cases h
        | some da =>
          rw [hc] at h
          rw [ih _ _ _ _ h, copyAt_length _ _ _ _ hc]
      · cases hc : copyAt d col.offset (le32 e) with
        | none => rw [hc] at h; cases h
        | some da =>
          rw [hc] at h
          simp only at h
          cases hc2 : copyAt da e v.Serialize with
          | none => rw [hc2] at h; cases h
          | some db =>
            rw [hc2] at h
            rw [ih _ _ _ _ h, copyAt_length _ _ _ _ hc2, copyAt_length _ _ _ _ hc]

theorem payloadSize_eq_unlinedSizes (values : List Value) (cols : List Column) :
    ∀ (i : Nat) (vs : List Value), values.drop i = vs → cols.length ≤ vs.length →
      payloadSize (cols.zip vs) = unlinedSizes values (unlinedFrom cols i) := by
  induction cols with
  | nil => intro i vs _ _; rfl
  | cons col rest ih =>
    intro i vs hdrop hlen
    cases vs with
    | nil => simp at hlen
    | cons v vs1 =>
      have hi : values[i]? = some v := by
        have := List.getElem?_drop values i 0
        rw [hdrop] at this
        simpa using this.symm
      have hdrop1 : values.drop (i + 1) = vs1 := by
        have : values.drop (i + 1) = (values.drop i).drop 1 := by
          rw [List.drop_drop]
        rw [this, hdrop]
        rfl
      have hlen1 : rest.length ≤ vs1.length := by simpa using hlen
      rw [List.zip_cons_cons, payloadSize_cons, ih (i + 1) vs1 hdrop1 hlen1]
      rw [show unlinedFrom (col :: rest) i
        = if col.isInlined then unlinedFrom rest (i + 1) else i :: unlinedFrom rest (i + 1)
        from rfl]
      cases hin : col.isInlined with
      | true => simp only [if_true, Nat.zero_add]
      | false =>
        simp only [Bool.false_eq_true, if_false, unlinedSizes, List.map_cons, List.sum_cons, hi]

end SamehadaDB

namespace SamehadaDB

/-- C21. For a well-formed schema and a value list that matches it: every tuple `t` that
`NewTupleFromSchema` builds has `t.Size()` equal to `schema.Length()` plus the sum of
`values[i].Size()` over the schema's unlined columns, taken in the 32-bit unsigned
arithmetic of the code, and `t.Size() == len(t.Data())`; and when that sum fits 32 bits a
tuple is built, and its size and the length of its bytes are exactly
`schema.Length()` plus the sum. -/
theorem tuple_size (values : List Value) (s : Schema) (hwf : s.WF) (hm : Matches values s) :
    (∀ t, NewTupleFromSchema values s = some t →
      t.Size = (s.length + unlinedSizes values s.unlinedColumns) % 4294967296 ∧
      t.Size = t.Data.length) ∧
    (s.length + unlinedSizes values s.unlinedColumns < 4294967296 →
      (NewTupleFromSchema values s).map Tuple.Size
        = some (s.length + unlinedSizes values s.unlinedColumns) ∧
      (NewTupleFromSchema values s).map (fun t => t.Data.length)
        = some (s.length + unlinedSizes values s.unlinedColumns)) := by
  constructor
  · intro t ht
    unfold NewTupleFromSchema at ht
    cases hadd : addSizes values s.unlinedColumns s.length with
    | none => rw [hadd] at ht; cases ht
    | some tupleSize =>
      rw [hadd] at ht
      simp only at ht
      cases hser : serializeColumns values s.columns 0 s.length (zeroBytes tupleSize) with
      | none => rw [hser] at ht; cases ht
      | some data =>
        rw [hser] at ht
        simp only [Option.some.injEq] at ht
        rw [← ht]
        simp only [Tuple.Size, Tuple.Data]
        refine ⟨addSizes_mod values _ _ _ hwf.2.2.2 hadd, ?_⟩
        rw [serializeColumns_length values _ _ _ _ _ hser]
        simp [zeroBytes]
  · intro hsize
    have hpay : payloadSize (s.columns.zip values) = unlinedSizes values s.unlinedColumns := by
      rw [hwf.2.2.1]
      exact payloadSize_eq_unlinedSizes values s.columns 0 values rfl (Nat.le_of_eq hm.1.symm)
    rw [← hpay] at hsize ⊢
    obtain ⟨data, hnew, hlen, _⟩ := NewTupleFromSchema_ok values s hwf hm hsize
    rw [hnew]
    simp only [Option.map_some', Tuple.Size, Tuple.Data, hlen, and_self]

/-- Witness of C21: the schema `[id:Integer, name:Varchar, score:Float]` with the values
`[42, "hello", 3.5]` gives a tuple of size `schema.length + 5`, which is the length of its
bytes. -/
theorem tuple_size_witness :
    (NewTupleFromSchema exampleValues exampleSchema).map Tuple.Size
      = some (exampleSchema.length + 5) ∧
    (NewTupleFromSchema exampleValues exampleSchema).map (fun t => t.Data.length)
      = some (exampleSchema.length + 5) :=
  (tuple_size exampleValues exampleSchema (by decide) (by decide)).2 (by decide)

end SamehadaDB

namespace SamehadaDB

/-! ## Layout of the unlined columns -/

theorem copyAt_slice_prefix (dst : List UInt8) (o : Nat) (src d1 : List UInt8)
    (h : copyAt dst o src = some d1) (k : Nat) (hk : k ≤ src.length)
    (hfit : o + k ≤ dst.length) : slice d1 o k = src.take k := by
  apply List.ext_getElem?
  intro j
  rw [slice_getElem?, List.getElem?_take]
  split
  · rw [copyAt_getElem? dst o src d1 h]
    have hc : o ≤ o + j ∧ o + j < o + src.length ∧ o + j < dst.length := by omega
    rw [if_pos hc]
    congr 1
    omega
  · rfl

/-- The loop leaves alone every stretch of bytes below the running end offset that meets
no fixed slot of the columns it handles. -/
theorem serializePairs_keeps (L : Nat) (ps : List (Column × Value)) :
    ∀ (e : Nat) (d d1 : List UInt8), PairsOK L ps → L ≤ e → e + payloadSize ps ≤ d.length →
      d.length < 4294967296 → serializePairs ps e d = some d1 →
      ∀ a k, a + k ≤ e →
        (∀ p ∈ ps, p.1.offset + p.1.fixedLength ≤ a ∨ a + k ≤ p.1.offset) →
        slice d1 a k = slice d a k := by
  induction ps with
  | nil =>
    intro e d d1 _ _ _ _ h a k _ _
    simp only [serializePairs, Option.some.injEq] at h
    rw [h]
  | cons p rest ih =>
    obtain ⟨col, v⟩ := p
    intro e d d1 hok hL hfit hsmall hser a k hak hdis
    have hhead := hok (col, v) (List.mem_cons_self _ _)
    have hrest : PairsOK L rest := fun q hq => hok q (List.mem_cons_of_mem _ hq)
    have hdh := hdis (col, v) (List.mem_cons_self _ _)
    have hdr : ∀ q ∈ rest, q.1.offset + q.1.fixedLength ≤ a ∨ a + k ≤ q.1.offset :=
      fun q hq => hdis q (List.mem_cons_of_mem _ hq)
    rw [payloadSize_cons] at hfit
    simp only at hhead hdh
    by_cases hin : col.isInlined = true
    · simp only [hin, if_true] at hhead hfit
      obtain ⟨da, hc⟩ : ∃ da, copyAt d col.offset v.Serialize = some da :=
        ⟨_, copyAt_some d col.offset v.Serialize (by omega)⟩
      have hl1 := copyAt_length _ _ _ _ hc
      simp only [serializePairs, hin, if_true, hc] at hser
      rw [ih e da d1 hrest hL (by rw [hl1]; omega) (by rw [hl1]; exact hsmall) hser a k hak hdr]
      exact copyAt_slice_disjoint _ _ _ _ hc a k (by omega)
    · simp only [hin, Bool.false_eq_true, if_false] at hhead hfit
      obtain ⟨da, hc⟩ : ∃ da, copyAt d col.offset (le32 e) = some da :=
        ⟨_, copyAt_some d col.offset (le32 e) (by omega)⟩
      have hl1 := copyAt_length _ _ _ _ hc
      obtain ⟨db, hc2⟩ : ∃ db, copyAt da e v.Serialize = some db :=
        ⟨_, copyAt_some da e v.Serialize (by rw [hl1]; omega)⟩
      have hl2 := copyAt_length _ _ _ _ hc2
      simp only [serializePairs, hin, Bool.false_eq_true, if_false, hc, hc2] at hser
      have he : (e + v.Size) % 4294967296 = e + v.Size := Nat.mod_eq_of_lt (by omega)
      rw [he] at hser
      rw [ih (e + v.Size) db d1 hrest (by omega) (by rw [hl2, hl1]; omega)
        (by rw [hl2, hl1]; exact hsmall) hser a k (by omega) hdr]
      rw [copyAt_slice_disjoint _ _ _ _ hc2 a k (by omega)]
      exact copyAt_slice_disjoint _ _ _ _ hc a k (by rw [le32_length]; omega)

/-- After the loop the fixed slot of an unlined column holds the end offset at which its
payload was copied, which is the start offset plus the sizes of the unlined columns before
it, and the `Size()` bytes from there on are the first `Size()` bytes of the serialized
value. -/
theorem serializePairs_unlined_slot (L : Nat) (ps : List (Column × Value)) :
    ∀ (e : Nat) (d d1 : List UInt8), PairsOK L ps →
      (∀ p ∈ ps, p.1.isInlined = false → p.2.Size ≤ p.2.Serialize.length) →
      L ≤ e → e + payloadSize ps ≤ d.length →
      d.length < 4294967296 → ps.Pairwise (fun p q => p.1.Apart q.1) →
      serializePairs ps e d = some d1 →
      ∀ (i : Nat) (col : Column) (v : Value), ps[i]? = some (col, v) → col.isInlined = false →
        slice d1 col.offset 4 = le32 (e + payloadSize (ps.take i)) ∧
        slice d1 (e + payloadSize (ps.take i)) v.Size = v.Serialize.take v.Size ∧
        payloadSize (ps.take i) + v.Size ≤ payloadSize ps := by
  induction ps with
  | nil =>
    intro e d d1 _ _ _ _ _ _ _ i col v hi _
    simp at hi
  | cons q rest ih =>
    obtain ⟨col0, v0⟩ := q
    intro e d d1 hok hsz hL hfit hsmall hpw hser i col v hi hunl
    have hhead := hok (col0, v0) (List.mem_cons_self _ _)
    have hrest : PairsOK L rest := fun q hq => hok q (List.mem_cons_of_mem _ hq)
    have hszr : ∀ p ∈ rest, p.1.isInlined = false → p.2.Size ≤ p.2.Serialize.length :=
      fun q hq => hsz q (List.mem_cons_of_mem _ hq)
    have hpw2 := List.pairwise_cons.mp hpw
    rw [payloadSize_cons] at hfit ⊢
    simp only at hhead
    by_cases hin : col0.isInlined = true
    · simp only [hin, if_true] at hhead hfit ⊢
      obtain ⟨da, hc⟩ : ∃ da, copyAt d col0.offset v0.Serialize = some da :=
        ⟨_, copyAt_some d col0.offset v0.Serialize (by omega)⟩
      have hl1 := copyAt_length _ _ _ _ hc
      simp only [serializePairs, hin, if_true, hc] at hser
      cases i with
      | zero =>
        simp only [List.getElem?_cons_zero, Option.some.injEq, Prod.mk.injEq] at hi
        rw [hi.1] at hin
        rw [hin] at hunl
        cases hunl
      | succ j =>
        simp only [List.getElem?_cons_succ] at hi
        have := ih e da d1 hrest hszr hL (by rw [hl1]; omega) (by rw [hl1]; exact hsmall)
          hpw2.2 hser j col v hi hunl
        simp only [List.take_succ_cons, payloadSize_cons, hin, if_true, Nat.zero_add]
        exact this
    · simp only [hin, Bool.false_eq_true, if_false] at hhead hfit ⊢
      have hin0 : col0.isInlined = false := by
        cases h : col0.isInlined with
        | true => exact absurd h hin
        | false => rfl
      obtain ⟨da, hc⟩ : ∃ da, copyAt d col0.offset (le32 e) = some da :=
        ⟨_, copyAt_some d col0.offset (le32 e) (by omega)⟩
      have hl1 := copyAt_length _ _ _ _ hc
      obtain ⟨db, hc2⟩ : ∃ db, copyAt da e v0.Serialize = some db :=
        ⟨_, copyAt_some da e v0.Serialize (by rw [hl1]; omega)⟩
      have hl2 := copyAt_length _ _ _ _ hc2
      simp only [serializePairs, hin, Bool.false_eq_true, if_false, hc, hc2] at hser
      have he : (e + v0.Size) % 4294967296 = e + v0.Size := Nat.mod_eq_of_lt (by omega)
      rw [he] at hser
      cases i with
      | zero =>
        simp only [List.getElem?_cons_zero, Option.some.injEq, Prod.mk.injEq] at hi
        obtain ⟨hcol, hval⟩ := hi
        subst hcol
        subst hval
        have hkeep := serializePairs_keeps L rest (e + v0.Size) db d1 hrest (by omega)
          (by rw [hl2, hl1]; omega) (by rw [hl2, hl1]; exact hsmall) hser
        simp only [List.take_zero, payloadSize, Nat.add_zero, Nat.zero_add]
        refine ⟨?_, ?_, Nat.le_add_right _ _⟩
        · rw [hkeep col0.offset 4 (by omega) (fun q hq => by
            have := hpw2.1 q hq
            simp only [Column.Apart] at this
            omega)]
          rw [copyAt_slice_disjoint _ _ _ _ hc2 col0.offset 4 (by omega)]
          have := copyAt_slice_self _ _ _ _ hc (by rw [le32_length]; omega)
          rw [le32_length] at this
          exact this
        · rw [hkeep e v0.Size (by omega) (fun q hq => by
            have := (hrest q hq).1
            omega)]
          exact copyAt_slice_prefix _ _ _ _ hc2 v0.Size
            (hsz (col0, v0) (List.mem_cons_self _ _) hin0) (by rw [hl1]; omega)
      | succ j =>
        simp only [List.getElem?_cons_succ] at hi
        have := ih (e + v0.Size) db d1 hrest hszr (by omega) (by rw [hl2, hl1]; omega)
          (by rw [hl2, hl1]; exact hsmall) hpw2.2 hser j col v hi hunl
        simp only [List.take_succ_cons, payloadSize_cons, hin, Bool.false_eq_true, if_false]
        refine ⟨?_, ?_, by omega⟩
        · rw [this.1]
          congr 1
          omega
        · rw [← this.2.1]
          congr 1
          omega

end SamehadaDB

namespace SamehadaDB

theorem payloadSize_take_succ (ps : List (Column × Value)) :
    ∀ (i : Nat) (col : Column) (v : Value), ps[i]? = some (col, v) →
      payloadSize (ps.take (i + 1))
        = payloadSize (ps.take i) + (if col.isInlined then 0 else v.Size) := by
  induction ps with
  | nil => intro i col v h; simp at h
  | cons p rest ih =>
    obtain ⟨col0, v0⟩ := p
    intro i col v h
    cases i with
    | zero =>
      simp only [List.getElem?_cons_zero, Option.some.injEq, Prod.mk.injEq] at h
      rw [h.1, h.2]
      simp only [List.take_succ_cons, List.take_zero, payloadSize, Nat.add_zero, Nat.zero_add]
    | succ j =>
      simp only [List.getElem?_cons_succ] at h
      rw [List.take_succ_cons, payloadSize_cons, ih j col v h, List.take_succ_cons,
        payloadSize_cons, Nat.add_assoc]

theorem unlined_size_le (values : List Value) (s : Schema) (hwf : s.WF)
    (hm : Matches values s) :
    ∀ p ∈ s.columns.zip values, p.1.isInlined = false → p.2.Size ≤ p.2.Serialize.length := by
  intro p hp hunl
  have hin := (hwf.1 p.1 (List.of_mem_zip hp).1).1
  have htype := (hm.2 p hp).2
  rw [hunl] at hin
  have hvar : p.1.columnType = TypeID.Varchar := by
    by_contra hne
    simp [hne] at hin
  rw [hvar] at htype
  cases hv : p.2 with
  | Integer n => rw [hv] at htype; cases htype
  | Float bits => rw [hv] at htype; cases htype
  | Boolean b => rw [hv] at htype; cases htype
  | Varchar str =>
    simp only [Value.Size, Value.Serialize, List.length_append, le32_length]
    omega

/-- C22. For a well-formed schema, a value list that matches it and a tuple size that fits
32 bits, `NewTupleFromSchema` builds a tuple in whose bytes, for the column `col` and the
value `v` of every index `i`: if the column is inlined, the serialized bytes of `v` are
stored at `col.offset`; if it is unlined, the 4 bytes at `col.offset` are the
little-endian unsigned number `schema.Length()` plus the sum of `Size()` of the unlined
columns before `i` in declaration order, the `v.Size()` bytes of the tuple from that
position on are the first `v.Size()` bytes of `v.Serialize()` and lie inside the tuple, and
the position of the next unlined column's payload is the end of this one: the payloads
follow the fixed part without a gap, in declaration order. -/
theorem unlined_layout (values : List Value) (s : Schema) (i : Nat) (col : Column)
    (v : Value) (hwf : s.WF) (hm : Matches values s)
    (hsize : s.length + payloadSize (s.columns.zip values) < 4294967296)
    (hcol : s.columns[i]? = some col) (hv : values[i]? = some v) :
    ∃ t, NewTupleFromSchema values s = some t ∧
      (col.isInlined = true → slice t.Data col.offset col.fixedLength = v.Serialize) ∧
      (col.isInlined = false →
        slice t.Data col.offset 4
          = le32 (s.length + payloadSize ((s.columns.zip values).take i)) ∧
        NewUInt32FromBytes (slice t.Data col.offset 4)
          = some (s.length + payloadSize ((s.columns.zip values).take i)) ∧
        slice t.Data (s.length + payloadSize ((s.columns.zip values).take i)) v.Size
          = v.Serialize.take v.Size ∧
        s.length + payloadSize ((s.columns.zip values).take i) + v.Size ≤ t.Data.length ∧
        payloadSize ((s.columns.zip values).take (i + 1))
          = payloadSize ((s.columns.zip values).take i) + v.Size) := by
  obtain ⟨data, hnew, hlen, hser⟩ := NewTupleFromSchema_ok values s hwf hm hsize
  have hzl : (zeroBytes (s.length + payloadSize (s.columns.zip values))).length
      = s.length + payloadSize (s.columns.zip values) := by simp [zeroBytes]
  have hok := pairsOK_of_wf values s hwf hm
  have hpw := pairwise_zip_of_wf values s hwf hm
  have hget : (s.columns.zip values)[i]? = some (col, v) :=
    List.getElem?_zip_eq_some.mpr ⟨hcol, hv⟩
  refine ⟨_, hnew, ?_, ?_⟩
  · intro hin
    exact serializePairs_inlined_slot s.length (s.columns.zip values) s.length _ data hok
      (Nat.le_refl _) (by rw [hzl]) (by rw [hzl]; exact hsize) hpw hser (col, v)
      (List.getElem?_mem hget) hin
  · intro hunl
    obtain ⟨h1, h2, h3⟩ := serializePairs_unlined_slot s.length (s.columns.zip values)
      s.length _ data hok (unlined_size_le values s hwf hm) (Nat.le_refl _) (by rw [hzl])
      (by rw [hzl]; exact hsize) hpw hser i col v hget hunl
    have hsucc := payloadSize_take_succ (s.columns.zip values) i col v hget
    simp only [hunl, Bool.false_eq_true, if_false] at hsucc
    simp only [Tuple.Data]
    refine ⟨h1, ?_, h2, by rw [hlen]; omega, hsucc⟩
    rw [h1]
    have := NewUInt32FromBytes_le32
      (s.length + payloadSize ((s.columns.zip values).take i)) [] (by omega)
    rw [List.append_nil] at this
    exact this

/-- Witness of C22: column 1 (`name`, unlined) of the schema `[id:Integer, name:Varchar,
score:Float]` with the values `[42, "hello", 3.5]`: the slot at offset 4 holds 12, the
length of the fixed part, and the 5 bytes from 12 on are the first 5 bytes of the
serialized varchar. -/
theorem unlined_layout_witness :
    ∃ t, NewTupleFromSchema exampleValues exampleSchema = some t ∧
      NewUInt32FromBytes (slice t.Data 4 4) = some 12 ∧
      slice t.Data 12 5 = [5, 0, 0, 0, 104] ∧
      12 + 5 ≤ t.Data.length :=
  (unlined_layout exampleValues exampleSchema 1
    { columnType := .Varchar, isInlined := false, offset := 4, fixedLength := 4 }
    (.Varchar [104, 101, 108, 108, 111]) (by decide) (by decide) (by decide) (by decide)
    (by decide)).elim
    (fun t h => ⟨t, h.1, (h.2.2 rfl).2.1, (h.2.2 rfl).2.2.1, (h.2.2 rfl).2.2.2.1⟩)

end SamehadaDB

namespace SamehadaDB

/-! ## Page offsets -/

/-- C23, the code at failing inputs. The product `pageId * common.PageSize` is taken in 32
bits before it is widened. With a page size of 4096, page id 1048576 has offset 0, not
4294967296: it addresses the bytes of page 0, so `WritePage(1048576, data)` leaves the
data file exactly as `WritePage(0, data)` does and `ReadPage` of either id reads the same
bytes; page id 524288 has the negative offset -2147483648. With a page size of 2, page id
1073741824 has that negative offset: the seek fails, and `WritePage` puts the bytes at
the position the file happens to have, here over page 0. -/
theorem pageOffset_wraps :
    pageOffset pageCommon 1048576 = 0 ∧ pageOffset pageCommon 0 = 0 ∧
    (1048576 : Int) * pageCommon.PageSize = 4294967296 ∧
    pageOffset pageCommon 524288 = -2147483648 ∧
    (∀ (d : VirtualDiskManagerImpl) (data : List UInt8),
      (d.WritePage pageCommon 1048576 data).state.db
        = (d.WritePage pageCommon 0 data).state.db ∧
      (d.ReadPage pageCommon 1048576 data).value = (d.ReadPage pageCommon 0 data).value) ∧
    pageOffset tinyCommon 1073741824 = -2147483648 ∧
    ((NewVirtualDiskManagerImpl tinyCommon [1, 2, 3, 4]).WritePage tinyCommon 1073741824
        [9, 9]).state.db.bytes = [9, 9, 3, 4] := by
  have h1 : pageOffset pageCommon 1048576 = 0 := by decide
  have h0 : pageOffset pageCommon 0 = 0 := by decide
  refine ⟨h1, h0, by decide, by decide, ?_, by decide, by decide⟩
  intro d data
  constructor
  · rw [VirtualDiskManagerImpl.writePage_db, VirtualDiskManagerImpl.writePage_db, h1, h0]
  · simp only [VirtualDiskManagerImpl.ReadPage, h1, h0]

end SamehadaDB

namespace SamehadaDB

/-! ## The pool as a cache of one page -/

theorem frame_of_set (l : List (Option Page)) (f g : Nat) (x : Option Page) (pg : Page)
    (h : (l.set f x)[g]? = some (some pg)) :
    (g = f ∧ x = some pg) ∨ (g ≠ f ∧ l[g]? = some (some pg)) := by
  by_cases hgf : f = g
  · subst hgf
    left
    rw [List.getElem?_set] at h
    simp only [if_true] at h
    split at h
    · simp only [Option.some.injEq] at h
      exact ⟨rfl, h⟩
    · cases h
  · right
    rw [List.getElem?_set_ne hgf] at h
    exact ⟨fun e => hgf e.symm, h⟩

theorem File.read_bytes (f : File) (n : Nat) : (f.Read n).2.bytes = f.bytes := by
  unfold File.Read
  split
  · rfl
  · simp only
    split <;> rfl

theorem File.seek_bytes (f : File) (o : Int) : (f.Seek o).bytes = f.bytes := by
  unfold File.Seek
  split <;> rfl

theorem VirtualDiskManagerImpl.readPage_bytes (c : Common) (d : VirtualDiskManagerImpl)
    (pid : Int) (buf : List UInt8) :
    (d.ReadPage c pid buf).state.db.bytes = d.db.bytes ∧
    (d.ReadPage c pid buf).state.nextPageID = d.nextPageID := by
  have hb := File.read_bytes (d.db.Seek (pageOffset c pid)) buf.length
  rw [File.seek_bytes] at hb
  unfold VirtualDiskManagerImpl.ReadPage
  simp only
  split
  · exact ⟨rfl, rfl⟩
  · split
    · rename_i db1 heq
      rw [heq] at hb
      exact ⟨hb, rfl⟩
    · rename_i got db1 heq
      rw [heq] at hb
      split
      · split
        · exact ⟨hb, rfl⟩
        · exact ⟨hb, rfl⟩
      · exact ⟨hb, rfl⟩

theorem VirtualDiskManagerImpl.writePage_state_nextPageID (c : Common)
    (d : VirtualDiskManagerImpl) (pid : Int) (data : List UInt8) :
    (d.WritePage c pid data).state.nextPageID = d.nextPageID := by
  unfold VirtualDiskManagerImpl.WritePage
  simp only
  split <;> rfl

theorem OnDisk.of_bytes {c : Common} {d d1 : VirtualDiskManagerImpl} {p : Int} {B : List UInt8}
    (h : OnDisk c d p B) (hb : d1.db.bytes = d.db.bytes) : OnDisk c d1 p B := by
  unfold OnDisk VirtualDiskManagerImpl.storedPage at *
  rw [hb]
  exact h

/-- A `WritePage` of a valid page with `PageSize` bytes leaves the bytes `B` of page `p` in
the data file, when a write of page `p` itself writes `B`. -/
theorem OnDisk.write {c : Common} {d : VirtualDiskManagerImpl} {p : Int} {B : List UInt8}
    (h : OnDisk c d p B) (hp : ValidID c p) (q : Int) (data : List UInt8) (hq : ValidID c q)
    (hlen : data.length = c.PageSize) (hsame : q = p → data = B) :
    OnDisk c (d.WritePage c q data).state p B := by
  by_cases hqp : q = p
  · subst hqp
    rw [← hsame rfl]
    exact VirtualDiskManagerImpl.storedPage_writePage_self c d q data hq.1 hq.2 hlen
  · have := VirtualDiskManagerImpl.storedPage_writePage_ne c d p q data hp.1 hp.2 hq.1 hq.2
      hqp hlen h.2
    exact ⟨this.1.trans h.1, this.2⟩

theorem OnDisk.write_self (c : Common) (d : VirtualDiskManagerImpl) (p : Int)
    (B : List UInt8) (hp : ValidID c p) (hlen : B.length = c.PageSize) :
    OnDisk c (d.WritePage c p B).state p B :=
  VirtualDiskManagerImpl.storedPage_writePage_self c d p B hp.1 hp.2 hlen

/-- A `ReadPage` of page `p` that returns no error returns the bytes the data file holds
as page `p`. -/
theorem OnDisk.read {c : Common} {d : VirtualDiskManagerImpl} {p : Int} {B : List UInt8}
    (h : OnDisk c d p B) (hp : ValidID c p) (buf data : List UInt8)
    (hbuf : buf.length = c.PageSize) (d1 : VirtualDiskManagerImpl)
    (hr : d.ReadPage c p buf = .ok d1 (none, data)) : data = B := by
  have h4 := (VirtualDiskManagerImpl.readPage_cases c d p buf (p * c.PageSize).toNat
    (pageOffset_of_range c p hp.1 hp.2) hbuf).2.2.2 h.2
  rw [hr] at h4
  simp only [Res.value, Option.some.injEq, Prod.mk.injEq, true_and] at h4
  rw [h4]
  exact h.1

end SamehadaDB

namespace SamehadaDB

/-- A call that replaces the page of frame `f` by one with the same id and bytes keeps
what the pool keeps about page `p`. -/
theorem Framed.update_frame {c : Common} {p : Int} {B : List UInt8} {k : Nat}
    {b : BufferPoolManager} (h : Framed c p B k b) (b1 : BufferPoolManager) (f : Nat)
    (pg pg1 : Page) (hinv : b1.Inv) (hfr : b.pages[f]? = some (some pg))
    (hpages : b1.pages = b.pages.set f (some pg1)) (htable : b1.pageTable = b.pageTable)
    (hid : pg1.id = pg.id) (hdata : pg1.data = pg.data)
    (hnext : b1.diskManager.nextPageID = b.diskManager.nextPageID) : Framed c p B k b1 := by
  refine ⟨hinv, ?_, ?_, h.pvalid, h.psize, by rw [hnext]; exact h.next,
    by rw [hnext]; exact h.budget⟩
  · intro g q hq
    rw [hpages] at hq
    rcases frame_of_set _ _ _ _ _ hq with ⟨_, hx⟩ | ⟨_, hx⟩
    · simp only [Option.some.injEq] at hx
      rw [← hx, hid, hdata]
      exact h.frames f pg hfr
    · exact h.frames g q hx
  · intro g q hq hqp
    rw [hpages] at hq
    rw [htable]
    rcases frame_of_set _ _ _ _ _ hq with ⟨hg, hx⟩ | ⟨_, hx⟩
    · simp only [Option.some.injEq] at hx
      rw [← hx, hid] at hqp
      rw [← hx, hdata, hg]
      exact h.copy f pg hfr hqp
    · exact h.copy g q hx hqp

/-- Such a call keeps the bytes of page `p` safe when it leaves the data file alone and
does not clear a dirty flag, or when it writes the page of frame `f` to the data file. -/
theorem Backed.after_update {c : Common} {p : Int} {B : List UInt8} {k : Nat} {strict : Bool}
    {b : BufferPoolManager} (h : Framed c p B k b) (hb : Backed c p B strict b)
    (b1 : BufferPoolManager) (f : Nat) (pg pg1 : Page)
    (hfr : b.pages[f]? = some (some pg))
    (hpages : b1.pages = b.pages.set f (some pg1)) (hid : pg1.id = pg.id)
    (hdisk : (b1.diskManager.db.bytes = b.diskManager.db.bytes ∧
        (pg.isDirty = true → pg1.isDirty = true)) ∨
      b1.diskManager = (b.diskManager.WritePage c pg.id pg.data).state) :
    Backed c p B strict b1 := by
  have hlt : f < b.pages.length := by
    rcases Nat.lt_or_ge f b.pages.length with hl | hl
    · exact hl
    · rw [List.getElem?_eq_none hl] at hfr; cases hfr
  have hself : b1.pages[f]? = some (some pg1) := by
    rw [hpages, List.getElem?_set_self hlt]
  have hother : ∀ g, g ≠ f → b1.pages[g]? = b.pages[g]? := by
    intro g hg
    rw [hpages, List.getElem?_set_ne (fun e => hg e.symm)]
  rcases hdisk with ⟨hbytes, hkeep⟩ | hwrite
  · rcases hb with hon | ⟨hs, g, q, hq, hqp, hqd⟩
    · exact Or.inl (hon.of_bytes hbytes)
    · right
      refine ⟨hs, ?_⟩
      by_cases hg : g = f
      · rw [hg, hfr] at hq
        simp only [Option.some.injEq] at hq
        rw [← hq] at hqp hqd
        exact ⟨f, pg1, hself, hid.trans hqp, hkeep hqd⟩
      · exact ⟨g, q, by rw [hother g hg]; exact hq, hqp, hqd⟩
  · obtain ⟨hlen, hvalid⟩ := h.frames f pg hfr
    rcases hb with hon | ⟨hs, g, q, hq, hqp, hqd⟩
    · left
      rw [hwrite]
      exact hon.write h.pvalid pg.id pg.data hvalid hlen (fun e => (h.copy f pg hfr e).1)
    · by_cases hpp : pg.id = p
      · left
        rw [hwrite, hpp, (h.copy f pg hfr hpp).1]
        exact OnDisk.write_self c _ p B h.pvalid (by rw [← (h.copy f pg hfr hpp).1]; exact hlen)
      · right
        refine ⟨hs, g, q, ?_, hqp, hqd⟩
        have hg : g ≠ f := by
          intro e
          rw [e, hfr] at hq
          simp only [Option.some.injEq] at hq
          rw [← hq] at hqp
          exact hpp hqp
        rw [hother g hg]
        exact hq

theorem BufferPoolManager.UnpinPage_cached (c : Common) (p : Int) (B : List UInt8) (k : Nat)
    (b b1 : BufferPoolManager) (q : Int) (d : Bool) (r : Bool) (h : Framed c p B k b)
    (hr : b.UnpinPage c q d = .ok b1 r) :
    Framed c p B k b1 ∧ (∀ strict, Backed c p B strict b → Backed c p B strict b1) ∧
      (q = p → d = true → tableGet b.pageTable p ≠ none → Backed c p B false b1) := by
  have hinv1 : b1.Inv := by
    have := BufferPoolManager.UnpinPage_inv c b q d h.inv
    rw [hr] at this
    exact this
  unfold BufferPoolManager.UnpinPage at hr
  split at hr
  · rename_i f hget
    split at hr
    · cases hr
    · cases hr
    · rename_i pg hfr
      obtain ⟨pg2, hpg2, hid, hdata, hdirty⟩ : ∃ pg2,
          pg2 = (if (pg.DecPinCount).isDirty || d then (pg.DecPinCount).SetIsDirty true
                 else (pg.DecPinCount).SetIsDirty false) ∧
          pg2.id = pg.id ∧ pg2.data = pg.data ∧ pg2.isDirty = (pg.isDirty || d) := by
        refine ⟨_, rfl, ?_, ?_, ?_⟩
        · split <;> rfl
        · split <;> rfl
        · cases hd1 : pg.isDirty <;> cases d <;>
            simp [Page.DecPinCount, Page.SetIsDirty, hd1]
      simp only [← hpg2, Res.ok.injEq] at hr
      obtain ⟨hb1, _⟩ := hr
      have hpages : b1.pages = b.pages.set f (some pg2) := by rw [← hb1]
      have htable : b1.pageTable = b.pageTable := by rw [← hb1]
      have hdm : b1.diskManager = b.diskManager := by rw [← hb1]
      have hfr1 := h.inv.table q f (tableGet_mem _ _ _ hget)
      obtain ⟨pg0, hpg0, hidq⟩ := hfr1
      have hlt : f < b.pages.length := by
        rcases Nat.lt_or_ge f b.pages.length with hl | hl
        · exact hl
        · rw [List.getElem?_eq_none hl] at hfr; cases hfr
      refine ⟨h.update_frame b1 f pg pg2 hinv1 hfr hpages htable hid hdata (by rw [hdm]), ?_, ?_⟩
      · intro strict hb
        exact Backed.after_update h hb b1 f pg pg2 hfr hpages hid
          (Or.inl ⟨by rw [hdm], fun hd => by rw [hdirty, hd]; rfl⟩)
      · intro hq hd _
        right
        rw [hfr] at hpg0
        simp only [Option.some.injEq] at hpg0
        refine ⟨rfl, f, pg2, by rw [hpages, List.getElem?_set_self hlt], ?_, ?_⟩
        · rw [hid, hpg0, hidq, hq]
        · rw [hdirty, hd, Bool.or_true]
  · rename_i hget
    split at hr
    · cases hr
    · simp only [Res.ok.injEq] at hr
      obtain ⟨hb1, _⟩ := hr
      subst hb1
      refine ⟨h, fun _ hb => hb, ?_⟩
      intro hq _ hne
      rw [hq] at hget
      exact absurd hget hne

end SamehadaDB

namespace SamehadaDB

theorem BufferPoolManager.FlushPage_cached (c : Common) (p : Int) (B : List UInt8) (k : Nat)
    (b b1 : BufferPoolManager) (q : Int) (r : Bool) (h : Framed c p B k b)
    (hr : b.FlushPage c q = .ok b1 r) :
    Framed c p B k b1 ∧ (∀ strict, Backed c p B strict b → Backed c p B strict b1) := by
  have hinv1 : b1.Inv := by
    have := BufferPoolManager.FlushPage_inv c b q h.inv
    rw [hr] at this
    exact this
  cases hget : tableGet b.pageTable q with
  | none =>
    simp only [BufferPoolManager.FlushPage, hget, Res.ok.injEq] at hr
    obtain ⟨hb1, _⟩ := hr
    subst hb1
    exact ⟨h, fun _ hb => hb⟩
  | some f =>
    obtain ⟨pg, hfr, hidq⟩ := h.inv.table q f (tableGet_mem _ _ _ hget)
    obtain ⟨hlen, _⟩ := h.frames f pg hfr
    rw [BufferPoolManager.FlushPage_resident c b q f pg hget hfr hlen] at hr
    simp only [Res.ok.injEq] at hr
    obtain ⟨hb1, _⟩ := hr
    have hpages : b1.pages = b.pages.set f (some pg.flushed) := by rw [← hb1]
    have htable : b1.pageTable = b.pageTable := by rw [← hb1]
    have hdm : b1.diskManager = (b.diskManager.WritePage c q pg.data).state := by rw [← hb1]
    refine ⟨h.update_frame b1 f pg pg.flushed hinv1 hfr hpages htable rfl rfl
      (by rw [hdm]; exact VirtualDiskManagerImpl.writePage_state_nextPageID c _ _ _), ?_⟩
    intro strict hb
    exact Backed.after_update h hb b1 f pg pg.flushed hfr hpages rfl (Or.inr (by rw [hdm, hidq]))

theorem BufferPoolManager.flushEach_cached (c : Common) (p : Int) (B : List UInt8) (k : Nat)
    (ids : List Int) :
    ∀ (b b1 : BufferPoolManager) (u : Unit), Framed c p B k b →
      b.flushEach c ids = .ok b1 u →
      Framed c p B k b1 ∧ (∀ strict, Backed c p B strict b → Backed c p B strict b1) := by
  induction ids with
  | nil =>
    intro b b1 u h hr
    simp only [BufferPoolManager.flushEach, Res.ok.injEq] at hr
    obtain ⟨hb1, _⟩ := hr
    subst hb1
    exact ⟨h, fun _ hb => hb⟩
  | cons q rest ih =>
    intro b b1 u h hr
    unfold BufferPoolManager.flushEach at hr
    cases hf : b.FlushPage c q with
    | panic b2 fl => rw [hf] at hr; cases hr
    | ok b2 r =>
      rw [hf] at hr
      simp only at hr
      obtain ⟨h2, hb2⟩ := BufferPoolManager.FlushPage_cached c p B k b b2 q r h hf
      obtain ⟨h3, hb3⟩ := ih b2 b1 u h2 hr
      exact ⟨h3, fun strict hb => hb3 strict (hb2 strict hb)⟩

theorem BufferPoolManager.DeletePage_cached (c : Common) (p : Int) (B : List UInt8) (k : Nat)
    (strict : Bool) (b b1 : BufferPoolManager) (q : Int) (u : Unit) (h : Framed c p B k b)
    (hb : Backed c p B strict b) (hq : strict = false → q ≠ p)
    (hr : b.DeletePage q = .ok b1 u) :
    Framed c p B k b1 ∧ Backed c p B strict b1 := by
  have hinv1 : b1.Inv := by
    have := BufferPoolManager.DeletePage_inv b q h.inv
    rw [hr] at this
    exact this
  cases hget : tableGet b.pageTable q with
  | none =>
    simp only [BufferPoolManager.DeletePage, hget, Res.ok.injEq] at hr
    obtain ⟨hb1, _⟩ := hr
    subst hb1
    exact ⟨h, hb⟩
  | some f =>
    obtain ⟨pg, hfr, hidq⟩ := h.inv.table q f (tableGet_mem _ _ _ hget)
    simp only [BufferPoolManager.DeletePage, hget, hfr, hidq, if_true] at hr
    split at hr
    · cases hr
    · simp only [Res.ok.injEq] at hr
      obtain ⟨hb1, _⟩ := hr
      have hpages : b1.pages = b.pages.set f none := by rw [← hb1]
      have htable : b1.pageTable = tableDelete b.pageTable q := by rw [← hb1]
      have hdm : b1.diskManager = b.diskManager := by rw [← hb1]; rfl
      constructor
      · refine ⟨hinv1, ?_, ?_, h.pvalid, h.psize, by rw [hdm]; exact h.next,
          by rw [hdm]; exact h.budget⟩
        · intro g x hx
          rw [hpages] at hx
          rcases frame_of_set _ _ _ _ _ hx with ⟨_, hn⟩ | ⟨_, hx1⟩
          · cases hn
          · exact h.frames g x hx1
        · intro g x hx hxp
          rw [hpages] at hx
          rcases frame_of_set _ _ _ _ _ hx with ⟨_, hn⟩ | ⟨hg, hx1⟩
          · cases hn
          · obtain ⟨hd, ht⟩ := h.copy g x hx1 hxp
            refine ⟨hd, ?_⟩
            have hne : p ≠ q := by
              intro e
              rw [e, hget] at ht
              simp only [Option.some.injEq] at ht
              exact hg ht.symm
            rw [htable, tableGet_tableDelete_ne _ _ _ hne]
            exact ht
      · rcases hb with hon | ⟨hs, g, x, hx, hxp, hxd⟩
        · exact Or.inl (by rw [hdm]; exact hon)
        · right
          refine ⟨hs, g, x, ?_, hxp, hxd⟩
          have hg : g ≠ f := by
            intro e
            rw [e, hfr] at hx
            simp only [Option.some.injEq] at hx
            rw [← hx, hidq] at hxp
            exact hq hs hxp
          rw [hpages, List.getElem?_set_ne (fun e => hg e.symm)]
          exact hx

end SamehadaDB

namespace SamehadaDB

/-- What the block that takes a frame and removes its page leaves: the frames are the
same; a frame other than `f` that holds page `p` is still the frame of its directory
entry; the bytes of page `p` are safe, in the data file or in a dirty frame other
than `f`. -/
theorem BufferPoolManager.removePhase_cached (c : Common) (p : Int) (B : List UInt8)
    (k : Nat) (strict : Bool) (b b1 b2 : BufferPoolManager) (f : Nat) (fromFree : Bool)
    (u : Unit) (h : Framed c p B k b) (hb : Backed c p B strict b)
    (hg : b.getFrameID = (some f, fromFree, b1))
    (hr : (if fromFree then Res.ok b1 () else b1.removeCurrent c f) = .ok b2 u) :
    b2.pages = b.pages ∧
    (∀ (g : Nat) (x : Page), g ≠ f → b.pages[g]? = some (some x) → x.id = p →
      tableGet b2.pageTable p = some g) ∧
    (OnDisk c b2.diskManager p B ∨
      (strict = false ∧ ∃ (g : Nat) (x : Page), g ≠ f ∧ b.pages[g]? = some (some x) ∧
        x.id = p ∧ x.isDirty = true)) := by
  obtain ⟨hp1, ht1, _, hd1⟩ := BufferPoolManager.getFrameID_pages b b1 _ _ hg
  have hsame : ∀ (b3 : BufferPoolManager), b3.pages = b.pages → b3.pageTable = b.pageTable →
      b3.diskManager = b.diskManager → (∀ x, b.pages[f]? ≠ some (some x)) →
      b3.pages = b.pages ∧
      (∀ (g : Nat) (x : Page), g ≠ f → b.pages[g]? = some (some x) → x.id = p →
        tableGet b3.pageTable p = some g) ∧
      (OnDisk c b3.diskManager p B ∨
        (strict = false ∧ ∃ (g : Nat) (x : Page), g ≠ f ∧ b.pages[g]? = some (some x) ∧
          x.id = p ∧ x.isDirty = true)) := by
    intro b3 hp3 ht3 hd3 hempty
    refine ⟨hp3, ?_, ?_⟩
    · intro g x _ hx hxp
      rw [ht3]
      exact (h.copy g x hx hxp).2
    · rcases hb with hon | ⟨hs, g, x, hx, hxp, hxd⟩
      · exact Or.inl (by rw [hd3]; exact hon)
      · right
        refine ⟨hs, g, x, ?_, hx, hxp, hxd⟩
        intro e
        rw [e] at hx
        exact hempty x hx
  cases fromFree with
  | true =>
    simp only [if_true, Res.ok.injEq] at hr
    obtain ⟨hb2, _⟩ := hr
    subst hb2
    have hfree := h.inv.free f (BufferPoolManager.getFrameID_fromFree b b1 f hg)
    exact hsame b1 hp1 ht1 hd1 (fun x hx => by rw [hfree] at hx; cases hx)
  | false =>
    simp only [Bool.false_eq_true, if_false] at hr
    unfold BufferPoolManager.removeCurrent at hr
    rw [hp1] at hr
    cases hfr : b.pages[f]? with
    | none => rw [hfr] at hr; cases hr
    | some o =>
      cases o with
      | none =>
        rw [hfr] at hr
        simp only [Res.ok.injEq] at hr
        obtain ⟨hb2, _⟩ := hr
        subst hb2
        exact hsame b1 hp1 ht1 hd1 (fun x hx => by rw [hfr] at hx; cases hx)
      | some cur =>
        rw [hfr] at hr
        simp only at hr
        obtain ⟨hlen, hvalid⟩ := h.frames f cur hfr
        have hcur : ∀ (g : Nat) (x : Page), g ≠ f → b.pages[g]? = some (some x) → x.id = p →
            tableGet (tableDelete b1.pageTable cur.id) p = some g := by
          intro g x hgf hx hxp
          have ht := (h.copy g x hx hxp).2
          have hne : p ≠ cur.id := by
            intro e
            have := (h.copy f cur hfr e.symm).2
            rw [ht] at this
            simp only [Option.some.injEq] at this
            exact hgf this
          rw [tableGet_tableDelete_ne _ _ _ hne, ht1]
          exact ht
        split at hr
        · rename_i hdirty
          have hw : b1.diskManager.WritePage c cur.id cur.data
              = .ok (b1.diskManager.WritePage c cur.id cur.data).state () := by
            simp only [VirtualDiskManagerImpl.WritePage, hlen, ne_eq, not_true_eq_false,
              if_false, Res.state]
          rw [hw] at hr
          simp only [Res.ok.injEq] at hr
          obtain ⟨hb2, _⟩ := hr
          have hp2 : b2.pages = b.pages := by rw [← hb2]
          have ht2 : b2.pageTable = tableDelete b1.pageTable cur.id := by rw [← hb2]
          have hd2 : b2.diskManager = (b.diskManager.WritePage c cur.id cur.data).state := by
            rw [← hb2, ← hd1]
          refine ⟨hp2, fun g x a1 a2 a3 => by rw [ht2]; exact hcur g x a1 a2 a3, ?_⟩
          rcases hb with hon | ⟨hs, g, x, hx, hxp, hxd⟩
          · left
            rw [hd2]
            exact hon.write h.pvalid cur.id cur.data hvalid hlen
              (fun e => (h.copy f cur hfr e).1)
          · by_cases hgf : g = f
            · left
              rw [hgf, hfr] at hx
              simp only [Option.some.injEq] at hx
              rw [← hx] at hxp
              rw [hd2, hxp, (h.copy f cur hfr hxp).1]
              exact OnDisk.write_self c _ p B h.pvalid
                (by rw [← (h.copy f cur hfr hxp).1]; exact hlen)
            · exact Or.inr ⟨hs, g, x, hgf, hx, hxp, hxd⟩
        · rename_i hclean
          simp only [Res.ok.injEq] at hr
          obtain ⟨hb2, _⟩ := hr
          have hp2 : b2.pages = b.pages := by rw [← hb2]
          have ht2 : b2.pageTable = tableDelete b1.pageTable cur.id := by rw [← hb2]
          have hd2 : b2.diskManager = b.diskManager := by rw [← hb2]; exact hd1
          refine ⟨hp2, fun g x a1 a2 a3 => by rw [ht2]; exact hcur g x a1 a2 a3, ?_⟩
          rcases hb with hon | ⟨hs, g, x, hx, hxp, hxd⟩
          · exact Or.inl (by rw [hd2]; exact hon)
          · right
            refine ⟨hs, g, x, ?_, hx, hxp, hxd⟩
            intro e
            rw [e, hfr] at hx
            simp only [Option.some.injEq] at hx
            rw [← hx] at hxd
            exact hclean hxd

end SamehadaDB

namespace SamehadaDB

/-- Putting a page `pgN` with id `qn` into the frame `f` that the removal block has
cleared keeps what the pool keeps about page `p`. -/
theorem BufferPoolManager.install_cached (c : Common) (p : Int) (B : List UInt8)
    (k k1 : Nat) (strict : Bool) (b b2 b1 : BufferPoolManager) (f : Nat) (qn : Int)
    (pgN : Page) (h : Framed c p B k b) (hp2 : b2.pages = b.pages)
    (hcopy2 : ∀ (g : Nat) (x : Page), g ≠ f → b.pages[g]? = some (some x) → x.id = p →
      tableGet b2.pageTable p = some g)
    (hback2 : OnDisk c b2.diskManager p B ∨
      (strict = false ∧ ∃ (g : Nat) (x : Page), g ≠ f ∧ b.pages[g]? = some (some x) ∧
        x.id = p ∧ x.isDirty = true))
    (hinv1 : b1.Inv) (hpages : b1.pages = b2.pages.set f (some pgN))
    (htable : b1.pageTable = tableSet b2.pageTable qn f) (hpgid : pgN.id = qn)
    (hlen : pgN.data.length = c.PageSize) (hvalid : ValidID c qn)
    (hmiss : qn = p → tableGet b.pageTable p = none)
    (hdataB : qn = p → OnDisk c b2.diskManager p B → pgN.data = B)
    (hdisk : OnDisk c b2.diskManager p B → OnDisk c b1.diskManager p B)
    (hnext : p < b1.diskManager.nextPageID)
    (hbudget : (b1.diskManager.nextPageID + k1) * c.PageSize < 2147483648) :
    Framed c p B k1 b1 ∧ Backed c p B strict b1 := by
  have hnone : qn = p → ∀ (g : Nat) (x : Page), b.pages[g]? = some (some x) → x.id ≠ p := by
    intro e g x hx hxp
    have := (h.copy g x hx hxp).2
    rw [hmiss e] at this
    cases this
  have hon2 : qn = p → OnDisk c b2.diskManager p B := by
    intro e
    rcases hback2 with hon | ⟨_, g, x, _, hx, hxp, _⟩
    · exact hon
    · exact absurd hxp (hnone e g x hx)
  rw [hp2] at hpages
  constructor
  · refine ⟨hinv1, ?_, ?_, h.pvalid, h.psize, hnext, hbudget⟩
    · intro g x hx
      rw [hpages] at hx
      rcases frame_of_set _ _ _ _ _ hx with ⟨_, hn⟩ | ⟨_, hx1⟩
      · simp only [Option.some.injEq] at hn
        rw [← hn, hpgid]
        exact ⟨hlen, hvalid⟩
      · exact h.frames g x hx1
    · intro g x hx hxp
      rw [hpages] at hx
      rcases frame_of_set _ _ _ _ _ hx with ⟨hg, hn⟩ | ⟨hg, hx1⟩
      · simp only [Option.some.injEq] at hn
        rw [← hn, hpgid] at hxp
        rw [← hn, hg, htable, ← hxp]
        exact ⟨hdataB hxp (hon2 hxp), tableGet_tableSet_self _ _ _⟩
      · have hne : p ≠ qn := fun e => hnone e.symm g x hx1 hxp
        rw [htable, tableGet_tableSet_ne _ _ _ _ hne]
        exact ⟨(h.copy g x hx1 hxp).1, hcopy2 g x hg hx1 hxp⟩
  · rcases hback2 with hon | ⟨hs, g, x, hg, hx, hxp, hxd⟩
    · exact Or.inl (hdisk hon)
    · right
      refine ⟨hs, g, x, ?_, hxp, hxd⟩
      rw [hpages, List.getElem?_set_ne (fun e => hg e.symm)]
      exact hx

theorem Framed.of_same {c : Common} {p : Int} {B : List UInt8} {k : Nat}
    {b : BufferPoolManager} (h : Framed c p B k b) (b1 : BufferPoolManager) (hinv : b1.Inv)
    (hpages : b1.pages = b.pages) (htable : b1.pageTable = b.pageTable)
    (hnext : b1.diskManager.nextPageID = b.diskManager.nextPageID) : Framed c p B k b1 := by
  refine ⟨hinv, ?_, ?_, h.pvalid, h.psize, by rw [hnext]; exact h.next,
    by rw [hnext]; exact h.budget⟩
  · intro g x hx
    rw [hpages] at hx
    exact h.frames g x hx
  · intro g x hx hxp
    rw [hpages] at hx
    rw [htable]
    exact h.copy g x hx hxp

theorem Backed.of_frames {c : Common} {p : Int} {B : List UInt8} {strict : Bool}
    {b : BufferPoolManager} (hb : Backed c p B strict b) (b1 : BufferPoolManager)
    (hpages : b1.pages = b.pages)
    (hbytes : b1.diskManager.db.bytes = b.diskManager.db.bytes) : Backed c p B strict b1 := by
  rcases hb with hon | ⟨hs, g, x, hx, hxp, hxd⟩
  · exact Or.inl (hon.of_bytes hbytes)
  · exact Or.inr ⟨hs, g, x, by rw [hpages]; exact hx, hxp, hxd⟩

theorem Framed.weaken {c : Common} {p : Int} {B : List UInt8} {k : Nat}
    {b : BufferPoolManager} (h : Framed c p B (k + 1) b) : Framed c p B k b := by
  refine ⟨h.inv, h.frames, h.copy, h.pvalid, h.psize, h.next, ?_⟩
  have hb := h.budget
  have hps : (0 : Int) ≤ (c.PageSize : Int) := Int.ofNat_nonneg _
  have hle : (b.diskManager.nextPageID + (k : Int)) * (c.PageSize : Int)
      ≤ (b.diskManager.nextPageID + ((k + 1 : Nat) : Int)) * (c.PageSize : Int) :=
    Int.mul_le_mul_of_nonneg_right (by push_cast; omega) hps
  exact Int.lt_of_le_of_lt hle hb

end SamehadaDB

namespace SamehadaDB

theorem mul_pageSize_lt (a b : Int) (s : Nat) (hab : a ≤ b) (h : b * s < 2147483648) :
    a * s < 2147483648 :=
  Int.lt_of_le_of_lt (Int.mul_le_mul_of_nonneg_right hab (Int.ofNat_nonneg s)) h

theorem lt_of_mul_pageSize (a : Int) (s : Nat) (hs : 0 < s) (ha : 0 ≤ a)
    (h : a * s < 2147483648) : a < 2147483648 := by
  have h1 : a * 1 ≤ a * (s : Int) :=
    Int.mul_le_mul_of_nonneg_left (by exact_mod_cast hs) ha
  rw [Int.mul_one] at h1
  exact Int.lt_of_le_of_lt h1 h

theorem BufferPoolManager.FetchPage_cached (c : Common) (p : Int) (B : List UInt8) (k : Nat)
    (strict : Bool) (b b1 : BufferPoolManager) (q : Int) (r : Option Page)
    (h : Framed c p B k b) (hb : Backed c p B strict b) (hq : ValidID c q)
    (hr : b.FetchPage c q = .ok b1 r) :
    Framed c p B k b1 ∧ Backed c p B strict b1 ∧
      (q = p → ∀ pg1, r = some pg1 → pg1.data = B) := by
  have hinv1 : b1.Inv := by
    have := BufferPoolManager.FetchPage_inv c b q h.inv
    rw [hr] at this
    exact this
  cases hget : tableGet b.pageTable q with
  | some f =>
    obtain ⟨pg, hfr, hidq⟩ := h.inv.table q f (tableGet_mem _ _ _ hget)
    simp only [BufferPoolManager.FetchPage, hget, hfr, Res.ok.injEq] at hr
    obtain ⟨hb1, hr1⟩ := hr
    have hpages : b1.pages = b.pages.set f (some pg.IncPinCount) := by rw [← hb1]
    have htable : b1.pageTable = b.pageTable := by rw [← hb1]
    have hdm : b1.diskManager = b.diskManager := by rw [← hb1]
    refine ⟨h.update_frame b1 f pg pg.IncPinCount hinv1 hfr hpages htable rfl rfl (by rw [hdm]),
      Backed.after_update h hb b1 f pg pg.IncPinCount hfr hpages rfl
        (Or.inl ⟨by rw [hdm], fun hd => hd⟩), ?_⟩
    intro hqp pg1 hpg1
    rw [← hr1] at hpg1
    simp only [Option.some.injEq] at hpg1
    rw [← hpg1]
    exact (h.copy f pg hfr (hidq.trans hqp)).1
  | none =>
    simp only [BufferPoolManager.FetchPage, hget] at hr
    rcases hgf : b.getFrameID with ⟨fr, fromFree, b0⟩
    rw [hgf] at hr
    obtain ⟨hp0, ht0, _, hd0⟩ := BufferPoolManager.getFrameID_pages b b0 _ _ hgf
    cases fr with
    | none =>
      simp only [Res.ok.injEq] at hr
      obtain ⟨hb1, hr1⟩ := hr
      subst hb1
      refine ⟨h.of_same b0 hinv1 hp0 ht0 (by rw [hd0]), hb.of_frames b0 hp0 (by rw [hd0]), ?_⟩
      intro _ pg1 hpg1
      rw [← hr1] at hpg1
      cases hpg1
    | some f =>
      simp only at hr
      cases hrem : (if fromFree then Res.ok b0 () else b0.removeCurrent c f) with
      | panic b2 fl => rw [hrem] at hr; cases hr
      | ok b2 u =>
        rw [hrem] at hr
        simp only at hr
        obtain ⟨hp2, hcopy2, hback2⟩ := BufferPoolManager.removePhase_cached c p B k strict
          b b0 b2 f fromFree u h hb hgf hrem
        have hn2 := (BufferPoolManager.removePhase_pin c b b0 b2 f fromFree u hgf hrem).2
        have hzl : (zeroBytes c.PageSize).length = c.PageSize := by simp [zeroBytes]
        cases hread : b2.diskManager.ReadPage c q (zeroBytes c.PageSize) with
        | panic d fl => rw [hread] at hr; cases hr
        | ok d res =>
          obtain ⟨e, data⟩ := res
          have hst := VirtualDiskManagerImpl.readPage_bytes c b2.diskManager q
            (zeroBytes c.PageSize)
          rw [hread] at hr hst
          simp only [Res.state] at hst
          have hdlen := VirtualDiskManagerImpl.readPage_length c _ _ q _ data e hzl hread
          cases e with
          | some err => cases hr
          | none =>
            simp only at hr
            split at hr
            · simp only [Res.ok.injEq] at hr
              obtain ⟨hb1, hr1⟩ := hr
              have hpages : b1.pages
                  = b2.pages.set f (some (Page.New q false (toPageArray c data))) := by
                rw [← hb1]
              have htable : b1.pageTable = tableSet b2.pageTable q f := by rw [← hb1]
              have hdm : b1.diskManager = d := by rw [← hb1]
              have hpa : toPageArray c data = data := toPageArray_of_length c data hdlen
              have hres := BufferPoolManager.install_cached c p B k k strict b b2 b1 f q
                (Page.New q false (toPageArray c data)) h hp2 hcopy2 hback2 hinv1 hpages
                htable rfl (by rw [hpa]; exact hdlen) hq
                (fun e => by rw [← e]; exact hget)
                (fun e hon => by
                  rw [e] at hread
                  show toPageArray c data = B
                  rw [hpa]
                  exact hon.read h.pvalid _ data hzl d hread)
                (fun hon => by rw [hdm]; exact hon.of_bytes hst.1)
                (by rw [hdm, hst.2, hn2]; exact h.next)
                (by rw [hdm, hst.2, hn2]; exact h.budget)
              refine ⟨hres.1, hres.2, ?_⟩
              intro hqp pg1 hpg1
              rw [← hr1] at hpg1
              simp only [Option.some.injEq] at hpg1
              have hlt : f < b.pages.length := by
                rename_i hlt2
                rw [← hp2]
                exact hlt2
              have hself : b1.pages[f]? = some (some (Page.New q false (toPageArray c data))) := by
                rw [hpages, hp2, List.getElem?_set_self hlt]
              rw [← hpg1]
              exact (hres.1.copy f _ hself hqp).1
            · cases hr

end SamehadaDB

namespace SamehadaDB

theorem BufferPoolManager.NewPage_cached (c : Common) (p : Int) (B : List UInt8) (k : Nat)
    (strict : Bool) (b b1 : BufferPoolManager) (r : Option Page)
    (h : Framed c p B (k + 1) b) (hb : Backed c p B strict b)
    (hr : b.NewPage c = .ok b1 r) :
    Framed c p B k b1 ∧ Backed c p B strict b1 := by
  have hinv1 : b1.Inv := by
    have := BufferPoolManager.NewPage_inv c b h.inv
    rw [hr] at this
    exact this
  unfold BufferPoolManager.NewPage at hr
  rcases hgf : b.getFrameID with ⟨fr, fromFree, b0⟩
  rw [hgf] at hr
  obtain ⟨hp0, ht0, _, hd0⟩ := BufferPoolManager.getFrameID_pages b b0 _ _ hgf
  cases fr with
  | none =>
    simp only [Res.ok.injEq] at hr
    obtain ⟨hb1, _⟩ := hr
    subst hb1
    exact ⟨(h.of_same b0 hinv1 hp0 ht0 (by rw [hd0])).weaken, hb.of_frames b0 hp0 (by rw [hd0])⟩
  | some f =>
    simp only at hr
    cases hrem : (if fromFree then Res.ok b0 () else b0.removeCurrent c f) with
    | panic b2 fl => rw [hrem] at hr; cases hr
    | ok b2 u =>
      rw [hrem] at hr
      simp only [VirtualDiskManagerImpl.allocatePage_eq] at hr
      obtain ⟨hp2, hcopy2, hback2⟩ := BufferPoolManager.removePhase_cached c p B (k + 1)
        strict b b0 b2 f fromFree u h hb hgf hrem
      have hn2 := (BufferPoolManager.removePhase_pin c b b0 b2 f fromFree u hgf hrem).2
      have hzl : (zeroBytes c.PageSize).length = c.PageSize := by simp [zeroBytes]
      have hbud := h.budget
      have hnx := h.next
      have hp0le := h.pvalid.1
      have hn0 : 0 ≤ b.diskManager.nextPageID := by omega
      have hvalid : ValidID c b.diskManager.nextPageID :=
        ⟨hn0, mul_pageSize_lt _ _ _ (by push_cast; omega) hbud⟩
      have hlt31 : b.diskManager.nextPageID + 1 < 2147483648 := by
        have := lt_of_mul_pageSize _ c.PageSize h.psize (by push_cast; omega) hbud
        push_cast at this
        omega
      have hwrap : wrap32 (b.diskManager.nextPageID + 1) = b.diskManager.nextPageID + 1 :=
        wrap32_of_range _ (by omega) hlt31
      split at hr
      · simp only [Res.ok.injEq] at hr
        obtain ⟨hb1, _⟩ := hr
        have hpages : b1.pages
            = b2.pages.set f (some (Page.NewEmpty c b2.diskManager.nextPageID)) := by
          rw [← hb1]
        have htable : b1.pageTable = tableSet b2.pageTable b2.diskManager.nextPageID f := by
          rw [← hb1]
        have hbytes : b1.diskManager.db.bytes
            = (b2.diskManager.WritePage c b2.diskManager.nextPageID
                (zeroBytes c.PageSize)).state.db.bytes := by
          rw [← hb1, VirtualDiskManagerImpl.writePage_db]
        have hnext1 : b1.diskManager.nextPageID = wrap32 (b2.diskManager.nextPageID + 1) := by
          rw [← hb1]
        rw [hn2] at hpages htable hbytes hnext1
        rw [hwrap] at hnext1
        exact BufferPoolManager.install_cached c p B (k + 1) k strict b b2 b1 f
          b.diskManager.nextPageID (Page.NewEmpty c b.diskManager.nextPageID) h hp2 hcopy2
          hback2 hinv1 hpages htable rfl hzl hvalid
          (fun e => by omega) (fun e => by omega)
          (fun hon => (hon.write h.pvalid _ _ hvalid hzl (fun e => by omega)).of_bytes hbytes)
          (by rw [hnext1]; omega)
          (by
            rw [hnext1]
            have e : b.diskManager.nextPageID + 1 + (k : Int)
                = b.diskManager.nextPageID + ((k + 1 : Nat) : Int) := by
              push_cast; omega
            rw [e]
            exact hbud)
      · cases hr

end SamehadaDB

namespace SamehadaDB

theorem BufferPoolManager.step_cached (c : Common) (p : Int) (B : List UInt8) (k : Nat)
    (strict : Bool) (b b1 : BufferPoolManager) (op : Op) (u : Unit)
    (h : Framed c p B (k + 1) b) (hb : Backed c p B strict b) (hop : op.Admitted c)
    (hdel : strict = false → op ≠ Op.deletePage p) (hr : b.step c op = .ok b1 u) :
    Framed c p B k b1 ∧ Backed c p B strict b1 := by
  cases op with
  | fetchPage q =>
    simp only [BufferPoolManager.step] at hr
    cases hf : b.FetchPage c q with
    | panic b2 fl => rw [hf] at hr; cases hr
    | ok b2 r =>
      rw [hf] at hr
      simp only [Res.ok.injEq] at hr
      rw [← hr.1]
      have := BufferPoolManager.FetchPage_cached c p B k strict b b2 q r h.weaken hb hop hf
      exact ⟨this.1, this.2.1⟩
  | newPage =>
    simp only [BufferPoolManager.step] at hr
    cases hf : b.NewPage c with
    | panic b2 fl => rw [hf] at hr; cases hr
    | ok b2 r =>
      rw [hf] at hr
      simp only [Res.ok.injEq] at hr
      rw [← hr.1]
      exact BufferPoolManager.NewPage_cached c p B k strict b b2 r h hb hf
  | unpinPage q d =>
    simp only [BufferPoolManager.step] at hr
    cases hf : b.UnpinPage c q d with
    | panic b2 fl => rw [hf] at hr; cases hr
    | ok b2 r =>
      rw [hf] at hr
      simp only [Res.ok.injEq] at hr
      rw [← hr.1]
      have := BufferPoolManager.UnpinPage_cached c p B k b b2 q d r h.weaken hf
      exact ⟨this.1, this.2.1 strict hb⟩
  | flushPage q =>
    simp only [BufferPoolManager.step] at hr
    cases hf : b.FlushPage c q with
    | panic b2 fl => rw [hf] at hr; cases hr
    | ok b2 r =>
      rw [hf] at hr
      simp only [Res.ok.injEq] at hr
      rw [← hr.1]
      have := BufferPoolManager.FlushPage_cached c p B k b b2 q r h.weaken hf
      exact ⟨this.1, this.2 strict hb⟩
  | deletePage q =>
    simp only [BufferPoolManager.step] at hr
    exact BufferPoolManager.DeletePage_cached c p B k strict b b1 q u h.weaken hb
      (fun hs e => hdel hs (by rw [e])) hr
  | flushAllPages =>
    simp only [BufferPoolManager.step, BufferPoolManager.FlushAllPages] at hr
    have := BufferPoolManager.flushEach_cached c p B k _ b b1 u h.weaken hr
    exact ⟨this.1, this.2 strict hb⟩
  | flushAllDirtyPages =>
    simp only [BufferPoolManager.step, BufferPoolManager.FlushAllDirtyPages] at hr
    cases hd : b.dirtyPageIDs b.pageTable with
    | none => rw [hd] at hr; cases hr
    | some ids =>
      rw [hd] at hr
      have := BufferPoolManager.flushEach_cached c p B k ids b b1 u h.weaken hr
      exact ⟨this.1, this.2 strict hb⟩

theorem BufferPoolManager.run_cached (c : Common) (p : Int) (B : List UInt8)
    (strict : Bool) (ops : List Op) :
    ∀ (k : Nat) (b b1 : BufferPoolManager) (u : Unit), Framed c p B (k + ops.length) b →
      Backed c p B strict b → (∀ op ∈ ops, op.Admitted c) →
      (strict = false → Op.deletePage p ∉ ops) → b.run c ops = .ok b1 u →
      Framed c p B k b1 ∧ Backed c p B strict b1 := by
  induction ops with
  | nil =>
    intro k b b1 u h hb _ _ hr
    simp only [BufferPoolManager.run, Res.ok.injEq] at hr
    rw [← hr.1]
    exact ⟨h, hb⟩
  | cons op rest ih =>
    intro k b b1 u h hb hadm hdel hr
    unfold BufferPoolManager.run at hr
    cases hs : b.step c op with
    | panic b2 fl => rw [hs] at hr; cases hr
    | ok b2 u2 =>
      rw [hs] at hr
      simp only at hr
      have h1 : Framed c p B (k + rest.length + 1) b := h
      obtain ⟨h2, hb2⟩ := BufferPoolManager.step_cached c p B (k + rest.length) strict b b2 op
        u2 h1 hb (hadm op (List.mem_cons_self _ _))
        (fun hst e => hdel hst (by rw [e]; exact List.mem_cons_self _ _)) hs
      exact ih k b2 b1 u h2 hb2 (fun o ho => hadm o (List.mem_cons_of_mem _ ho))
        (fun hst hm => hdel hst (List.mem_cons_of_mem _ hm)) hr

end SamehadaDB

namespace SamehadaDB

/-- The bytes a `FetchPage(p)` returns after page `p`, unpinned dirty, has left the
directory, stated on the states `b1` and `b2` in which the two runs end. -/
theorem BufferPoolManager.fetch_after_eviction (c : Common) (b b1 b2 : BufferPoolManager)
    (p : Int)
    (pg pg1 : Page) (ops1 ops2 : List Op) (hps : 0 < c.PageSize) (hinv : b.Inv)
    (hframes : ∀ (f : Nat) (x : Page), b.pages[f]? = some (some x) →
      x.data.length = c.PageSize ∧ ValidID c x.id)
    (hcopy : ∀ (f : Nat) (x : Page), b.pages[f]? = some (some x) → x.id = p →
      tableGet b.pageTable p = some f)
    (hres : b.pageOf p = some pg) (hnext : p < b.diskManager.nextPageID)
    (hbudget : (b.diskManager.nextPageID + ((ops1.length + ops2.length : Nat) : Int))
      * c.PageSize < 2147483648)
    (hadm : ∀ op ∈ ops1 ++ ops2, op.Admitted c) (hnodel : Op.deletePage p ∉ ops1)
    (hrun1 : b.run c (Op.unpinPage p true :: ops1) = .ok b1 ())
    (hgone : tableGet b1.pageTable p = none)
    (hrun2 : b1.run c ops2 = .ok b2 ())
    (hfetch : (b2.FetchPage c p).value = some (some pg1)) : pg1.data = pg.data := by
  obtain ⟨f, hget, hfr⟩ := (BufferPoolManager.pageOf_eq_some b p pg).mp hres
  obtain ⟨pg0, hpg0, hid0⟩ := hinv.table p f (tableGet_mem _ _ _ hget)
  rw [hfr] at hpg0
  simp only [Option.some.injEq] at hpg0
  rw [← hpg0] at hid0
  have hF : Framed c p pg.data (ops1.length + ops2.length) b := by
    refine ⟨hinv, hframes, ?_, ?_, hps, hnext, hbudget⟩
    · intro g x hx hxp
      have hg := hcopy g x hx hxp
      refine ⟨?_, hg⟩
      rw [hget] at hg
      simp only [Option.some.injEq] at hg
      rw [← hg, hfr] at hx
      simp only [Option.some.injEq] at hx
      rw [hx]
    · rw [← hid0]
      exact (hframes f pg hfr).2
  unfold BufferPoolManager.run at hrun1
  simp only [BufferPoolManager.step] at hrun1
  cases hun : b.UnpinPage c p true with
  | panic b0 fl => rw [hun] at hrun1; cases hrun1
  | ok b0 r0 =>
    rw [hun] at hrun1
    simp only at hrun1
    obtain ⟨hF0, _, hB0⟩ := BufferPoolManager.UnpinPage_cached c p pg.data _ b b0 p true r0
      hF hun
    have hB0 := hB0 rfl rfl (by rw [hget]; exact fun e => Option.noConfusion e)
    rw [Nat.add_comm] at hF0
    obtain ⟨hF1, hB1⟩ := BufferPoolManager.run_cached c p pg.data false ops1 ops2.length b0 b1
      () hF0 hB0 (fun op ho => hadm op (List.mem_append_left _ ho)) (fun _ => hnodel) hrun1
    have hB1s : Backed c p pg.data true b1 := by
      rcases hB1 with hon | ⟨_, g, x, hx, hxp, _⟩
      · exact Or.inl hon
      · have := (hF1.copy g x hx hxp).2
        rw [hgone] at this
        cases this
    have hF1z : Framed c p pg.data (0 + ops2.length) b1 := by
      rw [Nat.zero_add]
      exact hF1
    obtain ⟨hF2, hB2⟩ := BufferPoolManager.run_cached c p pg.data true ops2 0 b1 b2 () hF1z
      hB1s (fun op ho => hadm op (List.mem_append_right _ ho))
      (fun e => Bool.noConfusion e) hrun2
    cases hf : b2.FetchPage c p with
    | panic b3 fl => rw [hf] at hfetch; cases hfetch
    | ok b3 r =>
      rw [hf] at hfetch
      simp only [Res.value, Option.some.injEq] at hfetch
      exact (BufferPoolManager.FetchPage_cached c p pg.data 0 true b2 b3 p r hF2 hB2
        hF2.pvalid hf).2.2 rfl pg1 hfetch

theorem cachedExample_inv : cachedExample.Inv := by
  refine ⟨?_, ?_, ?_, ?_⟩
  · intro k f hkf
    simp only [cachedExample, List.mem_singleton, Prod.mk.injEq] at hkf
    obtain ⟨hk, hf⟩ := hkf
    subst hk
    subst hf
    exact ⟨_, rfl, rfl⟩
  · intro f hf
    simp [cachedExample] at hf
  · exact List.nodup_nil
  · decide

theorem cachedExample_frames (f : Nat) (x : Page)
    (h : cachedExample.pages[f]? = some (some x)) :
    x = { id := 0, pinCount := 1, isDirty := false, data := [5, 6] } := by
  match f, h with
  | 0, h =>
    simp only [cachedExample, List.getElem?_cons_zero, Option.some.injEq] at h
    exact h.symm
  | n + 1, h =>
    simp [cachedExample] at h

theorem Res.eq_ok_of_value {σ : Type} (r : Res σ Unit) (h : r.value = some ()) :
    r = .ok r.state () := by
  cases r with
  | ok s a => rfl
  | panic s f => cases h

/-- C24. Eviction preserves dirty data. Take a pool that satisfies the pool invariant,
whose frames hold pages of `PageSize` bytes with valid ids (from 0, offset below 2^31),
in which page `p` is resident with bytes `pg.data`, no other frame holds a copy of page
`p`, the pager's next page id is above `p`, and the run allocates no page id whose offset
reaches 2^31. Run `UnpinPage(p, true)` and then any calls `ops1` (every `FetchPage` of a
valid id, no `DeletePage(p)`) after which page `p` is no longer in the directory: a
`FetchPage` or `NewPage` displaced it. Run any further calls `ops2` (every `FetchPage` of
a valid id). If all these calls return, a `FetchPage(p)` that then returns a page returns
one whose bytes are `pg.data`. -/
theorem eviction_preserves_dirty_data (c : Common) (b : BufferPoolManager) (p : Int)
    (pg : Page) (ops1 ops2 : List Op) (hps : 0 < c.PageSize) (hinv : b.Inv)
    (hframes : ∀ (f : Nat) (x : Page), b.pages[f]? = some (some x) →
      x.data.length = c.PageSize ∧ ValidID c x.id)
    (hcopy : ∀ (f : Nat) (x : Page), b.pages[f]? = some (some x) → x.id = p →
      tableGet b.pageTable p = some f)
    (hres : b.pageOf p = some pg) (hnext : p < b.diskManager.nextPageID)
    (hbudget : (b.diskManager.nextPageID + ((ops1.length + ops2.length : Nat) : Int))
      * c.PageSize < 2147483648)
    (hadm : ∀ op ∈ ops1 ++ ops2, op.Admitted c) (hnodel : Op.deletePage p ∉ ops1)
    (hrun1 : (b.run c (Op.unpinPage p true :: ops1)).value = some ())
    (hgone : tableGet (b.run c (Op.unpinPage p true :: ops1)).state.pageTable p = none)
    (hrun2 : ((b.run c (Op.unpinPage p true :: ops1)).state.run c ops2).value = some ()) :
    ∀ pg1 : Page,
      (((b.run c (Op.unpinPage p true :: ops1)).state.run c ops2).state.FetchPage c p).value
        = some (some pg1) →
      pg1.data = pg.data :=
  fun pg1 hfetch =>
    BufferPoolManager.fetch_after_eviction c b _ _ p pg pg1 ops1 ops2 hps hinv hframes hcopy
      hres hnext hbudget hadm hnodel (Res.eq_ok_of_value _ hrun1) hgone
      (Res.eq_ok_of_value _ hrun2) hfetch

/-- Witness of C24: in `cachedExample` page 0 is resident with the bytes `[5, 6]`, which
the data file does not have. After `UnpinPage(0, true)` the call `FetchPage(1)` takes the
only frame, so page 0 leaves the directory; after `UnpinPage(1, false)` the call
`FetchPage(0)` returns page 0 with the bytes `[5, 6]`. -/
theorem eviction_preserves_dirty_data_witness :
    cachedExample.diskManager.storedPage tinyCommon 0 = [0, 0] ∧
    (((cachedExample.run tinyCommon [.unpinPage 0 true, .fetchPage 1]).state.run tinyCommon
      [.unpinPage 1 false]).state.FetchPage tinyCommon 0).value
      = some (some { id := 0, pinCount := 1, isDirty := false, data := [5, 6] }) ∧
    ∀ pg1 : Page,
      (((cachedExample.run tinyCommon [.unpinPage 0 true, .fetchPage 1]).state.run tinyCommon
        [.unpinPage 1 false]).state.FetchPage tinyCommon 0).value = some (some pg1) →
      pg1.data = [5, 6] :=
  ⟨by decide, by decide,
   eviction_preserves_dirty_data tinyCommon cachedExample 0
    { id := 0, pinCount := 1, isDirty := false, data := [5, 6] }
    [.fetchPage 1] [.unpinPage 1 false] (by decide) cachedExample_inv
    (fun f x h => by rw [cachedExample_frames f x h]; decide)
    (fun f x h _ => by
      match f, h with
      | 0, _ => rfl
      | n + 1, h => simp [cachedExample] at h)
    (by decide) (by decide) (by decide) (by decide) (by decide) (by decide) (by decide)
    (by decide)⟩

end SamehadaDB

namespace SamehadaDB

/-! ## Pins minus decrements -/

theorem BufferPoolManager.pinCountOf_nonneg (b : BufferPoolManager) (h : b.NonNeg)
    (pid : Int) (n : Int) (hn : b.pinCountOf pid = some n) : 0 ≤ n := by
  unfold BufferPoolManager.pinCountOf at hn
  cases hg : tableGet b.pageTable pid with
  | none => rw [hg] at hn; cases hn
  | some f =>
    rw [hg] at hn
    simp only at hn
    cases hp : b.pages[f]? with
    | none => rw [hp] at hn; cases hn
    | some o =>
      cases o with
      | none => rw [hp] at hn; cases hn
      | some pg =>
        rw [hp] at hn
        simp only [Option.some.injEq] at hn
        rw [← hn]
        exact h f pg hp

theorem BufferPoolManager.pinCountOf_exact_delete (b b1 : BufferPoolManager) (k : Int)
    (hT : b1.pageTable = tableDelete b.pageTable k) (hP : b1.pages = b.pages) (pid : Int) :
    b1.pinCountOf pid = if pid = k then none else b.pinCountOf pid := by
  unfold BufferPoolManager.pinCountOf
  rw [hT, hP]
  by_cases hpk : pid = k
  · rw [if_pos hpk, hpk, tableGet_tableDelete_self]
  · rw [if_neg hpk, tableGet_tableDelete_ne _ _ _ hpk]

theorem BufferPoolManager.mem_drops (b : BufferPoolManager) (op : Op) (pid : Int) :
    pid ∈ b.drops op ↔ pid ∈ b.decrements op ∧ b.pinCountOf pid ≠ none := by
  unfold BufferPoolManager.drops
  rw [List.mem_filter]
  cases b.pinCountOf pid <;> simp

theorem BufferPoolManager.count_drops (b : BufferPoolManager) (op : Op) (pid : Int) :
    (b.drops op).count pid
      = if b.pinCountOf pid = none then 0 else (b.decrements op).count pid := by
  unfold BufferPoolManager.drops
  cases hp : b.pinCountOf pid with
  | none =>
    rw [if_pos rfl]
    apply List.count_eq_zero.mpr
    intro hm
    rw [List.mem_filter] at hm
    rw [hp] at hm
    simp at hm
  | some n =>
    rw [if_neg (by simp)]
    rw [List.count_filter]
    rw [hp]
    rfl

end SamehadaDB

namespace SamehadaDB

theorem BufferPoolManager.guard_of_counts (c : Common) (b : BufferPoolManager) (op : Op)
    (bal : Int → Int) (ht : b.Tallied bal)
    (hcnt : ∀ pid ∈ b.drops op, 0 ≤ b.balanceAfter c op bal pid) : b.guard op = true := by
  unfold BufferPoolManager.guard
  rw [List.all_eq_true]
  intro pid hpid
  cases hp : b.pinCountOf pid with
  | none => rfl
  | some n =>
    have hmem : pid ∈ b.drops op :=
      (BufferPoolManager.mem_drops b op pid).mpr ⟨hpid, by rw [hp]; simp⟩
    have h0 := hcnt pid hmem
    have hpin : b.pinned c op = none := by
      cases op with
      | fetchPage q => simp [BufferPoolManager.decrements] at hpid
      | newPage => simp [BufferPoolManager.decrements] at hpid
      | deletePage q => simp [BufferPoolManager.decrements] at hpid
      | unpinPage q d => rfl
      | flushPage q => rfl
      | flushAllPages => rfl
      | flushAllDirtyPages => rfl
    have hcount : 1 ≤ (b.drops op).count pid := List.count_pos_iff.mpr hmem
    have hb := ht pid
    rw [hp] at hb
    simp only [Option.getD_some] at hb
    simp only [BufferPoolManager.balanceAfter, hpin, hb] at h0
    simp only [decide_eq_true_eq]
    have h1 : (1 : Int) ≤ ((b.drops op).count pid : Int) := by exact_mod_cast hcount
    simp at h0
    omega

theorem BufferPoolManager.tallied_dec (c : Common) (b b1 : BufferPoolManager) (op : Op)
    (bal : Int → Int) (ids : List Int) (ht : b.Tallied bal) (hpin : b.pinned c op = none)
    (hdec : b.decrements op = ids)
    (hafter : ∀ pid, b1.pinCountOf pid
      = (b.pinCountOf pid).map (fun n => n - (ids.count pid : Int))) :
    b1.Tallied (b.balanceAfter c op bal) := by
  intro pid
  have hb := ht pid
  simp only [BufferPoolManager.balanceAfter, hpin, BufferPoolManager.count_drops, hdec,
    hafter pid]
  cases hp : b.pinCountOf pid with
  | none =>
    rw [hp] at hb
    simp only [Option.getD_none] at hb
    simp [hb]
  | some n =>
    rw [hp] at hb
    simp only [Option.getD_some] at hb
    simp [hb]

theorem BufferPoolManager.UnpinPage_tallied (c : Common) (b b1 : BufferPoolManager)
    (q : Int) (d r : Bool) (bal : Int → Int) (hinv : b.Inv) (ht : b.Tallied bal)
    (hr : b.UnpinPage c q d = .ok b1 r) :
    b1.Tallied (b.balanceAfter c (.unpinPage q d) bal) := by
  apply BufferPoolManager.tallied_dec c b b1 (.unpinPage q d) bal [q] ht rfl rfl
  intro pid
  rw [BufferPoolManager.UnpinPage_pin c b b1 q d r hinv hr pid]
  congr 1
  funext n
  by_cases hpq : pid = q
  · subst hpq; simp
  · have : ¬ (q = pid) := fun e => hpq e.symm
    simp [hpq, this]

theorem BufferPoolManager.FlushPage_tallied (c : Common) (b b1 : BufferPoolManager)
    (q : Int) (r : Bool) (bal : Int → Int) (hinv : b.Inv) (ht : b.Tallied bal)
    (hr : b.FlushPage c q = .ok b1 r) :
    b1.Tallied (b.balanceAfter c (.flushPage q) bal) := by
  apply BufferPoolManager.tallied_dec c b b1 (.flushPage q) bal [q] ht rfl rfl
  intro pid
  rw [BufferPoolManager.FlushPage_pin c b b1 q r hinv hr pid]
  congr 1
  funext n
  by_cases hpq : pid = q
  · subst hpq; simp
  · have : ¬ (q = pid) := fun e => hpq e.symm
    simp [hpq, this]

end SamehadaDB

namespace SamehadaDB

theorem BufferPoolManager.DeletePage_tallied (c : Common) (b b1 : BufferPoolManager)
    (q : Int) (u : Unit) (bal : Int → Int) (hinv : b.Inv) (hnn : b.NonNeg)
    (ht : b.Tallied bal) (hr : b.DeletePage q = .ok b1 u) :
    b1.Tallied (b.balanceAfter c (.deletePage q) bal) := by
  intro pid
  have hbal : b.balanceAfter c (.deletePage q) bal pid = bal pid := by
    simp [BufferPoolManager.balanceAfter, BufferPoolManager.pinned, BufferPoolManager.drops,
      BufferPoolManager.decrements]
  rw [hbal, ht pid]
  cases hget : tableGet b.pageTable q with
  | none =>
    simp only [BufferPoolManager.DeletePage, hget, Res.ok.injEq] at hr
    rw [← hr.1]
  | some f =>
    obtain ⟨pg, hfr, hidq⟩ := hinv.table q f (tableGet_mem _ _ _ hget)
    simp only [BufferPoolManager.DeletePage, hget, hfr, hidq, if_true] at hr
    split at hr
    · cases hr
    · rename_i hpin
      simp only [Res.ok.injEq] at hr
      obtain ⟨hb1, _⟩ := hr
      have hpages : b1.pages = b.pages.set f none := by rw [← hb1]
      have htable : b1.pageTable = tableDelete b.pageTable q := by rw [← hb1]
      by_cases hpq : pid = q
      · have h1 : b1.pinCountOf pid = none := by
          unfold BufferPoolManager.pinCountOf
          rw [htable, hpq, tableGet_tableDelete_self]
        have h0 : b.pinCountOf pid = some pg.pinCount := by
          unfold BufferPoolManager.pinCountOf
          rw [hpq, hget]
          simp only [hfr]
        rw [h1, h0]
        have := hnn f pg hfr
        simp only [Option.getD_some, Option.getD_none]
        omega
      · have h1 : b1.pinCountOf pid = b.pinCountOf pid := by
          unfold BufferPoolManager.pinCountOf
          rw [htable, tableGet_tableDelete_ne _ _ _ hpq, hpages]
          cases hg : tableGet b.pageTable pid with
          | none => rfl
          | some g =>
            have hgf : f ≠ g := by
              intro e
              rw [← e] at hg
              exact hpq (hinv.frame_inj pid q f hg hget)
            simp only [List.getElem?_set_ne hgf]
        rw [h1]

/-- The pin counts of the directory after the block that takes a frame: they are the same,
or the page `cur` of the frame taken from the replacer has left the directory. -/
theorem BufferPoolManager.removePhase_counts (c : Common) (b b1 b2 : BufferPoolManager)
    (f : Nat) (fromFree : Bool) (u : Unit)
    (hg : b.getFrameID = (some f, fromFree, b1))
    (hr : (if fromFree then Res.ok b1 () else b1.removeCurrent c f) = .ok b2 u) :
    (∀ pid, b2.pinCountOf pid = b.pinCountOf pid) ∨
    (fromFree = false ∧ ∃ cur : Page, b.pages[f]? = some (some cur) ∧
      ∀ pid, b2.pinCountOf pid = if pid = cur.id then none else b.pinCountOf pid) := by
  obtain ⟨hp1, ht1, _, _⟩ := BufferPoolManager.getFrameID_pages b b1 _ _ hg
  have hsame1 := BufferPoolManager.pinCountOf_congr b b1 ht1 hp1
  cases fromFree with
  | true =>
    simp only [if_true, Res.ok.injEq] at hr
    rw [← hr.1]
    exact Or.inl hsame1
  | false =>
    simp only [Bool.false_eq_true, if_false] at hr
    unfold BufferPoolManager.removeCurrent at hr
    rw [hp1] at hr
    cases hfr : b.pages[f]? with
    | none => rw [hfr] at hr; cases hr
    | some o =>
      cases o with
      | none =>
        rw [hfr] at hr
        simp only [Res.ok.injEq] at hr
        rw [← hr.1]
        exact Or.inl hsame1
      | some cur =>
        rw [hfr] at hr
        simp only at hr
        right
        refine ⟨rfl, cur, rfl, ?_⟩
        have hdel : ∀ b3 : BufferPoolManager, b3.pageTable = tableDelete b1.pageTable cur.id →
            b3.pages = b1.pages →
            ∀ pid, b3.pinCountOf pid = if pid = cur.id then none else b.pinCountOf pid := by
          intro b3 hT hP pid
          rw [BufferPoolManager.pinCountOf_exact_delete b1 b3 cur.id hT hP pid, hsame1 pid]
        split at hr
        · cases hw : b1.diskManager.WritePage c cur.id cur.data with
          | panic d fl => rw [hw] at hr; cases hr
          | ok d v =>
            rw [hw] at hr
            simp only [Res.ok.injEq] at hr
            obtain ⟨hb2, _⟩ := hr
            exact hdel b2 (by rw [← hb2]) (by rw [← hb2]; exact hp1.symm)
        · simp only [Res.ok.injEq] at hr
          obtain ⟨hb2, _⟩ := hr
          exact hdel b2 (by rw [← hb2]) (by rw [← hb2]; exact hp1.symm)

end SamehadaDB

namespace SamehadaDB

/-- The pin counts of the directory once the page `pgN`, pinned once and not resident
before, is in the frame the removal block has cleared. -/
theorem BufferPoolManager.install_tallied (c : Common) (b b0 b2 b1 : BufferPoolManager)
    (f : Nat) (fromFree : Bool) (u : Unit) (qn : Int) (pgN : Page) (bal : Int → Int)
    (hinv : b.Inv) (hnn : b.NonNeg) (ht : b.Tallied bal) (hsp : b.sparesVictim = true)
    (hg : b.getFrameID = (some f, fromFree, b0))
    (hrem : (if fromFree then Res.ok b0 () else b0.removeCurrent c f) = .ok b2 u)
    (hnew : b.pinCountOf qn = none) (hid : pgN.id = qn) (hpin : pgN.pinCount = 1)
    (hpages : b1.pages = b2.pages.set f (some pgN))
    (htable : b1.pageTable = tableSet b2.pageTable qn f) :
    ∀ pid, bal pid + (if some qn = some pid then 1 else 0) = (b1.pinCountOf pid).getD 0 := by
  intro pid
  have hdet := (BufferPoolManager.removePhase_inv c b b0 f fromFree hinv hg).2 b2 u hrem
  rw [BufferPoolManager.pinCountOf_install b2 b1 f pgN hdet (by rw [hid]; exact htable) hpages
    pid, hid, hpin]
  by_cases hpq : pid = qn
  · rw [hpq, if_pos rfl, if_pos rfl, ht qn, hnew]
    rfl
  · have hne : ¬ (some qn = some pid) := by
      intro e
      simp only [Option.some.injEq] at e
      exact hpq e.symm
    rw [if_neg hne, if_neg hpq, Int.add_zero, ht pid]
    rcases BufferPoolManager.removePhase_counts c b b0 b2 f fromFree u hg hrem with
      hsame | ⟨hff, cur, hfr, hgone⟩
    · rw [hsame pid]
    · rw [hgone pid]
      by_cases hpc : pid = cur.id
      · rw [if_pos hpc, hpc]
        subst hff
        unfold BufferPoolManager.sparesVictim at hsp
        rw [hg] at hsp
        simp only [hfr] at hsp
        cases hn : b.pinCountOf cur.id with
        | none => rfl
        | some n =>
          rw [hn] at hsp
          simp only [decide_eq_true_eq] at hsp
          have := BufferPoolManager.pinCountOf_nonneg b hnn cur.id n hn
          simp only [Option.getD_some, Option.getD_none]
          omega
      · rw [if_neg hpc]

theorem BufferPoolManager.FetchPage_tallied (c : Common) (b b1 : BufferPoolManager)
    (q : Int) (r : Option Page) (bal : Int → Int) (hinv : b.Inv) (hnn : b.NonNeg)
    (ht : b.Tallied bal) (hsp : b.spares (.fetchPage q) = true)
    (hr : b.FetchPage c q = .ok b1 r) :
    b1.Tallied (b.balanceAfter c (.fetchPage q) bal) := by
  have hbal : ∀ pid, b.balanceAfter c (.fetchPage q) bal pid
      = bal pid + (if r.map (fun pg => pg.id) = some pid then 1 else 0) := by
    intro pid
    have hp : b.pinned c (.fetchPage q) = r.map (fun pg => pg.id) := by
      simp only [BufferPoolManager.pinned, hr, Res.value]
      cases r <;> rfl
    simp [BufferPoolManager.balanceAfter, hp, BufferPoolManager.drops,
      BufferPoolManager.decrements]
  intro pid
  rw [hbal pid]
  cases hget : tableGet b.pageTable q with
  | some f =>
    obtain ⟨pg, hfr, hidq⟩ := hinv.table q f (tableGet_mem _ _ _ hget)
    have hlt : f < b.pages.length := by
      rcases Nat.lt_or_ge f b.pages.length with hl | hl
      · exact hl
      · rw [List.getElem?_eq_none hl] at hfr; cases hfr
    simp only [BufferPoolManager.FetchPage, hget, hfr, Res.ok.injEq] at hr
    obtain ⟨hb1, hr1⟩ := hr
    have hpages : b1.pages = b.pages.set f (some pg.IncPinCount) := by rw [← hb1]
    have htable : b1.pageTable = b.pageTable := by rw [← hb1]
    rw [BufferPoolManager.pinCountOf_setSame b b1 q f pg.IncPinCount hinv hget hlt htable
      hpages pid, ← hr1, ht pid]
    have h0 : b.pinCountOf q = some pg.pinCount := by
      unfold BufferPoolManager.pinCountOf
      rw [hget]
      simp only [hfr]
    by_cases hpq : pid = q
    · rw [hpq, h0]
      simp [Page.IncPinCount, hidq]
    · have hne : ¬ (q = pid) := fun e => hpq e.symm
      simp [Page.IncPinCount, hidq, hpq, hne]
  | none =>
    have hnew : b.pinCountOf q = none :=
      (BufferPoolManager.pinCountOf_eq_none b q hinv).mpr hget
    simp only [BufferPoolManager.spares, hget] at hsp
    simp only [BufferPoolManager.FetchPage, hget] at hr
    rcases hgf : b.getFrameID with ⟨fr, fromFree, b0⟩
    rw [hgf] at hr
    obtain ⟨hp0, ht0, _, _⟩ := BufferPoolManager.getFrameID_pages b b0 _ _ hgf
    cases fr with
    | none =>
      simp only [Res.ok.injEq] at hr
      obtain ⟨hb1, hr1⟩ := hr
      rw [← hb1, ← hr1, BufferPoolManager.pinCountOf_congr b b0 ht0 hp0 pid, ht pid]
      simp
    | some f =>
      simp only at hr
      cases hrem : (if fromFree then Res.ok b0 () else b0.removeCurrent c f) with
      | panic b2 fl => rw [hrem] at hr; cases hr
      | ok b2 u =>
        rw [hrem] at hr
        simp only at hr
        cases hread : b2.diskManager.ReadPage c q (zeroBytes c.PageSize) with
        | panic d fl => rw [hread] at hr; cases hr
        | ok d res =>
          obtain ⟨e, data⟩ := res
          rw [hread] at hr
          cases e with
          | some err => cases hr
          | none =>
            simp only at hr
            split at hr
            · simp only [Res.ok.injEq] at hr
              obtain ⟨hb1, hr1⟩ := hr
              have hpages : b1.pages
                  = b2.pages.set f (some (Page.New q false (toPageArray c data))) := by
                rw [← hb1]
              have htable : b1.pageTable = tableSet b2.pageTable q f := by rw [← hb1]
              have := BufferPoolManager.install_tallied c b b0 b2 b1 f fromFree u q
                (Page.New q false (toPageArray c data)) bal hinv hnn ht hsp hgf hrem hnew
                rfl rfl hpages htable pid
              rw [← hr1]
              exact this
            · cases hr

theorem BufferPoolManager.NewPage_tallied (c : Common) (b b1 : BufferPoolManager)
    (r : Option Page) (bal : Int → Int) (hinv : b.Inv) (hnn : b.NonNeg)
    (ht : b.Tallied bal) (hsp : b.spares .newPage = true)
    (hr : b.NewPage c = .ok b1 r) :
    b1.Tallied (b.balanceAfter c .newPage bal) := by
  have hbal : ∀ pid, b.balanceAfter c .newPage bal pid
      = bal pid + (if r.map (fun pg => pg.id) = some pid then 1 else 0) := by
    intro pid
    have hp : b.pinned c .newPage = r.map (fun pg => pg.id) := by
      simp only [BufferPoolManager.pinned, hr, Res.value]
      cases r <;> rfl
    simp [BufferPoolManager.balanceAfter, hp, BufferPoolManager.drops,
      BufferPoolManager.decrements]
  intro pid
  rw [hbal pid]
  simp only [BufferPoolManager.spares, Bool.and_eq_true, Option.isNone_iff_eq_none] at hsp
  obtain ⟨hsv, hnew⟩ := hsp
  unfold BufferPoolManager.NewPage at hr
  rcases hgf : b.getFrameID with ⟨fr, fromFree, b0⟩
  rw [hgf] at hr
  obtain ⟨hp0, ht0, _, _⟩ := BufferPoolManager.getFrameID_pages b b0 _ _ hgf
  cases fr with
  | none =>
    simp only [Res.ok.injEq] at hr
    obtain ⟨hb1, hr1⟩ := hr
    rw [← hb1, ← hr1, BufferPoolManager.pinCountOf_congr b b0 ht0 hp0 pid, ht pid]
    simp
  | some f =>
    simp only at hr
    cases hrem : (if fromFree then Res.ok b0 () else b0.removeCurrent c f) with
    | panic b2 fl => rw [hrem] at hr; cases hr
    | ok b2 u =>
      rw [hrem] at hr
      simp only [VirtualDiskManagerImpl.allocatePage_eq] at hr
      have hn2 := (BufferPoolManager.removePhase_pin c b b0 b2 f fromFree u hgf hrem).2
      split at hr
      · simp only [Res.ok.injEq] at hr
        obtain ⟨hb1, hr1⟩ := hr
        have hpages : b1.pages
            = b2.pages.set f (some (Page.NewEmpty c b2.diskManager.nextPageID)) := by
          rw [← hb1]
        have htable : b1.pageTable = tableSet b2.pageTable b2.diskManager.nextPageID f := by
          rw [← hb1]
        rw [hn2] at hpages htable hr1
        have := BufferPoolManager.install_tallied c b b0 b2 b1 f fromFree u
          b.diskManager.nextPageID (Page.NewEmpty c b.diskManager.nextPageID) bal hinv hnn ht
          hsv hgf hrem hnew rfl rfl hpages htable pid
        rw [← hr1]
        exact this
      · cases hr

end SamehadaDB

namespace SamehadaDB

theorem BufferPoolManager.step_tallied (c : Common) (b b1 : BufferPoolManager) (op : Op)
    (u : Unit) (bal : Int → Int) (hinv : b.Inv) (hnn : b.NonNeg) (ht : b.Tallied bal)
    (hsp : b.spares op = true) (hs : b.step c op = .ok b1 u) :
    b1.Tallied (b.balanceAfter c op bal) := by
  cases op with
  | fetchPage q =>
    simp only [BufferPoolManager.step] at hs
    cases hf : b.FetchPage c q with
    | panic b2 fl => rw [hf] at hs; cases hs
    | ok b2 r =>
      rw [hf] at hs
      simp only [Res.ok.injEq] at hs
      rw [← hs.1]
      exact BufferPoolManager.FetchPage_tallied c b b2 q r bal hinv hnn ht hsp hf
  | newPage =>
    simp only [BufferPoolManager.step] at hs
    cases hf : b.NewPage c with
    | panic b2 fl => rw [hf] at hs; cases hs
    | ok b2 r =>
      rw [hf] at hs
      simp only [Res.ok.injEq] at hs
      rw [← hs.1]
      exact BufferPoolManager.NewPage_tallied c b b2 r bal hinv hnn ht hsp hf
  | unpinPage q d =>
    simp only [BufferPoolManager.step] at hs
    cases hf : b.UnpinPage c q d with
    | panic b2 fl => rw [hf] at hs; cases hs
    | ok b2 r =>
      rw [hf] at hs
      simp only [Res.ok.injEq] at hs
      rw [← hs.1]
      exact BufferPoolManager.UnpinPage_tallied c b b2 q d r bal hinv ht hf
  | flushPage q =>
    simp only [BufferPoolManager.step] at hs
    cases hf : b.FlushPage c q with
    | panic b2 fl => rw [hf] at hs; cases hs
    | ok b2 r =>
      rw [hf] at hs
      simp only [Res.ok.injEq] at hs
      rw [← hs.1]
      exact BufferPoolManager.FlushPage_tallied c b b2 q r bal hinv ht hf
  | deletePage q =>
    simp only [BufferPoolManager.step] at hs
    exact BufferPoolManager.DeletePage_tallied c b b1 q u bal hinv hnn ht hs
  | flushAllPages =>
    simp only [BufferPoolManager.step, BufferPoolManager.FlushAllPages] at hs
    exact BufferPoolManager.tallied_dec c b b1 .flushAllPages bal _ ht rfl rfl
      (BufferPoolManager.flushEach_pin c _ b b1 u hinv hs)
  | flushAllDirtyPages =>
    simp only [BufferPoolManager.step, BufferPoolManager.FlushAllDirtyPages] at hs
    cases hd : b.dirtyPageIDs b.pageTable with
    | none => rw [hd] at hs; cases hs
    | some ids =>
      rw [hd] at hs
      exact BufferPoolManager.tallied_dec c b b1 .flushAllDirtyPages bal ids ht rfl
        (by simp only [BufferPoolManager.decrements, hd, Option.getD_some])
        (BufferPoolManager.flushEach_pin c ids b b1 u hinv hs)

theorem BufferPoolManager.run_tallied (c : Common) (ops : List Op) :
    ∀ (b : BufferPoolManager) (bal : Int → Int), b.Inv → b.NonNeg → b.Tallied bal →
      b.neverOverUnpins c ops bal = true → b.sparing c ops = true →
      (b.run c ops).state.NonNeg ∧
      ((b.run c ops).value = some () → (b.run c ops).state.Tallied (b.balances c ops bal)) := by
  induction ops with
  | nil =>
    intro b bal _ hnn ht _ _
    exact ⟨hnn, fun _ => ht⟩
  | cons op rest ih =>
    intro b bal hinv hnn ht hcnt hsp
    unfold BufferPoolManager.neverOverUnpins at hcnt
    unfold BufferPoolManager.sparing at hsp
    rw [Bool.and_eq_true] at hcnt hsp
    have hall : ∀ pid ∈ b.drops op, 0 ≤ b.balanceAfter c op bal pid := by
      intro pid hpid
      have := List.all_eq_true.mp hcnt.1 pid hpid
      simpa using this
    have hguard := BufferPoolManager.guard_of_counts c b op bal ht hall
    have hnn1 := BufferPoolManager.step_nonNeg c b op hinv hnn hguard
    have hinv1 := BufferPoolManager.step_inv c b op hinv
    unfold BufferPoolManager.run BufferPoolManager.balances
    cases hs : b.step c op with
    | panic b1 fl =>
      rw [hs] at hnn1
      exact ⟨hnn1, fun h => by cases h⟩
    | ok b1 u =>
      rw [hs] at hnn1 hinv1
      have hc2 := hcnt.2
      have hs2 := hsp.2
      rw [hs] at hc2 hs2
      exact ih b1 _ hinv1 hnn1
        (BufferPoolManager.step_tallied c b b1 op u bal hinv hnn ht hsp.1 hs) hc2 hs2

theorem NewBufferPoolManager_tallied (poolSize : Nat) (d : VirtualDiskManagerImpl) :
    (NewBufferPoolManager poolSize d).Tallied (fun _ => 0) := by
  intro pid
  rfl

/-- The second hypothesis of the statement on pin counts cannot be dropped. Pool of one
frame over an empty data file: `NewPage` (page 0), `UnpinPage(0)`, `DeletePage(0)`, `NewPage`
(page 1, pinned), `NewPage` (page 2: the replacer hands out the frame of the pinned page
1), `UnpinPage(2)`, `FetchPage(1)`, `UnpinPage(1)`, `UnpinPage(1)`. No page is flushed,
page 1 is pinned twice and unpinned twice, every call returns, and page 1 ends with pin
count -1. -/
theorem pinned_eviction_unbalances :
    (NewBufferPoolManager 1 (NewVirtualDiskManagerImpl tinyCommon [])).neverOverUnpins
      tinyCommon
      [.newPage, .unpinPage 0 false, .deletePage 0, .newPage, .newPage, .unpinPage 2 false,
       .fetchPage 1, .unpinPage 1 false, .unpinPage 1 false] (fun _ => 0) = true ∧
    (NewBufferPoolManager 1 (NewVirtualDiskManagerImpl tinyCommon [])).sparing tinyCommon
      [.newPage, .unpinPage 0 false, .deletePage 0, .newPage, .newPage, .unpinPage 2 false,
       .fetchPage 1, .unpinPage 1 false, .unpinPage 1 false] = false ∧
    ((NewBufferPoolManager 1 (NewVirtualDiskManagerImpl tinyCommon [])).run tinyCommon
      [.newPage, .unpinPage 0 false, .deletePage 0, .newPage, .newPage, .unpinPage 2 false,
       .fetchPage 1, .unpinPage 1 false, .unpinPage 1 false]).value = some () ∧
    ((NewBufferPoolManager 1 (NewVirtualDiskManagerImpl tinyCommon [])).run tinyCommon
      [.newPage, .unpinPage 0 false, .deletePage 0, .newPage, .newPage, .unpinPage 2 false,
       .fetchPage 1, .unpinPage 1 false, .unpinPage 1 false]).state.pinCountOf 1
      = some (-1) := by
  decide

end SamehadaDB

namespace SamehadaDB

/-- C4 (amended). In the state reached by any sequence of calls on a fresh pool: (1) after
a further call that returns, the pin count of a resident page is 1 if the call brought the
page in (for `NewPage`, provided the id it allocates was not resident already), and
otherwise the old count, plus one for a `FetchPage` of that page, minus one for each
`DecPinCount` the call runs on it: `UnpinPage` of it and also `FlushPage` of it, hence
every resident page under `FlushAllPages` and every dirty one under `FlushAllDirtyPages`;
`DeletePage` changes no pin count. (2) If the sequence never decrements a page (by
`UnpinPage` or by a flush of it while it is resident) more often than it pins it (by a
`FetchPage` or `NewPage` that returns it), and no call takes a pinned page out of the
directory or is handed an id that is resident already, then no frame holds a page with a
negative pin count, and when every call has returned the pin count of each resident page
is the number of its pins minus the number of its decrements. -/
theorem pin_accounting (c : Common) (poolSize : Nat) (d : VirtualDiskManagerImpl)
    (ops : List Op) :
    (∀ (op : Op) (b' : BufferPoolManager) (pid n' : Int),
      (op = Op.newPage →
        ((NewBufferPoolManager poolSize d).run c ops).state.pinCountOf
          ((NewBufferPoolManager poolSize d).run c ops).state.diskManager.nextPageID = none) →
      ((NewBufferPoolManager poolSize d).run c ops).state.step c op = .ok b' () →
      b'.pinCountOf pid = some n' →
      n' = ((NewBufferPoolManager poolSize d).run c ops).state.expectedPin op pid) ∧
    ((NewBufferPoolManager poolSize d).neverOverUnpins c ops (fun _ => 0) = true →
      (NewBufferPoolManager poolSize d).sparing c ops = true →
      ((NewBufferPoolManager poolSize d).run c ops).state.NonNeg ∧
      (((NewBufferPoolManager poolSize d).run c ops).value = some () →
        ∀ (pid n : Int),
          ((NewBufferPoolManager poolSize d).run c ops).state.pinCountOf pid = some n →
          n = (NewBufferPoolManager poolSize d).balances c ops (fun _ => 0) pid)) := by
  have hinv := BufferPoolManager.run_inv c ops _ (NewBufferPoolManager_inv poolSize d)
  refine ⟨?_, ?_⟩
  · intro op b' pid n' hfresh hstep hn
    exact BufferPoolManager.step_pin c _ b' op hinv hfresh hstep pid n' hn
  · intro hcnt hsp
    obtain ⟨hnn, htal⟩ := BufferPoolManager.run_tallied c ops _ (fun _ => 0)
      (NewBufferPoolManager_inv poolSize d) (NewBufferPoolManager_nonNeg poolSize d)
      (NewBufferPoolManager_tallied poolSize d) hcnt hsp
    refine ⟨hnn, ?_⟩
    intro hret pid n hn
    have := htal hret pid
    rw [hn] at this
    exact this.symm

/-- Witness of C4 (amended): after `NewPage`, `FetchPage(0)` page 0 has pin count 2, and a
`FlushPage(0)` leaves it at 1. The run `NewPage`, `FetchPage(0)`, `FlushPage(0)`,
`UnpinPage(0)` pins page 0 twice and decrements it twice: no pin count is negative, and
page 0 ends with pin count 0. -/
theorem pin_accounting_witness :
    (1 : Int) = ((NewBufferPoolManager 2 (NewVirtualDiskManagerImpl tinyCommon [])).run tinyCommon
        [.newPage, .fetchPage 0]).state.expectedPin (.flushPage 0) 0 ∧
    ((NewBufferPoolManager 2 (NewVirtualDiskManagerImpl tinyCommon [])).run tinyCommon
        [.newPage, .fetchPage 0, .flushPage 0, .unpinPage 0 false]).state.NonNeg ∧
    (0 : Int) = (NewBufferPoolManager 2 (NewVirtualDiskManagerImpl tinyCommon [])).balances
        tinyCommon [.newPage, .fetchPage 0, .flushPage 0, .unpinPage 0 false] (fun _ => 0) 0 :=
  ⟨(pin_accounting tinyCommon 2 (NewVirtualDiskManagerImpl tinyCommon [])
      [.newPage, .fetchPage 0]).1 (.flushPage 0)
      (((NewBufferPoolManager 2 (NewVirtualDiskManagerImpl tinyCommon [])).run tinyCommon
        [.newPage, .fetchPage 0]).state.step tinyCommon (.flushPage 0)).state 0 1
      (fun h => by cases h) (by decide) (by decide),
   ((pin_accounting tinyCommon 2 (NewVirtualDiskManagerImpl tinyCommon [])
      [.newPage, .fetchPage 0, .flushPage 0, .unpinPage 0 false]).2 (by decide) (by decide)).1,
   ((pin_accounting tinyCommon 2 (NewVirtualDiskManagerImpl tinyCommon [])
      [.newPage, .fetchPage 0, .flushPage 0, .unpinPage 0 false]).2 (by decide) (by decide)).2
      (by decide) 0 0 (by decide)⟩

end SamehadaDB
